import Mathlib

/-!
Verification development for the category-graph pipeline of
katsugeneration/ja-wiki-category (src/category.py).

The Python dictionaries (Hash[K, Set[V]]) are embedded as association
lists `List (K × List V)`; a Python set is a list read up to membership.
Python dict lookup is `alookup` (first match; actual dicts have unique
keys, and maps built by the pipeline are constructed with `dinsert`,
which preserves key uniqueness).  defaultdict reads that insert a fresh
empty entry (autovivification) are modelled explicitly by `autoviv`.
Recursive visitor functions are embedded with an explicit depth fuel:
the fuel decreases exactly when the Python recursion nests one level
deeper, so fuel n models a call-stack depth budget of n.
-/

set_option linter.unusedSectionVars false

namespace Category

variable {α : Type} [DecidableEq α]
variable {β : Type} [DecidableEq β]

/-- Python dict lookup: first matching key. -/
def alookup : List (α × β) → α → Option β
  | [], _ => none
  | (k, v) :: rest, a => if k = a then some v else alookup rest a

/-- Python dict assignment d[k] = v: overwrite the existing entry,
else append a new one (insertion order preserved). -/
def dinsert : List (α × β) → α → β → List (α × β)
  | [], a, b => [(a, b)]
  | (k, v) :: rest, a, b =>
      if k = a then (k, b) :: rest else (k, v) :: dinsert rest a b

/-- Read of a set-valued dict with the empty set as default. -/
def lookupD (m : List (α × List β)) (a : α) : List β :=
  (alookup m a).getD []

/-- defaultdict autovivification: a bare d[k] read inserts an empty
entry when the key is missing. -/
def autoviv (m : List (α × List β)) (a : α) : List (α × List β) :=
  match alookup m a with
  | some _ => m
  | none => m ++ [(a, [])]

/-- Python set.add on a defaultdict(set) entry: d[k].add v. -/
def addToSet (m : List (α × List β)) (a : α) (b : β) : List (α × List β) :=
  let cur := lookupD m a
  dinsert m a (if b ∈ cur then cur else cur ++ [b])

/-- Python set union keeping the left operand's order first. -/
def setUnion (l r : List β) : List β :=
  l ++ r.filter (fun x => x ∉ l)

/-- All nodes of the graph: every key and every value of the
subcategory relation (Python builds the same set from keys | values). -/
def graphNodes (g : List (α × List α)) : List α :=
  (g.map Prod.fst ++ g.flatMap Prod.snd).dedup

/-- Keys of an association list are pairwise distinct (true of every
Python dict; maps built by the pipeline satisfy it by construction). -/
def NodupKeys (m : List (α × β)) : Prop :=
  (m.map Prod.fst).Nodup

section MapLemmas

theorem alookup_eq_none {m : List (α × β)} {a : α} :
    alookup m a = none ↔ ∀ b, (a, b) ∉ m := by
  induction m with
  | nil => simp [alookup]
  | cons p rest ih =>
      obtain ⟨k, v⟩ := p
      by_cases h : k = a
      · subst h
        constructor
        · intro hc
          simp [alookup] at hc
        · intro hall
          exact absurd (List.mem_cons_self (k, v) rest) (hall v)
      · simp only [alookup, if_neg h, ih]
        constructor
        · intro hall b hmem
          rcases List.mem_cons.mp hmem with heq | hmem2
          · exact h (congrArg Prod.fst heq).symm
          · exact hall b hmem2
        · intro hall b hmem
          exact hall b (List.mem_cons_of_mem _ hmem)

theorem alookup_mem {m : List (α × β)} {a : α} {b : β}
    (h : alookup m a = some b) : (a, b) ∈ m := by
  induction m with
  | nil => simp [alookup] at h
  | cons p rest ih =>
      obtain ⟨k, v⟩ := p
      by_cases hk : k = a
      · subst hk
        simp [alookup] at h
        simp [h]
      · simp only [alookup, if_neg hk] at h
        exact List.mem_cons_of_mem _ (ih h)

theorem mem_alookup_of_nodup {m : List (α × β)} {a : α} {b : β}
    (hnd : NodupKeys m) (h : (a, b) ∈ m) : alookup m a = some b := by
  induction m with
  | nil => simp at h
  | cons p rest ih =>
      obtain ⟨k, v⟩ := p
      unfold NodupKeys at hnd
      simp only [List.map_cons, List.nodup_cons] at hnd
      rcases List.mem_cons.mp h with heq | hmem
      · have h1 := congrArg Prod.fst heq
        have h2 := congrArg Prod.snd heq
        simp only at h1 h2
        subst h1; subst h2
        simp [alookup]
      · have hka : k ≠ a := by
          intro hk
          subst hk
          exact hnd.1 (List.mem_map.mpr ⟨(k, b), hmem, rfl⟩)
        simp only [alookup, if_neg hka]
        exact ih hnd.2 hmem

theorem alookup_dinsert_self (m : List (α × β)) (a : α) (b : β) :
    alookup (dinsert m a b) a = some b := by
  induction m with
  | nil => simp [dinsert, alookup]
  | cons p rest ih =>
      obtain ⟨k, v⟩ := p
      by_cases h : k = a
      · subst h; simp [dinsert, alookup]
      · simp [dinsert, if_neg h, alookup, if_neg h, ih]

theorem alookup_dinsert_ne (m : List (α × β)) {a c : α} (b : β)
    (h : c ≠ a) : alookup (dinsert m a b) c = alookup m c := by
  induction m with
  | nil =>
      have hac : ¬a = c := fun hc => h hc.symm
      simp [dinsert, alookup, hac]
  | cons p rest ih =>
      obtain ⟨k, v⟩ := p
      by_cases hk : k = a
      · subst hk
        have hkc : ¬k = c := fun hc => h hc.symm
        simp [dinsert, alookup, hkc]
      · by_cases hkc : k = c
        · subst hkc; simp [dinsert, if_neg hk, alookup]
        · simp [dinsert, if_neg hk, alookup, if_neg hkc, ih]

theorem mem_keys_dinsert {m : List (α × β)} {a c : α} {b : β} :
    c ∈ (dinsert m a b).map Prod.fst ↔ c = a ∨ c ∈ m.map Prod.fst := by
  induction m with
  | nil => simp [dinsert]
  | cons p rest ih =>
      obtain ⟨k, v⟩ := p
      by_cases hk : k = a
      · subst hk
        have : dinsert ((k, v) :: rest) k b = (k, b) :: rest := by
          simp [dinsert]
        rw [this]
        simp only [List.map_cons, List.mem_cons]
        constructor
        · rintro (rfl | h2)
          · exact Or.inl rfl
          · exact Or.inr (Or.inr h2)
        · rintro (rfl | rfl | h2)
          · exact Or.inl rfl
          · exact Or.inl rfl
          · exact Or.inr h2
      · have : dinsert ((k, v) :: rest) a b = (k, v) :: dinsert rest a b := by
          simp [dinsert, hk]
        rw [this]
        simp only [List.map_cons, List.mem_cons, ih]
        tauto

theorem dinsert_nodupKeys {m : List (α × β)} (a : α) (b : β)
    (h : NodupKeys m) : NodupKeys (dinsert m a b) := by
  induction m with
  | nil => simp [dinsert, NodupKeys]
  | cons p rest ih =>
      obtain ⟨k, v⟩ := p
      unfold NodupKeys at h ⊢
      simp only [List.map_cons, List.nodup_cons] at h
      by_cases hk : k = a
      · subst hk
        have : dinsert ((k, v) :: rest) k b = (k, b) :: rest := by
          simp [dinsert]
        rw [this]
        simp only [List.map_cons, List.nodup_cons]
        exact h
      · have heq : dinsert ((k, v) :: rest) a b = (k, v) :: dinsert rest a b := by
          simp [dinsert, hk]
        rw [heq]
        simp only [List.map_cons, List.nodup_cons]
        refine ⟨?_, ih h.2⟩
        intro hmem
        rcases mem_keys_dinsert.mp hmem with rfl | h3
        · exact hk rfl
        · exact h.1 h3

theorem mem_graphNodes {g : List (α × List α)} {x : α} :
    x ∈ graphNodes g ↔
      (∃ vs, (x, vs) ∈ g) ∨ (∃ k vs, (k, vs) ∈ g ∧ x ∈ vs) := by
  unfold graphNodes
  rw [List.mem_dedup, List.mem_append]
  constructor
  · rintro (h | h)
    · obtain ⟨⟨k, vs⟩, hm, he⟩ := List.mem_map.mp h
      exact Or.inl ⟨vs, he ▸ hm⟩
    · obtain ⟨⟨k, vs⟩, hm, he⟩ := List.mem_flatMap.mp h
      exact Or.inr ⟨k, vs, hm, he⟩
  · rintro (⟨vs, h⟩ | ⟨k, vs, hm, hv⟩)
    · exact Or.inl (List.mem_map.mpr ⟨(x, vs), h, rfl⟩)
    · exact Or.inr (List.mem_flatMap.mpr ⟨(k, vs), hm, hv⟩)

theorem key_mem_graphNodes {g : List (α × List α)} {x : α}
    (h : alookup g x ≠ none) : x ∈ graphNodes g := by
  rcases ho : alookup g x with _ | vs
  · exact absurd ho h
  · exact mem_graphNodes.mpr (Or.inl ⟨vs, alookup_mem ho⟩)

theorem child_mem_graphNodes {g : List (α × List α)} {x w : α}
    (h : w ∈ lookupD g x) : w ∈ graphNodes g := by
  unfold lookupD at h
  rcases ho : alookup g x with _ | vs
  · rw [ho] at h; simp at h
  · rw [ho] at h
    exact mem_graphNodes.mpr (Or.inr ⟨x, vs, alookup_mem ho, h⟩)

end MapLemmas

/-! ## Edge relation and reachability over the raw graph -/

/-- One subcategory edge of the graph (parent → child). -/
def Edge (g : List (α × List α)) (u w : α) : Prop :=
  w ∈ lookupD g u

/-- Reachability by zero or more subcategory edges. -/
inductive Reaches (g : List (α × List α)) : α → α → Prop
  | refl (v : α) : Reaches g v v
  | head {u w v : α} : Edge g u w → Reaches g w v → Reaches g u v

/-- Reachability by at least one edge. -/
def ReachesPlus (g : List (α × List α)) (u v : α) : Prop :=
  ∃ w, Edge g u w ∧ Reaches g w v

theorem Reaches.trans {g : List (α × List α)} {a b c : α}
    (h1 : Reaches g a b) (h2 : Reaches g b c) : Reaches g a c := by
  induction h1 with
  | refl => exact h2
  | head he _ ih => exact Reaches.head he (ih h2)

theorem Reaches.single {g : List (α × List α)} {a b : α}
    (h : Edge g a b) : Reaches g a b :=
  Reaches.head h (Reaches.refl b)

theorem reachesPlus_of_edge_reaches {g : List (α × List α)} {a b c : α}
    (h : Edge g a b) (h2 : Reaches g b c) : ReachesPlus g a c :=
  ⟨b, h, h2⟩

theorem Reaches.cases_eq_or_plus {g : List (α × List α)} {a b : α}
    (h : Reaches g a b) : a = b ∨ ReachesPlus g a b := by
  cases h with
  | refl => exact Or.inl rfl
  | head he hr => exact Or.inr ⟨_, he, hr⟩

/-! ## topological_sort_dfs

The source's recursive visit keeps per-node temporary/permanent marks
and raises on revisiting a temporary node; finished nodes are inserted
at the front of L.  A call visit(v) is embedded as processing the one
element work list [v]; descending into the children of a node consumes
one unit of depth fuel, exactly mirroring one level of Python call
nesting. -/

/-- Error outcome of the ordering step: the source raises
Exception("Graph has at least one cycle"); fuel is the embedding's
depth budget artifact. -/
inductive TopoErr
  | cycle
  | fuel
  deriving DecidableEq, Repr

/-- Mutable state of topological_sort_dfs: temporary marks, permanent
marks, and the result list L. -/
structure TopoState (α : Type) where
  temp : List α
  perm : List α
  L : List α
  deriving Repr

/-- A for-loop over a list of nodes: call the one-node visitor on
each element in turn, threading the state and propagating errors
(this is both the for m in categorygraph[v] loop and the top-level
while loop over all nodes). -/
def visitList (visit1 : TopoState α → α → Except TopoErr (TopoState α)) :
    TopoState α → List α → Except TopoErr (TopoState α)
  | s, [] => .ok s
  | s, v :: vs =>
      match visit1 s v with
      | .error e => .error e
      | .ok s2 => visitList visit1 s2 vs

/-- visit v: return at once on a permanent mark, raise the cycle
error on a temporary one, otherwise mark v temporary, visit its
children one call level deeper, then unmark, mark permanent, and
insert v at the front of L.  The first argument is the remaining
call depth; the source has no such bound and would instead exhaust
the Python call stack. -/
def visit (g : List (α × List α)) :
    Nat → TopoState α → α → Except TopoErr (TopoState α)
  | 0, s, v =>
      if v ∈ s.perm then .ok s
      else if v ∈ s.temp then .error .cycle
      else .error .fuel
  | f + 1, s, v =>
      if v ∈ s.perm then .ok s
      else if v ∈ s.temp then .error .cycle
      else
        match visitList (visit g f) ⟨v :: s.temp, s.perm, s.L⟩
            (lookupD g v) with
        | .error e => .error e
        | .ok s2 => .ok ⟨(s2.temp).erase v, v :: s2.perm, v :: s2.L⟩

/-- Depth budget used by the embedding: one more than the number of
distinct nodes (a depth the Python recursion can never exceed). -/
def defaultFuel (g : List (α × List α)) : Nat :=
  (graphNodes g).length + 1

/-- topological_sort_dfs with an explicit depth budget. -/
def topological_sort_dfs_fuel (fuel : Nat) (g : List (α × List α)) :
    Except TopoErr (List α) :=
  match visitList (visit g fuel) ⟨[], [], []⟩ (graphNodes g) with
  | .error e => .error e
  | .ok s => .ok s.L

/-- topological_sort_dfs (DFS algorithm in Cormen's book): the while
loop pops every node and visits it. -/
def topological_sort_dfs (g : List (α × List α)) :
    Except TopoErr (List α) :=
  topological_sort_dfs_fuel (defaultFuel g) g

/-! ## decompose_scc (Tarjan's algorithm)

Per-node fields index, lowlink, onStack become association lists /
a membership list; i, S and the component list L are threaded as
explicit state.  strong_connect's nested recursion is again embedded
with a depth fuel; none signals only fuel exhaustion (the source
function raises nothing). -/

/-- Mutable state of decompose_scc. -/
structure SccState (α : Type) where
  i : Nat
  comps : List (List α)
  S : List α
  idx : List (α × Nat)
  low : List (α × Nat)
  onS : List α
  deriving Repr

/-- Numeric index of a node, defaulting to 0; only read after the
field has been assigned. -/
def idxN (s : SccState α) (v : α) : Nat := (alookup s.idx v).getD 0

/-- Numeric lowlink of a node, defaulting to 0; only read after the
field has been assigned. -/
def lowN (s : SccState α) (v : α) : Nat := (alookup s.low v).getD 0

/-- Pop stack elements up to and including v (the do-while pop loop of
strong_connect).  The popped prefix becomes the new component.  The
source would fault on an empty stack if v were absent; the invariant
that v is on the stack makes the difference unobservable. -/
def popUntil : List α → α → (List α × List α)
  | [], _ => ([], [])
  | w :: rest, v =>
      if w = v then ([w], rest)
      else
        let p := popUntil rest v
        (w :: p.1, p.2)

/-- End of strong_connect when lowlink v = index v: pop the component
and append it to L. -/
def popComp (s : SccState α) (v : α) : SccState α :=
  let p := popUntil s.S v
  { s with
    S := p.2
    onS := s.onS.filter (fun x => x ∉ p.1)
    comps := s.comps ++ [p.1] }

/-- The for-loop over the children of v inside strong_connect: an
unindexed child is recursively connected and v's lowlink is lowered
to the child's; an indexed child still on the stack lowers v's
lowlink to the child's index.  The one-node connector (strong_connect
at the remaining call depth) is passed in. -/
def sccKids (sc1 : SccState α → α → Option (SccState α)) (v : α) :
    SccState α → List α → Option (SccState α)
  | s, [] => some s
  | s, w :: ws =>
      match alookup s.idx w with
      | none =>
          match sc1 s w with
          | none => none
          | some s2 =>
              sccKids sc1 v
                { s2 with
                  low := dinsert s2.low v (min (lowN s2 v) (lowN s2 w)) } ws
      | some iw =>
          if w ∈ s.onS then
            sccKids sc1 v
              { s with low := dinsert s.low v (min (lowN s v) iw) } ws
          else
            sccKids sc1 v s ws

/-- strong_connect v: assign index and lowlink, push v, process the
children one call level deeper, then emit a component when v is a
root.  The depth budget is the embedding's analogue of the Python
call stack. -/
def strongConnect (g : List (α × List α)) :
    Nat → SccState α → α → Option (SccState α)
  | 0, _, _ => none
  | f + 1, s, v =>
      let s1 : SccState α :=
        { s with
          idx := dinsert s.idx v s.i
          low := dinsert s.low v s.i
          i := s.i + 1
          S := v :: s.S
          onS := v :: s.onS }
      match sccKids (strongConnect g f) v s1 (lookupD g v) with
      | none => none
      | some s2 =>
          if lowN s2 v = idxN s2 v then some (popComp s2 v) else some s2

/-- The top-level loop of decompose_scc over all nodes, each call with
a fresh depth budget. -/
def sccLoop (g : List (α × List α)) (fuel : Nat) :
    SccState α → List α → Option (SccState α)
  | s, [] => some s
  | s, v :: vs =>
      match alookup s.idx v with
      | some _ => sccLoop g fuel s vs
      | none =>
          match strongConnect g fuel s v with
          | none => none
          | some s2 => sccLoop g fuel s2 vs

/-- decompose_scc with an explicit depth budget. -/
def decompose_scc_fuel (fuel : Nat) (g : List (α × List α)) :
    Option (List (List α)) :=
  match sccLoop g fuel ⟨0, [], [], [], [], []⟩ (graphNodes g) with
  | none => none
  | some s => some s.comps

/-- decompose_scc: strongly connected components (Tarjan's algorithm),
in order of completion. -/
def decompose_scc (g : List (α × List α)) : Option (List (List α)) :=
  decompose_scc_fuel (defaultFuel g) g

/-! ## _update_categorygraph and its two wrappers -/

/-- First loop of _update_categorygraph: map every edge through
category2indices into updated_categorygraph and its inverse, removing
self loops after each key (the defaultdict reads create the key's
entries even when everything is removed). -/
def buildCondensed (cg : List (α × List α)) (κ : α → Nat) :
    List (Nat × List Nat) × List (Nat × List Nat) :=
  cg.foldl
    (fun UI e =>
      let UI2 := e.2.foldl
        (fun (UI : List (Nat × List Nat) × List (Nat × List Nat)) v =>
          (addToSet UI.1 (κ e.1) (κ v), addToSet UI.2 (κ v) (κ e.1)))
        UI
      (dinsert UI2.1 (κ e.1)
         ((lookupD UI2.1 (κ e.1)).filter (fun x => x ≠ κ e.1)),
       dinsert UI2.2 (κ e.1)
         ((lookupD UI2.2 (κ e.1)).filter (fun x => x ≠ κ e.1))))
    ([], [])

/-- updated_categorygraph[v] |= updated_categorygraph[n], with the
defaultdict reads creating missing entries (v first, then n). -/
def unionInto (U : List (Nat × List Nat)) (v n : Nat) :
    List (Nat × List Nat) :=
  let U1 := autoviv U v
  let U2 := autoviv U1 n
  dinsert U2 v (setUnion (lookupD U2 v) (lookupD U2 n))

/-- Second loop of _update_categorygraph: walk the topological order
backwards and push each node's set into all of its parents. -/
def accumulate (I : List (Nat × List Nat)) (order : List Nat)
    (U : List (Nat × List Nat)) : List (Nat × List Nat) :=
  order.foldl
    (fun U n =>
      match alookup I n with
      | none => U
      | some parents => parents.foldl (fun U v => unionInto U v n) U)
    U

/-- Third loop of _update_categorygraph: re-key the page sets by
category index, unioning over the members of a component. -/
def buildPages (cp : List (α × List String)) (c2i : List (α × Nat)) :
    List (Nat × List String) :=
  c2i.foldl
    (fun up e =>
      match alookup cp e.1 with
      | none => up
      | some ps => dinsert up e.2 (setUnion (lookupD up e.2) ps))
    []

/-- _update_categorygraph: build the index graph, topologically sort
it (which may raise the cycle error), accumulate reachable sets, and
re-key the pages. -/
def _update_categorygraph (cp : List (α × List String))
    (cg : List (α × List α)) (c2i : List (α × Nat)) :
    Except TopoErr (List (Nat × List Nat) × List (Nat × List String)) :=
  match topological_sort_dfs
      (buildCondensed cg (fun c => (alookup c2i c).getD 0)).1 with
  | .error e => .error e
  | .ok sorted_list =>
      .ok (accumulate (buildCondensed cg (fun c => (alookup c2i c).getD 0)).2
             sorted_list.reverse
             (buildCondensed cg (fun c => (alookup c2i c).getD 0)).1,
           buildPages cp c2i)

/-- update_categorygraph_without_scc: enumerate the raw nodes as their
own indices (no condensation), then run _update_categorygraph. -/
def update_categorygraph_without_scc (cp : List (α × List String))
    (cg : List (α × List α)) :
    Except TopoErr
      (List (Nat × List Nat) × List (Nat × List String) × List (α × Nat)) :=
  match _update_categorygraph cp cg
      ((graphNodes cg).enum.map (fun p => (p.2, p.1))) with
  | .error e => .error e
  | .ok UP =>
      .ok (UP.1, UP.2, (graphNodes cg).enum.map (fun p => (p.2, p.1)))

/-- category2indices of update_categorygraph: each category mapped to
the position of its strongly connected component. -/
def buildC2I (scc_list : List (List α)) : List (α × Nat) :=
  scc_list.enum.foldl
    (fun m p => p.2.foldl (fun m c => dinsert m c p.1) m) []

/-- update_categorygraph: condense with decompose_scc, then run
_update_categorygraph over component indices. -/
def update_categorygraph (cp : List (α × List String))
    (cg : List (α × List α)) :
    Except TopoErr
      (List (Nat × List Nat) × List (Nat × List String) × List (α × Nat)) :=
  match decompose_scc cg with
  | none => .error .fuel
  | some scc_list =>
      match _update_categorygraph cp cg (buildC2I scc_list) with
      | .error e => .error e
      | .ok UP => .ok (UP.1, UP.2, buildC2I scc_list)

/-! ## The three queries -/

/-- show_category_directlinks: print the direct child set and the
direct page set when present; an unknown category prints nothing. -/
def show_category_directlinks (cp : List (α × List String))
    (cg : List (α × List α)) (category : α) :
    Option (List α) × Option (List String) :=
  (alookup cg category, alookup cp category)

/-- Mutable state of the visited-set DFS query. -/
structure DfsState (α : Type) where
  visited : List α
  cats : List α
  pages : List String
  deriving Repr

/-- The for-loop over children inside the DFS query's visit, with the
one-node visitor passed in. -/
def dfsList (visit1 : DfsState α → α → Option (DfsState α)) :
    DfsState α → List α → Option (DfsState α)
  | s, [] => some s
  | s, v :: vs =>
      match visit1 s v with
      | none => none
      | some s2 => dfsList visit1 s2 vs

/-- visit of show_category_alllinks_with_dfs: skip a visited node,
else mark it visited, union its direct pages and child set into the
accumulators, and visit the children one call level deeper. -/
def dfsVisit (cp : List (α × List String)) (cg : List (α × List α)) :
    Nat → DfsState α → α → Option (DfsState α)
  | 0, s, v => if v ∈ s.visited then some s else none
  | f + 1, s, v =>
      if v ∈ s.visited then some s
      else
        let s1 : DfsState α := { s with visited := v :: s.visited }
        let s2 :=
          match alookup cp v with
          | some ps => { s1 with pages := setUnion s1.pages ps }
          | none => s1
        match alookup cg v with
        | none => some s2
        | some subs =>
            dfsList (dfsVisit cp cg f)
              { s2 with cats := setUnion s2.cats subs } subs

/-- show_category_alllinks_with_dfs: visited-set DFS over the raw
maps; prints the collected sub category and page sets (empty sets for
an unknown category). -/
def show_category_alllinks_with_dfs (cp : List (α × List String))
    (cg : List (α × List α)) (category : α) :
    Option (List α × List String) :=
  match dfsVisit cp cg (defaultFuel cg + 1) ⟨[], [], []⟩ category with
  | none => none
  | some s => some (s.cats, s.pages)

/-- index2categories: invert category2indices into a defaultdict from
index to the set of member names. -/
def index2categories (c2i : List (α × Nat)) : List (Nat × List α) :=
  c2i.foldl (fun m e => addToSet m e.2 e.1) []

/-- Result of show_category_alllinks: what was printed (none when the
category is unknown to the index), plus the categorypages and
categorygraph mappings after the call — the source reads both through
bare defaultdict subscripts, which insert empty entries for missing
keys. -/
structure AllLinksOut (α : Type) where
  printed : Option (List α × List String)
  pagesOut : List (Nat × List String)
  graphOut : List (Nat × List Nat)
  deriving Repr

/-- show_category_alllinks: indexed lookup of the precomputed closure;
collects categorypages[index] and categorypages[s] for every s in
categorygraph[index], and expands sub category indices to names. -/
def show_category_alllinks (cp : List (Nat × List String))
    (cg : List (Nat × List Nat)) (c2i : List (α × Nat)) (category : α) :
    AllLinksOut α :=
  let i2c := index2categories c2i
  match alookup c2i category with
  | none => ⟨none, cp, cg⟩
  | some index =>
      let cp1 := autoviv cp index
      let pages0 := lookupD cp1 index
      let cg1 := autoviv cg index
      let subs := lookupD cg1 index
      let step := subs.foldl
        (fun (acc : List Nat × List (Nat × List String) × List (List String))
            sub_c =>
          (acc.1 ++ [sub_c], autoviv acc.2.1 sub_c,
           acc.2.2 ++ [lookupD acc.2.1 sub_c]))
        ([], cp1, [])
      let catNames := step.1.foldl (fun acc i => setUnion acc (lookupD i2c i)) []
      let pages := (pages0 :: step.2.2).foldl setUnion []
      ⟨some (catNames, pages), step.2.1, cg1⟩

/-- The page set the indexed query unions for a node: its own entry
plus the entries of all recorded sub category indices. -/
def closureOf (p : List (Nat × List String)) (g : List (Nat × List Nat))
    (n : Nat) : List String :=
  lookupD p n ++ (lookupD g n).flatMap (lookupD p)

/-! ## Invariants of topological_sort_dfs -/

/-- Every permanent node's recorded edges point to permanent nodes
appearing strictly later in L (the prepend-on-finish discipline puts
parents in front of their children). -/
def GoodOrd (g : List (α × List α)) (s : TopoState α) : Prop :=
  ∀ u, u ∈ s.perm → ∀ w, w ∈ lookupD g u →
    w ∈ s.perm ∧ s.L.indexOf u < s.L.indexOf w

/-- State invariant of visit: temporary and permanent marks are
disjoint, L lists exactly the permanent nodes without duplicates, and
the finished part of the order is edge-correct. -/
def TopoInv (g : List (α × List α)) (s : TopoState α) : Prop :=
  (∀ x, x ∈ s.temp → x ∉ s.perm) ∧
  (∀ x, x ∈ s.L ↔ x ∈ s.perm) ∧
  s.L.Nodup ∧
  GoodOrd g s

/-- Postcondition of a successful visit of the node list l. -/
def TopoPost (g : List (α × List α)) (s s' : TopoState α) (l : List α) :
    Prop :=
  TopoInv g s' ∧
  s'.temp = s.temp ∧
  (∀ x, x ∈ s.perm → x ∈ s'.perm) ∧
  (∀ x, x ∈ s'.perm → x ∈ s.perm ∨ x ∉ s.temp) ∧
  (∀ x, x ∈ s'.perm → x ∈ s.perm ∨ x ∈ l ∨ ∃ u, x ∈ lookupD g u) ∧
  (∀ x, x ∈ l → x ∈ s'.perm) ∧
  (∃ pre, s'.L = pre ++ s.L)

theorem topoPost_comp {g : List (α × List α)} {s s1 s2 : TopoState α}
    {v : α} {vs : List α} (h1 : TopoPost g s s1 [v])
    (h2 : TopoPost g s1 s2 vs) : TopoPost g s s2 (v :: vs) := by
  obtain ⟨hi1, ht1, hpm1, hnt1, hor1, hl1, pre1, hL1⟩ := h1
  obtain ⟨hi2, ht2, hpm2, hnt2, hor2, hl2, pre2, hL2⟩ := h2
  refine ⟨hi2, by rw [ht2, ht1], ?_, ?_, ?_, ?_, ?_⟩
  · intro x hx
    exact hpm2 x (hpm1 x hx)
  · intro x hx
    rcases hnt2 x hx with hc | hc
    · exact hnt1 x hc
    · rw [ht1] at hc
      exact Or.inr hc
  · intro x hx
    rcases hor2 x hx with hc | hc | hc
    · rcases hor1 x hc with hd | hd | hd
      · exact Or.inl hd
      · rcases List.mem_singleton.mp hd with rfl
        exact Or.inr (Or.inl (List.mem_cons_self x vs))
      · exact Or.inr (Or.inr hd)
    · exact Or.inr (Or.inl (List.mem_cons_of_mem _ hc))
    · exact Or.inr (Or.inr hc)
  · intro x hx
    rcases List.mem_cons.mp hx with rfl | hx2
    · exact hpm2 x (hl1 x (List.mem_singleton.mpr rfl))
    · exact hl2 x hx2
  · exact ⟨pre2 ++ pre1, by rw [hL2, hL1, List.append_assoc]⟩

theorem visitList_post {g : List (α × List α)}
    {visit1 : TopoState α → α → Except TopoErr (TopoState α)}
    (H : ∀ s v s', visit1 s v = .ok s' → TopoInv g s →
      TopoPost g s s' [v]) :
    ∀ (l : List α) (s s' : TopoState α),
      visitList visit1 s l = .ok s' → TopoInv g s → TopoPost g s s' l := by
  intro l
  induction l with
  | nil =>
      intro s s' h hinv
      simp only [visitList] at h
      cases h
      exact ⟨hinv, rfl, fun x hx => hx, fun x hx => Or.inl hx,
        fun x hx => Or.inl hx, fun x hx => absurd hx (List.not_mem_nil x),
        ⟨[], rfl⟩⟩
  | cons v vs ih =>
      intro s s' h hinv
      simp only [visitList] at h
      rcases h1 : visit1 s v with e | s1
      · rw [h1] at h
        cases h
      · rw [h1] at h
        have hp1 := H s v s1 h1 hinv
        exact topoPost_comp hp1 (ih s1 s' h hp1.1)

theorem visit_post {g : List (α × List α)} :
    ∀ (fuel : Nat) (s : TopoState α) (v : α) (s' : TopoState α),
      visit g fuel s v = .ok s' → TopoInv g s → TopoPost g s s' [v] := by
  intro fuel
  induction fuel with
  | zero =>
      intro s v s' h hinv
      simp only [visit] at h
      by_cases hperm : v ∈ s.perm
      · rw [if_pos hperm] at h
        cases h
        exact ⟨hinv, rfl, fun x hx => hx, fun x hx => Or.inl hx,
          fun x hx => Or.inl hx,
          fun x hx => (List.mem_singleton.mp hx) ▸ hperm, ⟨[], rfl⟩⟩
      · rw [if_neg hperm] at h
        split at h <;> cases h
  | succ f ih =>
      intro s v s' h hinv
      simp only [visit] at h
      by_cases hperm : v ∈ s.perm
      · rw [if_pos hperm] at h
        cases h
        exact ⟨hinv, rfl, fun x hx => hx, fun x hx => Or.inl hx,
          fun x hx => Or.inl hx,
          fun x hx => (List.mem_singleton.mp hx) ▸ hperm, ⟨[], rfl⟩⟩
      · rw [if_neg hperm] at h
        by_cases htemp : v ∈ s.temp
        · rw [if_pos htemp] at h
          cases h
        · rw [if_neg htemp] at h
          rcases hok : visitList (visit g f) ⟨v :: s.temp, s.perm, s.L⟩
              (lookupD g v) with e | s2'
          · rw [hok] at h
            cases h
          · rw [hok] at h
            cases h
            obtain ⟨hd, hlp, hnd, hgo⟩ := hinv
            have hinv1 : TopoInv g ⟨v :: s.temp, s.perm, s.L⟩ := by
              refine ⟨?_, hlp, hnd, hgo⟩
              intro x hx
              rcases List.mem_cons.mp hx with rfl | hx2
              · exact hperm
              · exact hd x hx2
            obtain ⟨⟨hd1, hlp1, hnd1, hgo1⟩, ht1, hpm1, hnt1, hor1, hl1,
              pre1, hL1⟩ := visitList_post (fun s v s' => ih s v s')
                (lookupD g v) _ s2' hok hinv1
            have hvnotp2 : v ∉ s2'.perm := by
              intro hc
              rcases hnt1 v hc with hc2 | hc2
              · exact hperm hc2
              · exact hc2 (List.mem_cons_self v s.temp)
            have hterase : s2'.temp.erase v = s.temp := by
              rw [ht1]
              exact List.erase_cons_head v s.temp
            refine ⟨?_, ?_, ?_, ?_, ?_, ?_, ?_⟩
            · refine ⟨?_, ?_, ?_, ?_⟩
              · intro x hx hc
                rw [hterase] at hx
                rcases List.mem_cons.mp hc with rfl | hc2
                · exact htemp hx
                · rcases hnt1 x hc2 with hc3 | hc3
                  · exact hd x hx hc3
                  · exact hc3 (List.mem_cons_of_mem _ hx)
              · intro x
                constructor
                · intro hx
                  rcases List.mem_cons.mp hx with rfl | hx2
                  · exact List.mem_cons_self x s2'.perm
                  · exact List.mem_cons_of_mem _ ((hlp1 x).mp hx2)
                · intro hx
                  rcases List.mem_cons.mp hx with rfl | hx2
                  · exact List.mem_cons_self x s2'.L
                  · exact List.mem_cons_of_mem _ ((hlp1 x).mpr hx2)
              · refine List.nodup_cons.mpr ⟨?_, hnd1⟩
                intro hc
                exact hvnotp2 ((hlp1 v).mp hc)
              · intro u hu w hw
                rcases List.mem_cons.mp hu with rfl | hu2
                · have hwperm : w ∈ s2'.perm := hl1 w hw
                  have hwv : w ≠ u := fun hc => hvnotp2 (hc ▸ hwperm)
                  refine ⟨List.mem_cons_of_mem _ hwperm, ?_⟩
                  show (u :: s2'.L).indexOf u < (u :: s2'.L).indexOf w
                  rw [List.indexOf_cons_self,
                    List.indexOf_cons_ne _ (Ne.symm hwv)]
                  exact Nat.succ_pos _
                · obtain ⟨hwperm, hlt⟩ := hgo1 u hu2 w hw
                  have huv : u ≠ v := fun hc => hvnotp2 (hc ▸ hu2)
                  have hwv : w ≠ v := fun hc => hvnotp2 (hc ▸ hwperm)
                  refine ⟨List.mem_cons_of_mem _ hwperm, ?_⟩
                  show (v :: s2'.L).indexOf u < (v :: s2'.L).indexOf w
                  rw [List.indexOf_cons_ne _ (Ne.symm huv),
                    List.indexOf_cons_ne _ (Ne.symm hwv)]
                  exact Nat.succ_lt_succ hlt
            · exact hterase
            · intro x hx
              exact List.mem_cons_of_mem _ (hpm1 x hx)
            · intro x hx
              rcases List.mem_cons.mp hx with rfl | hc2
              · exact Or.inr htemp
              · rcases hnt1 x hc2 with hc3 | hc3
                · exact Or.inl hc3
                · exact Or.inr (fun hc4 => hc3 (List.mem_cons_of_mem _ hc4))
            · intro x hx
              rcases List.mem_cons.mp hx with rfl | hc2
              · exact Or.inr (Or.inl (List.mem_singleton.mpr rfl))
              · rcases hor1 x hc2 with hc3 | hc3 | hc3
                · exact Or.inl hc3
                · exact Or.inr (Or.inr ⟨v, hc3⟩)
                · exact Or.inr (Or.inr hc3)
            · intro x hx
              rcases List.mem_singleton.mp hx with rfl
              exact List.mem_cons_self x s2'.perm
            · exact ⟨[v] ++ pre1, by rw [hL1]; simp⟩

theorem topo_ok_props {g : List (α × List α)} {L : List α}
    (h : topological_sort_dfs g = .ok L) :
    L.Nodup ∧
    (∀ x, x ∈ L ↔ x ∈ graphNodes g) ∧
    (∀ u w, w ∈ lookupD g u →
      u ∈ L ∧ w ∈ L ∧ L.indexOf u < L.indexOf w) := by
  unfold topological_sort_dfs topological_sort_dfs_fuel at h
  rcases hv : visitList (visit g (defaultFuel g)) ⟨[], [], []⟩
      (graphNodes g) with e | s
  · rw [hv] at h; cases h
  · rw [hv] at h
    cases h
    have hinv0 : TopoInv g ⟨[], [], []⟩ := by
      refine ⟨?_, ?_, ?_, ?_⟩
      · intro x hx; cases hx
      · intro x; simp
      · exact List.nodup_nil
      · intro u hu; cases hu
    obtain ⟨⟨hd, hlp, hnd, hgo⟩, ht, hpm, hnt, hor, hl, pre, hL⟩ :=
      visitList_post (fun s v s' => visit_post (defaultFuel g) s v s')
        (graphNodes g) _ s hv hinv0
    refine ⟨hnd, ?_, ?_⟩
    · intro x
      rw [hlp x]
      constructor
      · intro hx
        rcases hor x hx with hc | hc | ⟨u, hc⟩
        · cases hc
        · exact hc
        · exact child_mem_graphNodes hc
      · intro hx
        exact hl x hx
    · intro u w hw
      have hu : u ∈ s.perm := by
        apply hl
        apply key_mem_graphNodes
        intro hc
        unfold lookupD at hw
        rw [hc] at hw
        cases hw
      obtain ⟨hwp, hlt⟩ := hgo u hu w hw
      exact ⟨(hlp u).mpr hu, (hlp w).mpr hwp, hlt⟩

theorem topo_ok_reaches_le {g : List (α × List α)} {L : List α}
    (h : topological_sort_dfs g = .ok L) :
    ∀ a b, Reaches g a b → a ∈ L →
      b ∈ L ∧ L.indexOf a ≤ L.indexOf b := by
  obtain ⟨hnd, hmem, hedge⟩ := topo_ok_props h
  intro a b hr
  induction hr with
  | refl => exact fun ha => ⟨ha, Nat.le_refl _⟩
  | @head u w v he hr2 ih =>
      intro hu
      obtain ⟨_, hw, hlt⟩ := hedge u w he
      obtain ⟨hv, hle⟩ := ih hw
      exact ⟨hv, Nat.le_of_lt (Nat.lt_of_lt_of_le hlt hle)⟩

theorem topo_ok_reachesPlus {g : List (α × List α)} {L : List α}
    (h : topological_sort_dfs g = .ok L) :
    ∀ u v, ReachesPlus g u v →
      u ∈ L ∧ v ∈ L ∧ L.indexOf u < L.indexOf v := by
  intro u v ⟨w, he, hr⟩
  obtain ⟨hnd, hmem, hedge⟩ := topo_ok_props h
  obtain ⟨hu, hw, hlt⟩ := hedge u w he
  obtain ⟨hv, hle⟩ := topo_ok_reaches_le h w v hr hw
  exact ⟨hu, hv, Nat.lt_of_lt_of_le hlt hle⟩

theorem topo_ok_no_cycle {g : List (α × List α)} {L : List α}
    (h : topological_sort_dfs g = .ok L) :
    ∀ v, ¬ ReachesPlus g v v := by
  intro v hc
  obtain ⟨_, _, hlt⟩ := topo_ok_reachesPlus h v v hc
  exact Nat.lt_irrefl _ hlt

/-! ## Depth fuel sufficiency for topological_sort_dfs -/

/-- A node carrying a temporary or permanent mark. -/
def Marked (s : TopoState α) (x : α) : Prop :=
  x ∈ s.temp ∨ x ∈ s.perm

instance (s : TopoState α) (x : α) : Decidable (Marked s x) := by
  unfold Marked
  infer_instance

/-- Number of still unmarked nodes of the graph. -/
def unmarkedCount (g : List (α × List α)) (s : TopoState α) : Nat :=
  ((graphNodes g).filter (fun x => decide (¬ Marked s x))).length

theorem length_filter_mono {l : List α} {p q : α → Bool}
    (h : ∀ x ∈ l, p x = true → q x = true) :
    (l.filter p).length ≤ (l.filter q).length := by
  induction l with
  | nil => exact Nat.le_refl _
  | cons a l ih =>
      have ih2 := ih (fun x hx => h x (List.mem_cons_of_mem _ hx))
      by_cases hp : p a = true
      · rw [List.filter_cons_of_pos hp,
          List.filter_cons_of_pos (h a (List.mem_cons_self a l) hp)]
        exact Nat.succ_le_succ ih2
      · rw [List.filter_cons_of_neg (by simpa using hp)]
        by_cases hq : q a = true
        · rw [List.filter_cons_of_pos hq]
          exact Nat.le_succ_of_le ih2
        · rw [List.filter_cons_of_neg (by simpa using hq)]
          exact ih2

theorem length_filter_lt {l : List α} {p q : α → Bool} {v : α}
    (hnd : l.Nodup) (hv : v ∈ l) (hpv : p v = false) (hqv : q v = true)
    (h : ∀ x ∈ l, p x = true → q x = true) :
    (l.filter p).length < (l.filter q).length := by
  induction l with
  | nil => cases hv
  | cons a l ih =>
      have hnd2 := (List.nodup_cons.mp hnd).2
      have hmono := length_filter_mono
        (fun x hx => h x (List.mem_cons_of_mem _ hx))
      rcases List.mem_cons.mp hv with rfl | hv2
      · rw [List.filter_cons_of_neg (by simp [hpv]),
          List.filter_cons_of_pos hqv]
        exact Nat.lt_succ_of_le hmono
      · have ihs := ih hnd2 hv2 (fun x hx => h x (List.mem_cons_of_mem _ hx))
        by_cases hp : p a = true
        · rw [List.filter_cons_of_pos hp,
            List.filter_cons_of_pos (h a (List.mem_cons_self a l) hp)]
          exact Nat.succ_lt_succ ihs
        · rw [List.filter_cons_of_neg (by simpa using hp)]
          by_cases hq : q a = true
          · rw [List.filter_cons_of_pos hq]
            exact Nat.lt_succ_of_lt ihs
          · rw [List.filter_cons_of_neg (by simpa using hq)]
            exact ihs

theorem unmarkedCount_mono {g : List (α × List α)} {s s2 : TopoState α}
    (h : ∀ x, Marked s x → Marked s2 x) :
    unmarkedCount g s2 ≤ unmarkedCount g s := by
  apply length_filter_mono
  intro x _ hx
  simp only [decide_eq_true_eq] at hx ⊢
  exact fun hc => hx (h x hc)

theorem unmarkedCount_push {g : List (α × List α)} {s : TopoState α} {v : α}
    (hg : v ∈ graphNodes g) (hv : ¬ Marked s v)
    {s2 : TopoState α} (hmark : Marked s2 v)
    (h : ∀ x, Marked s x → Marked s2 x) :
    unmarkedCount g s2 < unmarkedCount g s := by
  apply length_filter_lt (List.nodup_dedup _) hg
  · simp [hmark]
  · simp [hv]
  · intro x _ hx
    simp only [decide_eq_true_eq] at hx ⊢
    exact fun hc => hx (h x hc)

/-- On an ok run the temporary marks are restored and the permanent
marks only grow. -/
theorem visitList_marks
    {visit1 : TopoState α → α → Except TopoErr (TopoState α)}
    (H : ∀ s v s', visit1 s v = .ok s' →
      s'.temp = s.temp ∧ (∀ x, x ∈ s.perm → x ∈ s'.perm)) :
    ∀ (l : List α) (s s' : TopoState α), visitList visit1 s l = .ok s' →
      s'.temp = s.temp ∧ (∀ x, x ∈ s.perm → x ∈ s'.perm) := by
  intro l
  induction l with
  | nil =>
      intro s s' h
      simp only [visitList] at h
      cases h
      exact ⟨rfl, fun x hx => hx⟩
  | cons v vs ih =>
      intro s s' h
      simp only [visitList] at h
      rcases h1 : visit1 s v with e | s1
      · rw [h1] at h; cases h
      · rw [h1] at h
        obtain ⟨ht1, hpm1⟩ := H s v s1 h1
        obtain ⟨ht2, hpm2⟩ := ih s1 s' h
        exact ⟨by rw [ht2, ht1], fun x hx => hpm2 x (hpm1 x hx)⟩

theorem visit_marks {g : List (α × List α)} :
    ∀ (fuel : Nat) (s : TopoState α) (v : α) (s' : TopoState α),
      visit g fuel s v = .ok s' →
      s'.temp = s.temp ∧ (∀ x, x ∈ s.perm → x ∈ s'.perm) := by
  intro fuel
  induction fuel with
  | zero =>
      intro s v s' h
      simp only [visit] at h
      by_cases hperm : v ∈ s.perm
      · rw [if_pos hperm] at h
        cases h
        exact ⟨rfl, fun x hx => hx⟩
      · rw [if_neg hperm] at h
        split at h <;> cases h
  | succ f ih =>
      intro s v s' h
      simp only [visit] at h
      by_cases hperm : v ∈ s.perm
      · rw [if_pos hperm] at h
        cases h
        exact ⟨rfl, fun x hx => hx⟩
      · rw [if_neg hperm] at h
        by_cases htemp : v ∈ s.temp
        · rw [if_pos htemp] at h
          cases h
        · rw [if_neg htemp] at h
          rcases hok : visitList (visit g f) ⟨v :: s.temp, s.perm, s.L⟩
              (lookupD g v) with e | s2'
          · rw [hok] at h
            cases h
          · rw [hok] at h
            cases h
            obtain ⟨ht1, hpm1⟩ := visitList_marks
              (fun s v s' => ih s v s') (lookupD g v) _ s2' hok
            constructor
            · show s2'.temp.erase v = s.temp
              rw [ht1]
              exact List.erase_cons_head v s.temp
            · intro x hx
              exact List.mem_cons_of_mem _ (hpm1 x hx)

theorem visitList_no_fuel {g : List (α × List α)} {F : Nat}
    {visit1 : TopoState α → α → Except TopoErr (TopoState α)}
    (Hmk : ∀ s v s', visit1 s v = .ok s' →
      s'.temp = s.temp ∧ (∀ x, x ∈ s.perm → x ∈ s'.perm))
    (H : ∀ s v, v ∈ graphNodes g → unmarkedCount g s < F →
      visit1 s v ≠ .error .fuel) :
    ∀ (l : List α) (s : TopoState α),
      (∀ x ∈ l, x ∈ graphNodes g) → unmarkedCount g s < F →
      visitList visit1 s l ≠ .error .fuel := by
  intro l
  induction l with
  | nil =>
      intro s _ _ h
      simp only [visitList] at h
      cases h
  | cons v vs ih =>
      intro s hl hc h
      simp only [visitList] at h
      rcases h1 : visit1 s v with e | s1
      · rw [h1] at h
        cases h
        exact H s v (hl v (List.mem_cons_self v vs)) hc h1
      · rw [h1] at h
        obtain ⟨ht1, hpm1⟩ := Hmk s v s1 h1
        have hcount : unmarkedCount g s1 ≤ unmarkedCount g s := by
          apply unmarkedCount_mono
          intro x hx
          rcases hx with hx | hx
          · exact Or.inl (ht1 ▸ hx)
          · exact Or.inr (hpm1 x hx)
        exact ih s1 (fun x hx => hl x (List.mem_cons_of_mem _ hx))
          (Nat.lt_of_le_of_lt hcount hc) h

theorem visit_no_fuel {g : List (α × List α)} :
    ∀ (fuel : Nat) (s : TopoState α) (v : α),
      v ∈ graphNodes g → unmarkedCount g s < fuel →
      visit g fuel s v ≠ .error .fuel := by
  intro fuel
  induction fuel with
  | zero =>
      intro s v _ hc
      exact absurd hc (Nat.not_lt_zero _)
  | succ f ih =>
      intro s v hvg hc h
      simp only [visit] at h
      by_cases hperm : v ∈ s.perm
      · rw [if_pos hperm] at h
        cases h
      · rw [if_neg hperm] at h
        by_cases htemp : v ∈ s.temp
        · rw [if_pos htemp] at h
          cases h
        · rw [if_neg htemp] at h
          have hfresh : ¬ Marked s v := by
            intro hm
            rcases hm with hm | hm
            · exact htemp hm
            · exact hperm hm
          have hlt : unmarkedCount g (⟨v :: s.temp, s.perm, s.L⟩ :
              TopoState α) < unmarkedCount g s := by
            apply unmarkedCount_push hvg hfresh
            · exact Or.inl (List.mem_cons_self v s.temp)
            · intro x hx
              rcases hx with hx | hx
              · exact Or.inl (List.mem_cons_of_mem _ hx)
              · exact Or.inr hx
          have hcount : unmarkedCount g (⟨v :: s.temp, s.perm, s.L⟩ :
              TopoState α) < f := by omega
          have hne := visitList_no_fuel (g := g) (F := f)
            (fun s v s' => visit_marks f s v s')
            (fun s v hg hcnt => ih s v hg hcnt)
            (lookupD g v) ⟨v :: s.temp, s.perm, s.L⟩
            (fun x hx => child_mem_graphNodes hx) hcount
          rcases hok : visitList (visit g f) ⟨v :: s.temp, s.perm, s.L⟩
              (lookupD g v) with e | s2'
          · rw [hok] at h
            cases h
            exact hne hok
          · rw [hok] at h
            cases h

/-- topological_sort_dfs never runs out of depth fuel. -/
theorem topo_no_fuel (g : List (α × List α)) :
    topological_sort_dfs g ≠ .error .fuel := by
  unfold topological_sort_dfs topological_sort_dfs_fuel
  have hcnt : unmarkedCount g (⟨[], [], []⟩ : TopoState α) < defaultFuel g := by
    unfold unmarkedCount defaultFuel
    have := List.length_filter_le
      (fun x => decide (¬ Marked (⟨[], [], []⟩ : TopoState α) x))
      (graphNodes g)
    omega
  have hne := visitList_no_fuel (g := g) (F := defaultFuel g)
    (fun s v s' => visit_marks (defaultFuel g) s v s')
    (fun s v hg hc => visit_no_fuel (defaultFuel g) s v hg hc)
    (graphNodes g) ⟨[], [], []⟩ (fun x hx => hx) hcnt
  rcases hv : visitList (visit g (defaultFuel g)) ⟨[], [], []⟩
      (graphNodes g) with e | s
  · intro hc
    change Except.error e = Except.error TopoErr.fuel at hc
    injection hc with he
    subst he
    exact hne hv
  · intro hc
    change Except.ok s.L = Except.error TopoErr.fuel at hc
    cases hc

/-! ## An edge-decreasing measure rules out the cycle error -/

/-- Every edge strictly decreases the measure. -/
def EdgeDecr (g : List (α × List α)) (μ : α → Nat) : Prop :=
  ∀ u w, Edge g u w → μ w < μ u

theorem visitList_no_cycle {μ : α → Nat}
    {visit1 : TopoState α → α → Except TopoErr (TopoState α)}
    (Hmk : ∀ s v s', visit1 s v = .ok s' →
      s'.temp = s.temp ∧ (∀ x, x ∈ s.perm → x ∈ s'.perm))
    (H : ∀ s v, List.Chain' (fun a b => μ a < μ b) s.temp →
      (∀ x ∈ s.temp, μ v < μ x) → visit1 s v ≠ .error .cycle) :
    ∀ (l : List α) (s : TopoState α),
      List.Chain' (fun a b => μ a < μ b) s.temp →
      (∀ v ∈ l, ∀ x ∈ s.temp, μ v < μ x) →
      visitList visit1 s l ≠ .error .cycle := by
  intro l
  induction l with
  | nil =>
      intro s _ _ h
      simp only [visitList] at h
      cases h
  | cons v vs ih =>
      intro s hch hlo h
      simp only [visitList] at h
      rcases h1 : visit1 s v with e | s1
      · rw [h1] at h
        cases h
        exact H s v hch (hlo v (List.mem_cons_self v vs)) h1
      · rw [h1] at h
        obtain ⟨ht1, _⟩ := Hmk s v s1 h1
        apply ih s1 _ _ h
        · rw [ht1]
          exact hch
        · intro x hx y hy
          rw [ht1] at hy
          exact hlo x (List.mem_cons_of_mem _ hx) y hy

theorem visit_no_cycle {g : List (α × List α)} {μ : α → Nat}
    (hdec : EdgeDecr g μ) :
    ∀ (fuel : Nat) (s : TopoState α) (v : α),
      List.Chain' (fun a b => μ a < μ b) s.temp →
      (∀ x ∈ s.temp, μ v < μ x) →
      visit g fuel s v ≠ .error .cycle := by
  intro fuel
  induction fuel with
  | zero =>
      intro s v hch hlo h
      simp only [visit] at h
      by_cases hperm : v ∈ s.perm
      · rw [if_pos hperm] at h
        cases h
      · rw [if_neg hperm] at h
        by_cases htemp : v ∈ s.temp
        · exact absurd (hlo v htemp) (Nat.lt_irrefl _)
        · rw [if_neg htemp] at h
          cases h
  | succ f ih =>
      intro s v hch hlo h
      simp only [visit] at h
      by_cases hperm : v ∈ s.perm
      · rw [if_pos hperm] at h
        cases h
      · rw [if_neg hperm] at h
        by_cases htemp : v ∈ s.temp
        · exact absurd (hlo v htemp) (Nat.lt_irrefl _)
        · rw [if_neg htemp] at h
          have hch1 : List.Chain' (fun a b => μ a < μ b) (v :: s.temp) := by
            apply List.chain'_cons'.mpr
            refine ⟨?_, hch⟩
            intro y hy
            exact hlo y (List.mem_of_mem_head? hy)
          have hlo1 : ∀ w ∈ lookupD g v, ∀ x ∈ v :: s.temp, μ w < μ x := by
            intro w hw x hx
            have hwv : μ w < μ v := hdec v w hw
            rcases List.mem_cons.mp hx with rfl | hx2
            · exact hwv
            · exact Nat.lt_trans hwv (hlo x hx2)
          have hne := visitList_no_cycle (μ := μ)
            (fun s v s' => visit_marks f s v s')
            (fun s v hc hl => ih s v hc hl)
            (lookupD g v) ⟨v :: s.temp, s.perm, s.L⟩ hch1 hlo1
          rcases hok : visitList (visit g f) ⟨v :: s.temp, s.perm, s.L⟩
              (lookupD g v) with e | s2'
          · rw [hok] at h
            cases h
            exact hne hok
          · rw [hok] at h
            cases h

/-- A nonempty path closed by one more edge back to its start is a
cycle. -/
theorem reaches_edge_cycle {g : List (α × List α)} {v t : α}
    (hr : Reaches g v t) (he : Edge g t v) : ReachesPlus g v v := by
  cases hr with
  | refl => exact ⟨v, he, Reaches.refl v⟩
  | head he2 hr2 =>
      exact ⟨_, he2, Reaches.trans hr2 (Reaches.single he)⟩

/-- The temporary stack is a path: each element is a child of the
next one, so every element reaches the head. -/
theorem chain_reaches_head {g : List (α × List α)} :
    ∀ (l : List α), List.Chain' (fun a b => Edge g b a) l →
      ∀ x ∈ l, ∀ t ∈ l.head?, Reaches g x t := by
  intro l
  induction l with
  | nil => intro _ x hx; cases hx
  | cons a rest ih =>
      intro hch x hx t ht
      simp only [List.head?_cons, Option.mem_def, Option.some.injEq] at ht
      subst ht
      rcases List.mem_cons.mp hx with rfl | hx2
      · exact Reaches.refl x
      · cases rest with
        | nil => cases hx2
        | cons b rest2 =>
            obtain ⟨hab, hch2⟩ := List.chain'_cons.mp hch
            have hxb : Reaches g x b := by
              apply ih hch2 x hx2 b
              simp only [List.head?_cons, Option.mem_def]
            exact Reaches.trans hxb (Reaches.single hab)

theorem visitList_cycleErr {g : List (α × List α)}
    {visit1 : TopoState α → α → Except TopoErr (TopoState α)}
    (Hmk : ∀ s v s', visit1 s v = .ok s' →
      s'.temp = s.temp ∧ (∀ x, x ∈ s.perm → x ∈ s'.perm))
    (H : ∀ s v, List.Chain' (fun a b => Edge g b a) s.temp →
      (∀ t ∈ s.temp.head?, Edge g t v) →
      visit1 s v = .error .cycle → ∃ z, ReachesPlus g z z) :
    ∀ (l : List α) (s : TopoState α),
      List.Chain' (fun a b => Edge g b a) s.temp →
      (∀ x ∈ l, ∀ t ∈ s.temp.head?, Edge g t x) →
      visitList visit1 s l = .error .cycle → ∃ z, ReachesPlus g z z := by
  intro l
  induction l with
  | nil =>
      intro s _ _ h
      simp only [visitList] at h
      cases h
  | cons v vs ih =>
      intro s hch hlo h
      simp only [visitList] at h
      rcases h1 : visit1 s v with e | s1
      · rw [h1] at h
        injection h with he
        subst he
        exact H s v hch (hlo v (List.mem_cons_self v vs)) h1
      · rw [h1] at h
        obtain ⟨ht1, _⟩ := Hmk s v s1 h1
        apply ih s1 _ _ h
        · rw [ht1]
          exact hch
        · intro x hx t ht
          rw [ht1] at ht
          exact hlo x (List.mem_cons_of_mem _ hx) t ht

theorem visit_cycleErr {g : List (α × List α)} :
    ∀ (fuel : Nat) (s : TopoState α) (v : α),
      List.Chain' (fun a b => Edge g b a) s.temp →
      (∀ t ∈ s.temp.head?, Edge g t v) →
      visit g fuel s v = .error .cycle → ∃ z, ReachesPlus g z z := by
  intro fuel
  induction fuel with
  | zero =>
      intro s v hch hlo h
      simp only [visit] at h
      by_cases hperm : v ∈ s.perm
      · rw [if_pos hperm] at h
        cases h
      · rw [if_neg hperm] at h
        by_cases htemp : v ∈ s.temp
        · refine ⟨v, ?_⟩
          have hne : s.temp ≠ [] := by
            intro hc
            rw [hc] at htemp
            cases htemp
          obtain ⟨t, ht⟩ := Option.ne_none_iff_exists'.mp
            (fun hc => hne (List.head?_eq_none_iff.mp hc))
          have hreach : Reaches g v t :=
            chain_reaches_head s.temp hch v htemp t ht
          exact reaches_edge_cycle hreach (hlo t ht)
        · rw [if_neg htemp] at h
          cases h
  | succ f ih =>
      intro s v hch hlo h
      simp only [visit] at h
      by_cases hperm : v ∈ s.perm
      · rw [if_pos hperm] at h
        cases h
      · rw [if_neg hperm] at h
        by_cases htemp : v ∈ s.temp
        · refine ⟨v, ?_⟩
          have hne : s.temp ≠ [] := by
            intro hc
            rw [hc] at htemp
            cases htemp
          obtain ⟨t, ht⟩ := Option.ne_none_iff_exists'.mp
            (fun hc => hne (List.head?_eq_none_iff.mp hc))
          have hreach : Reaches g v t :=
            chain_reaches_head s.temp hch v htemp t ht
          exact reaches_edge_cycle hreach (hlo t ht)
        · rw [if_neg htemp] at h
          have hch1 : List.Chain' (fun a b => Edge g b a)
              (v :: s.temp) := by
            apply List.chain'_cons'.mpr
            refine ⟨?_, hch⟩
            intro y hy
            exact hlo y hy
          have hlo1 : ∀ x ∈ lookupD g v,
              ∀ t ∈ (v :: s.temp).head?, Edge g t x := by
            intro x hx t ht
            simp only [List.head?_cons, Option.mem_def,
              Option.some.injEq] at ht
            subst ht
            exact hx
          rcases hok : visitList (visit g f) ⟨v :: s.temp, s.perm, s.L⟩
              (lookupD g v) with e | s2'
          · rw [hok] at h
            injection h with he
            subst he
            exact visitList_cycleErr (fun s v s' => visit_marks f s v s')
              (fun s v hc hl he => ih s v hc hl he)
              (lookupD g v) ⟨v :: s.temp, s.perm, s.L⟩ hch1 hlo1 hok
          · rw [hok] at h
            cases h

/-- The cycle error is only raised on graphs that really contain a
cycle. -/
theorem topo_cycleErr_hasCycle {g : List (α × List α)}
    (h : topological_sort_dfs g = .error .cycle) :
    ∃ z, ReachesPlus g z z := by
  unfold topological_sort_dfs topological_sort_dfs_fuel at h
  rcases hv : visitList (visit g (defaultFuel g)) ⟨[], [], []⟩
      (graphNodes g) with e | s
  · rw [hv] at h
    injection h with he
    subst he
    exact visitList_cycleErr
      (fun s v s' => visit_marks (defaultFuel g) s v s')
      (fun s v hc hl he => visit_cycleErr (defaultFuel g) s v hc hl he)
      (graphNodes g) ⟨[], [], []⟩ List.chain'_nil
      (fun x _ t ht => by cases ht) hv
  · rw [hv] at h
    cases h

/-- On an acyclic graph topological_sort_dfs succeeds. -/
theorem topo_ok_of_acyclic {g : List (α × List α)}
    (hacy : ∀ z, ¬ ReachesPlus g z z) :
    ∃ L, topological_sort_dfs g = .ok L := by
  rcases hr : topological_sort_dfs g with e | L
  · cases e with
    | fuel => exact absurd hr (topo_no_fuel g)
    | cycle =>
        obtain ⟨z, hz⟩ := topo_cycleErr_hasCycle hr
        exact absurd hz (hacy z)
  · exact ⟨L, rfl⟩

/-- On a graph admitting an edge-decreasing measure (such as the
condensed graph, whose edges strictly decrease the component id),
topological_sort_dfs succeeds. -/
theorem topo_ok_of_edgeDecr {g : List (α × List α)} {μ : α → Nat}
    (hdec : EdgeDecr g μ) : ∃ L, topological_sort_dfs g = .ok L := by
  rcases hr : topological_sort_dfs g with e | L
  · cases e with
    | fuel => exact absurd hr (topo_no_fuel g)
    | cycle =>
        exfalso
        unfold topological_sort_dfs topological_sort_dfs_fuel at hr
        rcases hv : visitList (visit g (defaultFuel g)) ⟨[], [], []⟩
            (graphNodes g) with e2 | s
        · rw [hv] at hr
          injection hr with he
          subst he
          exact visitList_no_cycle (μ := μ)
            (fun s v s' => visit_marks (defaultFuel g) s v s')
            (fun s v hc hl => visit_no_cycle hdec (defaultFuel g) s v hc hl)
            (graphNodes g) ⟨[], [], []⟩ List.chain'_nil
            (fun v _ x hx => absurd hx (List.not_mem_nil x)) hv
        · rw [hv] at hr
          cases hr
  · exact ⟨L, rfl⟩

/-! ## Set lemmas for the pipeline folds -/

theorem mem_setUnion {l r : List β} {x : β} :
    x ∈ setUnion l r ↔ x ∈ l ∨ x ∈ r := by
  unfold setUnion
  rw [List.mem_append]
  constructor
  · rintro (h | h)
    · exact Or.inl h
    · exact Or.inr (List.mem_filter.mp h).1
  · rintro (h | h)
    · exact Or.inl h
    · by_cases hl : x ∈ l
      · exact Or.inl hl
      · exact Or.inr (List.mem_filter.mpr ⟨h, by simpa using hl⟩)

theorem lookupD_dinsert_self (m : List (α × List β)) (a : α) (b : List β) :
    lookupD (dinsert m a b) a = b := by
  unfold lookupD
  rw [alookup_dinsert_self]
  rfl

theorem lookupD_dinsert_ne (m : List (α × List β)) {a c : α} (b : List β)
    (h : c ≠ a) : lookupD (dinsert m a b) c = lookupD m c := by
  unfold lookupD
  rw [alookup_dinsert_ne m b h]

theorem mem_lookupD_addToSet {m : List (α × List β)} {a k : α} {b x : β} :
    x ∈ lookupD (addToSet m a b) k ↔
      (k = a ∧ (x ∈ lookupD m a ∨ x = b)) ∨ (k ≠ a ∧ x ∈ lookupD m k) := by
  unfold addToSet
  by_cases hk : k = a
  · subst hk
    rw [lookupD_dinsert_self]
    by_cases hb : b ∈ lookupD m k
    · rw [if_pos hb]
      constructor
      · intro h
        exact Or.inl ⟨rfl, Or.inl h⟩
      · rintro (⟨_, h | rfl⟩ | ⟨hne, _⟩)
        · exact h
        · exact hb
        · exact absurd rfl hne
    · rw [if_neg hb]
      rw [List.mem_append]
      constructor
      · rintro (h | h)
        · exact Or.inl ⟨rfl, Or.inl h⟩
        · exact Or.inl ⟨rfl, Or.inr (List.mem_singleton.mp h)⟩
      · rintro (⟨_, h | rfl⟩ | ⟨hne, _⟩)
        · exact Or.inl h
        · exact Or.inr (List.mem_singleton.mpr rfl)
        · exact absurd rfl hne
  · rw [lookupD_dinsert_ne _ _ hk]
    constructor
    · intro h
      exact Or.inr ⟨hk, h⟩
    · rintro (⟨rfl, _⟩ | ⟨_, h⟩)
      · exact absurd rfl hk
      · exact h

theorem lookupD_addToSet_ne {m : List (α × List β)} {a k : α} (b : β)
    (h : k ≠ a) : lookupD (addToSet m a b) k = lookupD m k := by
  unfold addToSet
  exact lookupD_dinsert_ne _ _ h

/-- Membership characterization of the page re-keying loop: a page
lands in entry j exactly when some category with index j lists it
directly. -/
theorem buildPages_mem (cp : List (α × List String)) :
    ∀ (c2i : List (α × Nat)) (x : String) (j : Nat),
      x ∈ lookupD (buildPages cp c2i) j ↔
        ∃ d qs, (d, j) ∈ c2i ∧ alookup cp d = some qs ∧ x ∈ qs := by
  have main : ∀ (ps : List (α × Nat)) (m : List (Nat × List String))
      (x : String) (j : Nat),
      x ∈ lookupD (ps.foldl
        (fun up e =>
          match alookup cp e.1 with
          | none => up
          | some qs => dinsert up e.2 (setUnion (lookupD up e.2) qs)) m) j ↔
      x ∈ lookupD m j ∨
        ∃ d qs, (d, j) ∈ ps ∧ alookup cp d = some qs ∧ x ∈ qs := by
    intro ps
    induction ps with
    | nil =>
        intro m x j
        simp only [List.foldl_nil, List.not_mem_nil]
        constructor
        · exact Or.inl
        · rintro (h | ⟨d, qs, hm, _, _⟩)
          · exact h
          · cases hm
    | cons e rest ih =>
        intro m x j
        obtain ⟨d0, j0⟩ := e
        simp only [List.foldl_cons]
        rcases hcp : alookup cp d0 with _ | qs0
        · simp only [hcp]
          rw [ih]
          constructor
          · rintro (h | ⟨d, qs, hm, h1, h2⟩)
            · exact Or.inl h
            · exact Or.inr ⟨d, qs, List.mem_cons_of_mem _ hm, h1, h2⟩
          · rintro (h | ⟨d, qs, hm, h1, h2⟩)
            · exact Or.inl h
            · rcases List.mem_cons.mp hm with heq | hm2
              · have hd := congrArg Prod.fst heq
                simp only at hd
                subst hd
                rw [hcp] at h1
                cases h1
              · exact Or.inr ⟨d, qs, hm2, h1, h2⟩
        · simp only [hcp]
          rw [ih]
          by_cases hj : j = j0
          · subst hj
            rw [lookupD_dinsert_self, mem_setUnion]
            constructor
            · rintro ((h | h) | ⟨d, qs, hm, h1, h2⟩)
              · exact Or.inl h
              · exact Or.inr ⟨d0, qs0, List.mem_cons_self _ _, hcp, h⟩
              · exact Or.inr ⟨d, qs, List.mem_cons_of_mem _ hm, h1, h2⟩
            · rintro (h | ⟨d, qs, hm, h1, h2⟩)
              · exact Or.inl (Or.inl h)
              · rcases List.mem_cons.mp hm with heq | hm2
                · have hd := congrArg Prod.fst heq
                  have hj2 := congrArg Prod.snd heq
                  simp only at hd hj2
                  subst hd
                  rw [hcp] at h1
                  injection h1 with h1
                  subst h1
                  exact Or.inl (Or.inr h2)
                · exact Or.inr ⟨d, qs, hm2, h1, h2⟩
          · rw [lookupD_dinsert_ne _ _ hj]
            constructor
            · rintro (h | ⟨d, qs, hm, h1, h2⟩)
              · exact Or.inl h
              · exact Or.inr ⟨d, qs, List.mem_cons_of_mem _ hm, h1, h2⟩
            · rintro (h | ⟨d, qs, hm, h1, h2⟩)
              · exact Or.inl h
              · rcases List.mem_cons.mp hm with heq | hm2
                · have hj2 := congrArg Prod.snd heq
                  simp only at hj2
                  exact absurd hj2 hj
                · exact Or.inr ⟨d, qs, hm2, h1, h2⟩
  intro c2i x j
  unfold buildPages
  rw [main]
  simp [lookupD, alookup]


/-! ## Concrete test graphs -/

/-- The two-node single-edge graph 0 → 1. -/
def g01 : List (Nat × List Nat) := [(0, [1])]

theorem g01_acyclic : ∀ z, ¬ ReachesPlus g01 z z := by
  rintro z ⟨w, he, hr⟩
  have he' : w ∈ lookupD g01 z := he
  by_cases hz : z = 0
  · subst hz
    have hw : w = 1 := by
      have h1 : lookupD g01 0 = [1] := rfl
      rw [h1] at he'
      simpa using he'
    subst hw
    cases hr with
    | head he2 hr2 =>
        have he2' : _ ∈ lookupD g01 1 := he2
        have h2 : lookupD g01 1 = [] := rfl
        rw [h2] at he2'
        cases he2'
  · have h0 : lookupD g01 z = [] := by
      have : alookup g01 z = none := by
        unfold g01 alookup
        rw [if_neg (fun hc => hz hc.symm)]
        rfl
      unfold lookupD
      rw [this]
      rfl
    rw [h0] at he'
    cases he'

/-- Chain graph with n edges 0 → 1 → ... → n. -/
def chainG (n : Nat) : List (Nat × List Nat) :=
  (List.range n).map (fun i => (i, [i + 1]))

/-- Range k in stack order, deepest first. -/
def revRange (k : Nat) : List Nat := (List.range k).reverse

/-- Identity index assignment on 0 .. k-1. -/
def idxAssoc (k : Nat) : List (Nat × Nat) :=
  (List.range k).map (fun i => (i, i))

theorem alookup_append (xs ys : List (α × β)) (a : α) :
    alookup (xs ++ ys) a =
      match alookup xs a with
      | some b => some b
      | none => alookup ys a := by
  induction xs with
  | nil => simp [alookup]
  | cons p rest ih =>
      obtain ⟨k, v⟩ := p
      by_cases h : k = a
      · subst h
        simp [alookup]
      · simp only [List.cons_append, alookup, if_neg h]
        exact ih

theorem chainG_alookup (n k : Nat) :
    alookup (chainG n) k = if k < n then some [k + 1] else none := by
  induction n with
  | zero => simp [chainG, alookup]
  | succ n ih =>
      unfold chainG at ih ⊢
      rw [List.range_succ, List.map_append, alookup_append, ih]
      by_cases h : k < n
      · rw [if_pos h, if_pos (Nat.lt_succ_of_lt h)]
      · rw [if_neg h]
        by_cases h2 : k = n
        · subst h2
          simp [alookup]
        · have h3 : ¬ k < n + 1 := by omega
          rw [if_neg h3]
          have h4 : ¬ n = k := fun hc => h2 hc.symm
          simp [alookup, h4]

theorem idxAssoc_alookup (k j : Nat) :
    alookup (idxAssoc k) j = if j < k then some j else none := by
  induction k with
  | zero => simp [idxAssoc, alookup]
  | succ k ih =>
      unfold idxAssoc at ih ⊢
      rw [List.range_succ, List.map_append, alookup_append, ih]
      by_cases h : j < k
      · rw [if_pos h, if_pos (Nat.lt_succ_of_lt h)]
      · rw [if_neg h]
        by_cases h2 : j = k
        · subst h2
          simp [alookup]
        · have h3 : ¬ j < k + 1 := by omega
          rw [if_neg h3]
          have h4 : ¬ k = j := fun hc => h2 hc.symm
          simp [alookup, h4]

theorem revRange_succ (k : Nat) : revRange (k + 1) = k :: revRange k := by
  unfold revRange
  rw [List.range_succ, List.reverse_append]
  rfl

theorem not_mem_revRange_self (k : Nat) : k ∉ revRange k := by
  unfold revRange
  simp

theorem dinsert_append_of_none {m : List (α × β)} {a : α} (b : β)
    (h : alookup m a = none) : dinsert m a b = m ++ [(a, b)] := by
  induction m with
  | nil => rfl
  | cons p rest ih =>
      obtain ⟨k, v⟩ := p
      unfold alookup at h
      by_cases hk : k = a
      · rw [if_pos hk] at h
        cases h
      · rw [if_neg hk] at h
        simp only [dinsert, if_neg hk, List.cons_append]
        rw [ih h]

theorem idxAssoc_push (k : Nat) :
    dinsert (idxAssoc k) k k = idxAssoc (k + 1) := by
  rw [dinsert_append_of_none k (by rw [idxAssoc_alookup]; simp)]
  unfold idxAssoc
  rw [List.range_succ, List.map_append]
  simp

/-- The depth needed by visit on the chain: with only n + 1 - k levels
left, the descent from node k runs out. -/
theorem chain_visit_fuel (n : Nat) :
    ∀ (d k : Nat), k + d = n + 1 →
      visit (chainG (n + 1)) d ⟨revRange k, [], []⟩ k = .error .fuel := by
  intro d
  induction d with
  | zero =>
      intro k hk
      show visit (chainG (n + 1)) 0 ⟨revRange k, [], []⟩ k = .error .fuel
      simp only [visit]
      rw [if_neg (List.not_mem_nil k), if_neg (not_mem_revRange_self k)]
  | succ d ih =>
      intro k hk
      have hk1 : k < n + 1 := by omega
      have hch : lookupD (chainG (n + 1)) k = [k + 1] := by
        unfold lookupD
        rw [chainG_alookup, if_pos hk1]
        rfl
      have hrec := ih (k + 1) (by omega)
      simp only [visit]
      rw [if_neg (List.not_mem_nil k), if_neg (not_mem_revRange_self k),
        hch]
      simp only [visitList]
      have hst : (⟨k :: revRange k, [], []⟩ : TopoState Nat) =
          ⟨revRange (k + 1), [], []⟩ := by
        rw [revRange_succ]
      rw [hst, hrec]

theorem mem_chainG_values {n x : Nat}
    (h : x ∈ (chainG n).flatMap Prod.snd) : 1 ≤ x := by
  obtain ⟨⟨k, vs⟩, hm, hv⟩ := List.mem_flatMap.mp h
  unfold chainG at hm
  obtain ⟨i, _, he⟩ := List.mem_map.mp hm
  have h1 := congrArg Prod.snd he
  simp only at h1
  rw [← h1] at hv
  simp only [List.mem_singleton] at hv
  omega

theorem graphNodes_chainG_head (n : Nat) :
    ∃ rest, graphNodes (chainG (n + 1)) = 0 :: rest := by
  unfold graphNodes
  have hfst : (chainG (n + 1)).map Prod.fst = List.range (n + 1) := by
    unfold chainG
    rw [List.map_map]
    exact List.map_id _
  rw [hfst, List.range_succ_eq_map]
  rw [List.cons_append]
  rw [List.dedup_cons_of_not_mem]
  · exact ⟨_, rfl⟩
  · intro hc
    rcases List.mem_append.mp hc with hc | hc
    · obtain ⟨i, _, he⟩ := List.mem_map.mp hc
      omega
    · exact absurd (mem_chainG_values hc) (by omega)

/-- topological_sort_dfs on the chain with n + 1 edges fails with a
depth budget of n + 1. -/
theorem chain_topo_insufficient (n : Nat) :
    topological_sort_dfs_fuel (n + 1) (chainG (n + 1)) = .error .fuel := by
  obtain ⟨rest, hrest⟩ := graphNodes_chainG_head n
  unfold topological_sort_dfs_fuel
  rw [hrest]
  simp only [visitList]
  have h0 := chain_visit_fuel n (n + 1) 0 (by omega)
  have hst : (⟨revRange 0, [], []⟩ : TopoState Nat) = ⟨[], [], []⟩ := rfl
  rw [hst] at h0
  rw [h0]

theorem chainG_edge {m u w : Nat} (h : Edge (chainG m) u w) :
    u < m ∧ w = u + 1 := by
  have h' : w ∈ lookupD (chainG m) u := h
  unfold lookupD at h'
  rw [chainG_alookup] at h'
  by_cases hu : u < m
  · rw [if_pos hu] at h'
    simp only [Option.getD_some, List.mem_singleton] at h'
    exact ⟨hu, h'⟩
  · rw [if_neg hu] at h'
    cases h'

theorem chainG_edgeDecr (m : Nat) :
    EdgeDecr (chainG m) (fun i => m + 1 - i) := by
  intro u w he
  obtain ⟨hu, rfl⟩ := chainG_edge he
  show m + 1 - (u + 1) < m + 1 - u
  omega

theorem chainG_acyclic (m : Nat) : ∀ z, ¬ ReachesPlus (chainG m) z z := by
  have hle : ∀ a b, Reaches (chainG m) a b →
      (fun i => m + 1 - i) b ≤ (fun i => m + 1 - i) a := by
    intro a b hr
    induction hr with
    | refl => exact Nat.le_refl _
    | head he _ ih =>
        exact Nat.le_trans ih (Nat.le_of_lt (chainG_edgeDecr m _ _ he))
  rintro z ⟨w, he, hr⟩
  have h1 : m + 1 - w < m + 1 - z := chainG_edgeDecr m _ _ he
  have h2 : m + 1 - z ≤ m + 1 - w := hle w z hr
  omega

/-! ## Depth fuel sufficiency for decompose_scc -/

/-- Number of nodes with no assigned Tarjan index yet. -/
def unidxCount (g : List (α × List α)) (s : SccState α) : Nat :=
  ((graphNodes g).filter
    (fun x => decide (¬ (alookup s.idx x).isSome))).length

theorem isSome_dinsert {m : List (α × β)} {a x : α} (b : β)
    (h : (alookup m x).isSome) : (alookup (dinsert m a b) x).isSome := by
  by_cases hx : x = a
  · subst hx
    rw [alookup_dinsert_self]
    rfl
  · rw [alookup_dinsert_ne m b hx]
    exact h

theorem sccKids_idxMono
    {sc1 : SccState α → α → Option (SccState α)}
    (H : ∀ s v s', sc1 s v = some s' →
      ∀ x, (alookup s.idx x).isSome → (alookup s'.idx x).isSome) :
    ∀ (l : List α) (v : α) (s s' : SccState α),
      sccKids sc1 v s l = some s' →
      ∀ x, (alookup s.idx x).isSome → (alookup s'.idx x).isSome := by
  intro l
  induction l with
  | nil =>
      intro v s s' h
      simp only [sccKids] at h
      cases h
      exact fun x hx => hx
  | cons w ws ih =>
      intro v s s' h x hx
      simp only [sccKids] at h
      rcases hidx : alookup s.idx w with _ | iw
      · simp only [hidx] at h
        rcases h1 : sc1 s w with _ | s2
        · rw [h1] at h
          cases h
        · rw [h1] at h
          exact ih v _ s' h x (H s w s2 h1 x hx)
      · simp only [hidx] at h
        by_cases hon : w ∈ s.onS
        · rw [if_pos hon] at h
          exact ih v _ s' h x hx
        · rw [if_neg hon] at h
          exact ih v _ s' h x hx

theorem strongConnect_idxMono {g : List (α × List α)} :
    ∀ (f : Nat) (s : SccState α) (v : α) (s' : SccState α),
      strongConnect g f s v = some s' →
      (∀ x, (alookup s.idx x).isSome → (alookup s'.idx x).isSome) ∧
      (alookup s'.idx v).isSome := by
  intro f
  induction f with
  | zero =>
      intro s v s' h
      cases h
  | succ f ih =>
      intro s v s' h
      simp only [strongConnect] at h
      rcases hok : sccKids (strongConnect g f) v
          { s with
            idx := dinsert s.idx v s.i
            low := dinsert s.low v s.i
            i := s.i + 1
            S := v :: s.S
            onS := v :: s.onS } (lookupD g v) with _ | s2
      · rw [hok] at h
        cases h
      · simp only [hok] at h
        have hmono := sccKids_idxMono
          (fun s v s' hs => (ih s v s' hs).1) (lookupD g v) v _ s2 hok
        have hs'idx : s'.idx = s2.idx := by
          by_cases hc : lowN s2 v = idxN s2 v
          · rw [if_pos hc] at h
            injection h with h2
            rw [← h2]
            rfl
          · rw [if_neg hc] at h
            injection h with h2
            rw [← h2]
        constructor
        · intro x hx
          rw [hs'idx]
          exact hmono x (isSome_dinsert s.i hx)
        · rw [hs'idx]
          apply hmono
          show (alookup (dinsert s.idx v s.i) v).isSome
          rw [alookup_dinsert_self]
          rfl

theorem unidxCount_mono {g : List (α × List α)} {s s2 : SccState α}
    (h : ∀ x, (alookup s.idx x).isSome → (alookup s2.idx x).isSome) :
    unidxCount g s2 ≤ unidxCount g s := by
  apply length_filter_mono
  intro x _ hx
  simp only [decide_eq_true_eq] at hx ⊢
  exact fun hc => hx (h x hc)

theorem unidxCount_push {g : List (α × List α)} {s s2 : SccState α} {v : α}
    (hg : v ∈ graphNodes g) (hv : ¬ (alookup s.idx v).isSome)
    (hmark : (alookup s2.idx v).isSome)
    (h : ∀ x, (alookup s.idx x).isSome → (alookup s2.idx x).isSome) :
    unidxCount g s2 < unidxCount g s := by
  apply length_filter_lt (List.nodup_dedup _) hg
  · simp [hmark]
  · simp [hv]
  · intro x _ hx
    simp only [decide_eq_true_eq] at hx ⊢
    exact fun hc => hx (h x hc)

theorem sccKids_no_none {g : List (α × List α)} {F : Nat}
    {sc1 : SccState α → α → Option (SccState α)}
    (Hm : ∀ s v s', sc1 s v = some s' →
      ∀ x, (alookup s.idx x).isSome → (alookup s'.idx x).isSome)
    (H : ∀ s v, v ∈ graphNodes g → alookup s.idx v = none →
      unidxCount g s < F → sc1 s v ≠ none) :
    ∀ (l : List α) (v : α) (s : SccState α),
      (∀ x ∈ l, x ∈ graphNodes g) → unidxCount g s < F →
      sccKids sc1 v s l ≠ none := by
  intro l
  induction l with
  | nil =>
      intro v s _ _ h
      simp only [sccKids] at h
      cases h
  | cons w ws ih =>
      intro v s hl hc h
      simp only [sccKids] at h
      rcases hidx : alookup s.idx w with _ | iw
      · simp only [hidx] at h
        rcases h1 : sc1 s w with _ | s2
        · rw [h1] at h
          exact H s w (hl w (List.mem_cons_self w ws)) hidx hc h1
        · rw [h1] at h
          have hcs2 : unidxCount g s2 ≤ unidxCount g s :=
            unidxCount_mono (Hm s w s2 h1)
          have hcs3 : unidxCount g
              { s2 with low := dinsert s2.low v (min (lowN s2 v) (lowN s2 w)) }
              = unidxCount g s2 := rfl
          exact ih v _ (fun x hx => hl x (List.mem_cons_of_mem _ hx))
            (by omega) h
      · simp only [hidx] at h
        by_cases hon : w ∈ s.onS
        · rw [if_pos hon] at h
          have hcs : unidxCount g
              { s with low := dinsert s.low v (min (lowN s v) iw) }
              = unidxCount g s := rfl
          exact ih v _ (fun x hx => hl x (List.mem_cons_of_mem _ hx))
            (by omega) h
        · rw [if_neg hon] at h
          exact ih v s (fun x hx => hl x (List.mem_cons_of_mem _ hx)) hc h

theorem strongConnect_no_none {g : List (α × List α)} :
    ∀ (f : Nat) (s : SccState α) (v : α), v ∈ graphNodes g →
      alookup s.idx v = none → unidxCount g s < f →
      strongConnect g f s v ≠ none := by
  intro f
  induction f with
  | zero =>
      intro s v _ _ hc
      exact absurd hc (Nat.not_lt_zero _)
  | succ f ih =>
      intro s v hvg hnone hc h
      simp only [strongConnect] at h
      have hfresh : ¬ (alookup s.idx v).isSome := by
        rw [hnone]
        simp
      have hlt : unidxCount g
          { s with
            idx := dinsert s.idx v s.i
            low := dinsert s.low v s.i
            i := s.i + 1
            S := v :: s.S
            onS := v :: s.onS } < unidxCount g s := by
        apply unidxCount_push hvg hfresh
        · show (alookup (dinsert s.idx v s.i) v).isSome
          rw [alookup_dinsert_self]
          rfl
        · intro x hx
          exact isSome_dinsert s.i hx
      have hkids := sccKids_no_none (F := f)
        (fun s v s' hs => (strongConnect_idxMono f s v s' hs).1)
        (fun s v hg hn hcnt => ih s v hg hn hcnt)
        (lookupD g v) v
        ({ s with
           idx := dinsert s.idx v s.i
           low := dinsert s.low v s.i
           i := s.i + 1
           S := v :: s.S
           onS := v :: s.onS })
        (fun x hx => child_mem_graphNodes hx)
        (by omega)
      rcases hok : sccKids (strongConnect g f) v
          { s with
            idx := dinsert s.idx v s.i
            low := dinsert s.low v s.i
            i := s.i + 1
            S := v :: s.S
            onS := v :: s.onS } (lookupD g v) with _ | s2
      · exact hkids hok
      · simp only [hok] at h
        by_cases hcnd : lowN s2 v = idxN s2 v
        · rw [if_pos hcnd] at h
          cases h
        · rw [if_neg hcnd] at h
          cases h

theorem sccLoop_no_none {g : List (α × List α)} {fuel : Nat} :
    ∀ (l : List α) (s : SccState α),
      (∀ x ∈ l, x ∈ graphNodes g) → unidxCount g s < fuel →
      sccLoop g fuel s l ≠ none := by
  intro l
  induction l with
  | nil =>
      intro s _ _ h
      simp only [sccLoop] at h
      cases h
  | cons v vs ih =>
      intro s hl hc h
      simp only [sccLoop] at h
      rcases hidx : alookup s.idx v with _ | iv
      · simp only [hidx] at h
        rcases hsc : strongConnect g fuel s v with _ | s2
        · exact strongConnect_no_none fuel s v
            (hl v (List.mem_cons_self v vs)) hidx hc hsc
        · rw [hsc] at h
          have hmono := (strongConnect_idxMono fuel s v s2 hsc).1
          have hcs : unidxCount g s2 ≤ unidxCount g s :=
            unidxCount_mono hmono
          exact ih s2 (fun x hx => hl x (List.mem_cons_of_mem _ hx))
            (by omega) h
      · simp only [hidx] at h
        exact ih s (fun x hx => hl x (List.mem_cons_of_mem _ hx)) hc h

/-- decompose_scc never runs out of depth fuel. -/
theorem decompose_scc_isSome (g : List (α × List α)) :
    ∃ C, decompose_scc g = some C := by
  unfold decompose_scc decompose_scc_fuel
  have hcnt : unidxCount g (⟨0, [], [], [], [], []⟩ : SccState α)
      < defaultFuel g := by
    unfold unidxCount defaultFuel
    have := List.length_filter_le
      (fun x => decide (¬ (alookup (⟨0, [], [], [], [], []⟩ :
        SccState α).idx x).isSome)) (graphNodes g)
    omega
  rcases hv : sccLoop g (defaultFuel g) ⟨0, [], [], [], [], []⟩
      (graphNodes g) with _ | s
  · exact absurd hv (sccLoop_no_none (graphNodes g) _ (fun x hx => hx) hcnt)
  · exact ⟨s.comps, rfl⟩

/-- The Tarjan state along the descent into the chain: nodes
0 .. k-1 indexed with themselves and all on the stack. -/
def sState (k : Nat) : SccState Nat :=
  ⟨k, [], revRange k, idxAssoc k, idxAssoc k, revRange k⟩

theorem chain_scc_fuel (n : Nat) :
    ∀ (d k : Nat), k + d = n + 1 →
      strongConnect (chainG (n + 1)) d (sState k) k = none := by
  intro d
  induction d with
  | zero => intro k hk; rfl
  | succ d ih =>
      intro k hk
      have hk1 : k < n + 1 := by omega
      have hch : lookupD (chainG (n + 1)) k = [k + 1] := by
        unfold lookupD
        rw [chainG_alookup, if_pos hk1]
        rfl
      simp only [strongConnect]
      have hs1 :
          ({ sState k with
             idx := dinsert (sState k).idx k (sState k).i
             low := dinsert (sState k).low k (sState k).i
             i := (sState k).i + 1
             S := k :: (sState k).S
             onS := k :: (sState k).onS } : SccState Nat) =
          sState (k + 1) := by
        show (⟨k + 1, [], k :: revRange k, dinsert (idxAssoc k) k k,
          dinsert (idxAssoc k) k k, k :: revRange k⟩ : SccState Nat) = _
        rw [idxAssoc_push, ← revRange_succ]
        rfl
      rw [hs1, hch]
      simp only [sccKids]
      have hidxn : alookup (sState (k + 1)).idx (k + 1) = none := by
        show alookup (idxAssoc (k + 1)) (k + 1) = none
        rw [idxAssoc_alookup]
        simp
      rw [hidxn]
      rw [ih (k + 1) (by omega)]

/-- decompose_scc on the chain with n + 1 edges fails with a depth
budget of n + 1. -/
theorem chain_scc_insufficient (n : Nat) :
    decompose_scc_fuel (n + 1) (chainG (n + 1)) = none := by
  obtain ⟨rest, hrest⟩ := graphNodes_chainG_head n
  unfold decompose_scc_fuel
  rw [hrest]
  simp only [sccLoop]
  have h0 : alookup (⟨0, [], [], [], [], []⟩ : SccState Nat).idx 0 = none :=
    rfl
  rw [h0]
  have hst : (⟨0, [], [], [], [], []⟩ : SccState Nat) = sState 0 := rfl
  rw [hst, chain_scc_fuel n (n + 1) 0 (by omega)]


/-! ## Characterization of the condensed graph build loop -/

/-- A raw edge of cg mapped through the index function. -/
def IdxEdge (cg : List (α × List α)) (κ : α → Nat) (i j : Nat) : Prop :=
  ∃ c vs d, (c, vs) ∈ cg ∧ d ∈ vs ∧ κ c = i ∧ κ d = j

theorem isSome_alookup_addToSet {m : List (α × List β)} {a x : α} {b : β}
    (h : (alookup m x).isSome) : (alookup (addToSet m a b) x).isSome := by
  unfold addToSet
  exact isSome_dinsert _ h

theorem innerAdd_mem (κ : α → Nat) (c : α) :
    ∀ (vs : List α) (U I : List (Nat × List Nat)) (i j : Nat),
      (j ∈ lookupD (vs.foldl
          (fun (UI : List (Nat × List Nat) × List (Nat × List Nat)) v =>
            (addToSet UI.1 (κ c) (κ v), addToSet UI.2 (κ v) (κ c)))
          (U, I)).1 i ↔
        j ∈ lookupD U i ∨ (i = κ c ∧ ∃ d ∈ vs, κ d = j)) ∧
      (i ∈ lookupD (vs.foldl
          (fun (UI : List (Nat × List Nat) × List (Nat × List Nat)) v =>
            (addToSet UI.1 (κ c) (κ v), addToSet UI.2 (κ v) (κ c)))
          (U, I)).2 j ↔
        i ∈ lookupD I j ∨ (i = κ c ∧ ∃ d ∈ vs, κ d = j)) := by
  intro vs
  induction vs with
  | nil =>
      intro U I i j
      constructor
      · simp
      · simp
  | cons d rest ih =>
      intro U I i j
      have ihs := ih (addToSet U (κ c) (κ d)) (addToSet I (κ d) (κ c)) i j
      constructor
      · rw [List.foldl_cons]
        rw [ihs.1]
        rw [mem_lookupD_addToSet]
        constructor
        · rintro ((⟨rfl, h | rfl⟩ | ⟨hne, h⟩) | ⟨rfl, d2, hd2, hk⟩)
          · exact Or.inl h
          · exact Or.inr ⟨rfl, d, List.mem_cons_self d rest, rfl⟩
          · exact Or.inl h
          · exact Or.inr ⟨rfl, d2, List.mem_cons_of_mem _ hd2, hk⟩
        · rintro (h | ⟨rfl, d2, hd2, hk⟩)
          · by_cases hi : i = κ c
            · exact Or.inl (Or.inl ⟨hi, Or.inl (hi ▸ h)⟩)
            · exact Or.inl (Or.inr ⟨hi, h⟩)
          · rcases List.mem_cons.mp hd2 with rfl | hd3
            · exact Or.inl (Or.inl ⟨rfl, Or.inr hk.symm⟩)
            · exact Or.inr ⟨rfl, d2, hd3, hk⟩
      · rw [List.foldl_cons]
        rw [ihs.2]
        rw [mem_lookupD_addToSet]
        constructor
        · rintro ((⟨rfl, h | rfl⟩ | ⟨hne, h⟩) | ⟨rfl, d2, hd2, hk⟩)
          · exact Or.inl h
          · exact Or.inr ⟨rfl, d, List.mem_cons_self d rest, rfl⟩
          · exact Or.inl h
          · exact Or.inr ⟨rfl, d2, List.mem_cons_of_mem _ hd2, hk⟩
        · rintro (h | ⟨rfl, d2, hd2, hk⟩)
          · by_cases hj : j = κ d
            · exact Or.inl (Or.inl ⟨hj, Or.inl (hj ▸ h)⟩)
            · exact Or.inl (Or.inr ⟨hj, h⟩)
          · rcases List.mem_cons.mp hd2 with rfl | hd3
            · exact Or.inl (Or.inl ⟨hk.symm, Or.inr rfl⟩)
            · exact Or.inr ⟨rfl, d2, hd3, hk⟩


/-- One key's step of the buildCondensed fold: add all its edges and
remove the self loop at its index. -/
def condStep (κ : α → Nat)
    (UI : List (Nat × List Nat) × List (Nat × List Nat)) (e : α × List α) :
    List (Nat × List Nat) × List (Nat × List Nat) :=
  (fun UI2 =>
    (dinsert UI2.1 (κ e.1)
       ((lookupD UI2.1 (κ e.1)).filter (fun x => x ≠ κ e.1)),
     dinsert UI2.2 (κ e.1)
       ((lookupD UI2.2 (κ e.1)).filter (fun x => x ≠ κ e.1))))
    (e.2.foldl
      (fun (UI : List (Nat × List Nat) × List (Nat × List Nat)) v =>
        (addToSet UI.1 (κ e.1) (κ v), addToSet UI.2 (κ v) (κ e.1)))
      UI)

theorem buildCondensed_eq_fold (cg : List (α × List α)) (κ : α → Nat) :
    buildCondensed cg κ = cg.foldl (condStep κ) ([], []) := by
  unfold buildCondensed condStep
  rfl

theorem buildCondensed_fold (κ : α → Nat) :
    ∀ (rest : List (α × List α)) (U I : List (Nat × List Nat)),
      (∀ i, i ∉ lookupD U i) → (∀ i, i ∉ lookupD I i) →
      (∀ i j, j ∈ lookupD (rest.foldl (condStep κ) (U, I)).1 i ↔
        j ∈ lookupD U i ∨ (IdxEdge rest κ i j ∧ i ≠ j)) ∧
      (∀ i j, i ∈ lookupD (rest.foldl (condStep κ) (U, I)).2 j ↔
        i ∈ lookupD I j ∨ (IdxEdge rest κ i j ∧ i ≠ j)) ∧
      (∀ c vs, (c, vs) ∈ rest →
        (alookup (rest.foldl (condStep κ) (U, I)).1 (κ c)).isSome) ∧
      (∀ x, (alookup U x).isSome →
        (alookup (rest.foldl (condStep κ) (U, I)).1 x).isSome) := by
  intro rest
  induction rest with
  | nil =>
      intro U I hU hI
      refine ⟨?_, ?_, ?_, ?_⟩
      · intro i j
        simp only [List.foldl_nil]
        constructor
        · exact Or.inl
        · rintro (h | ⟨⟨c, vs, d, hm, _⟩, _⟩)
          · exact h
          · cases hm
      · intro i j
        simp only [List.foldl_nil]
        constructor
        · exact Or.inl
        · rintro (h | ⟨⟨c, vs, d, hm, _⟩, _⟩)
          · exact h
          · cases hm
      · intro c vs hm
        cases hm
      · intro x hx
        exact hx
  | cons e rest ih =>
      intro U I hU hI
      obtain ⟨c, vs⟩ := e
      simp only [List.foldl_cons, condStep]
      have hinner := innerAdd_mem κ c vs U I
      set U1 := (vs.foldl
        (fun (UI : List (Nat × List Nat) × List (Nat × List Nat)) v =>
          (addToSet UI.1 (κ c) (κ v), addToSet UI.2 (κ v) (κ c))) (U, I)).1
        with hU1
      set I1 := (vs.foldl
        (fun (UI : List (Nat × List Nat) × List (Nat × List Nat)) v =>
          (addToSet UI.1 (κ c) (κ v), addToSet UI.2 (κ v) (κ c))) (U, I)).2
        with hI1
      have hU2mem : ∀ i j,
          j ∈ lookupD (dinsert U1 (κ c)
            ((lookupD U1 (κ c)).filter (fun x => x ≠ κ c))) i ↔
          j ∈ lookupD U i ∨
            ((i = κ c ∧ ∃ d ∈ vs, κ d = j) ∧ i ≠ j) := by
        intro i j
        by_cases hi : i = κ c
        · subst hi
          rw [lookupD_dinsert_self]
          rw [List.mem_filter]
          rw [(hinner (κ c) j).1]
          constructor
          · rintro ⟨h1 | h1, h2⟩
            · exact Or.inl h1
            · have h2b : j ≠ κ c := by simpa using h2
              exact Or.inr ⟨h1, fun hc => h2b hc.symm⟩
          · rintro (h | ⟨h1, h2⟩)
            · have hne : j ≠ κ c := fun hc => hU (κ c) (hc ▸ h)
              exact ⟨Or.inl h, by simpa using hne⟩
            · have hne : j ≠ κ c := fun hc => h2 hc.symm
              exact ⟨Or.inr h1, by simpa using hne⟩
        · rw [lookupD_dinsert_ne _ _ hi]
          rw [(hinner i j).1]
          constructor
          · rintro (h | ⟨h1, _⟩)
            · exact Or.inl h
            · exact absurd h1 hi
          · rintro (h | ⟨⟨h1, _⟩, _⟩)
            · exact Or.inl h
            · exact absurd h1 hi
      have hI2mem : ∀ i j,
          i ∈ lookupD (dinsert I1 (κ c)
            ((lookupD I1 (κ c)).filter (fun x => x ≠ κ c))) j ↔
          i ∈ lookupD I j ∨
            ((i = κ c ∧ ∃ d ∈ vs, κ d = j) ∧ i ≠ j) := by
        intro i j
        by_cases hj : j = κ c
        · subst hj
          rw [lookupD_dinsert_self]
          rw [List.mem_filter]
          rw [(hinner i (κ c)).2]
          constructor
          · rintro ⟨h1 | h1, h2⟩
            · exact Or.inl h1
            · have h2b : i ≠ κ c := by simpa using h2
              exact Or.inr ⟨h1, h2b⟩
          · rintro (h | ⟨h1, h2⟩)
            · have hne : i ≠ κ c := fun hc => hI (κ c) (hc ▸ h)
              exact ⟨Or.inl h, by simpa using hne⟩
            · exact ⟨Or.inr h1, by simpa using h2⟩
        · rw [lookupD_dinsert_ne _ _ hj]
          rw [(hinner i j).2]
          constructor
          · rintro (h | ⟨h1, h2⟩)
            · exact Or.inl h
            · refine Or.inr ⟨⟨h1, h2⟩, ?_⟩
              intro hc
              rw [← hc] at hj
              exact hj h1
          · rintro (h | ⟨⟨h1, hd⟩, hne⟩)
            · exact Or.inl h
            · exact Or.inr ⟨h1, hd⟩
      have hU2diag : ∀ i, i ∉ lookupD (dinsert U1 (κ c)
          ((lookupD U1 (κ c)).filter (fun x => x ≠ κ c))) i := by
        intro i hc
        rcases (hU2mem i i).mp hc with h | ⟨_, hne⟩
        · exact hU i h
        · exact hne rfl
      have hI2diag : ∀ i, i ∉ lookupD (dinsert I1 (κ c)
          ((lookupD I1 (κ c)).filter (fun x => x ≠ κ c))) i := by
        intro i hc
        rcases (hI2mem i i).mp hc with h | ⟨_, hne⟩
        · exact hI i h
        · exact hne rfl
      obtain ⟨ih1, ih2, ih3, ih4⟩ := ih
        (dinsert U1 (κ c) ((lookupD U1 (κ c)).filter (fun x => x ≠ κ c)))
        (dinsert I1 (κ c) ((lookupD I1 (κ c)).filter (fun x => x ≠ κ c)))
        hU2diag hI2diag
      refine ⟨?_, ?_, ?_, ?_⟩
      · intro i j
        rw [ih1 i j, hU2mem i j]
        constructor
        · rintro ((h | ⟨⟨hi, d, hd, hk⟩, hne⟩) | ⟨⟨c2, vs2, d, hm, hd, hk1, hk2⟩, hne⟩)
          · exact Or.inl h
          · exact Or.inr ⟨⟨c, vs, d, List.mem_cons_self _ _, hd, hi.symm, hk⟩, hne⟩
          · exact Or.inr ⟨⟨c2, vs2, d, List.mem_cons_of_mem _ hm, hd, hk1, hk2⟩, hne⟩
        · rintro (h | ⟨⟨c2, vs2, d, hm, hd, hk1, hk2⟩, hne⟩)
          · exact Or.inl (Or.inl h)
          · rcases List.mem_cons.mp hm with heq | hm2
            · have hc2 := congrArg Prod.fst heq
              have hvs2 := congrArg Prod.snd heq
              simp only at hc2 hvs2
              subst hc2
              subst hvs2
              exact Or.inl (Or.inr ⟨⟨hk1.symm, d, hd, hk2⟩, hne⟩)
            · exact Or.inr ⟨⟨c2, vs2, d, hm2, hd, hk1, hk2⟩, hne⟩
      · intro i j
        rw [ih2 i j, hI2mem i j]
        constructor
        · rintro ((h | ⟨⟨hi, d, hd, hk⟩, hne⟩) | ⟨⟨c2, vs2, d, hm, hd, hk1, hk2⟩, hne⟩)
          · exact Or.inl h
          · exact Or.inr ⟨⟨c, vs, d, List.mem_cons_self _ _, hd, hi.symm, hk⟩, hne⟩
          · exact Or.inr ⟨⟨c2, vs2, d, List.mem_cons_of_mem _ hm, hd, hk1, hk2⟩, hne⟩
        · rintro (h | ⟨⟨c2, vs2, d, hm, hd, hk1, hk2⟩, hne⟩)
          · exact Or.inl (Or.inl h)
          · rcases List.mem_cons.mp hm with heq | hm2
            · have hc2 := congrArg Prod.fst heq
              have hvs2 := congrArg Prod.snd heq
              simp only at hc2 hvs2
              subst hc2
              subst hvs2
              exact Or.inl (Or.inr ⟨⟨hk1.symm, d, hd, hk2⟩, hne⟩)
            · exact Or.inr ⟨⟨c2, vs2, d, hm2, hd, hk1, hk2⟩, hne⟩
      · intro c2 vs2 hm
        rcases List.mem_cons.mp hm with heq | hm2
        · have hc2 := congrArg Prod.fst heq
          simp only at hc2
          subst hc2
          apply ih4
          show (alookup (dinsert U1 (κ c2)
            ((lookupD U1 (κ c2)).filter (fun x => x ≠ κ c2))) (κ c2)).isSome
          rw [alookup_dinsert_self]
          rfl
        · exact ih3 c2 vs2 hm2
      · intro x hx
        apply ih4
        apply isSome_dinsert
        have hpres : ∀ (ws : List α) (U0 I0 : List (Nat × List Nat)),
            (alookup U0 x).isSome →
            (alookup (ws.foldl
              (fun (UI : List (Nat × List Nat) × List (Nat × List Nat)) v =>
                (addToSet UI.1 (κ c) (κ v), addToSet UI.2 (κ v) (κ c)))
              (U0, I0)).1 x).isSome := by
          intro ws
          induction ws with
          | nil => exact fun U0 I0 h => h
          | cons w ws2 ihw =>
              intro U0 I0 h
              exact ihw _ _ (isSome_alookup_addToSet h)
        exact hpres vs U I hx

theorem buildCondensed_U_mem (cg : List (α × List α)) (κ : α → Nat)
    (i j : Nat) :
    j ∈ lookupD (buildCondensed cg κ).1 i ↔ IdxEdge cg κ i j ∧ i ≠ j := by
  rw [buildCondensed_eq_fold]
  rw [(buildCondensed_fold κ cg [] []
    (fun i h => absurd h (List.not_mem_nil i))
    (fun i h => absurd h (List.not_mem_nil i))).1 i j]
  constructor
  · rintro (h | h)
    · cases h
    · exact h
  · exact Or.inr

theorem buildCondensed_I_mem (cg : List (α × List α)) (κ : α → Nat)
    (i j : Nat) :
    i ∈ lookupD (buildCondensed cg κ).2 j ↔ IdxEdge cg κ i j ∧ i ≠ j := by
  rw [buildCondensed_eq_fold]
  rw [(buildCondensed_fold κ cg [] []
    (fun i h => absurd h (List.not_mem_nil i))
    (fun i h => absurd h (List.not_mem_nil i))).2.1 i j]
  constructor
  · rintro (h | h)
    · cases h
    · exact h
  · exact Or.inr

theorem buildCondensed_key {cg : List (α × List α)} {κ : α → Nat}
    {c : α} {vs : List α} (h : (c, vs) ∈ cg) :
    (alookup (buildCondensed cg κ).1 (κ c)).isSome := by
  rw [buildCondensed_eq_fold]
  exact (buildCondensed_fold κ cg [] []
    (fun i h => absurd h (List.not_mem_nil i))
    (fun i h => absurd h (List.not_mem_nil i))).2.2.1 c vs h

/-- The graph handed to the topological sort mentions the index of
every raw node. -/
theorem condensed_node_mem {cg : List (α × List α)} {κ : α → Nat} {x : α}
    (hx : x ∈ graphNodes cg) :
    κ x ∈ graphNodes (buildCondensed cg κ).1 := by
  rcases mem_graphNodes.mp hx with ⟨vs, hk⟩ | ⟨c, vs, hk, hv⟩
  · apply key_mem_graphNodes
    intro hc
    have := buildCondensed_key (κ := κ) hk
    rw [hc] at this
    cases this
  · by_cases heq : κ x = κ c
    · apply key_mem_graphNodes
      intro hc
      have := buildCondensed_key (κ := κ) hk
      rw [← heq, hc] at this
      cases this
    · apply child_mem_graphNodes (x := κ c)
      rw [buildCondensed_U_mem]
      exact ⟨⟨c, vs, x, hk, hv, rfl, rfl⟩, fun hc => heq hc.symm⟩

/-! ## Characterization of the accumulation loop -/

/-- One defaultdict read preserves every association and can only add
a fresh empty entry. -/
theorem autoviv_lookup (m : List (α × List β)) (a k : α) :
    alookup (autoviv m a) k = alookup m k ∨
      (alookup m k = none ∧ alookup (autoviv m a) k = some []) := by
  unfold autoviv
  rcases hm : alookup m a with _ | v
  · rw [alookup_append]
    rcases hk : alookup m k with _ | vk
    · by_cases hak : a = k
      · subst hak
        right
        refine ⟨rfl, ?_⟩
        simp [alookup]
      · left
        simp [alookup, hak]
    · left
      rfl
  · left
    rfl

theorem autoviv_lookupD (m : List (α × List β)) (a k : α) :
    lookupD (autoviv m a) k = lookupD m k := by
  rcases autoviv_lookup m a k with h | ⟨h1, h2⟩
  · unfold lookupD
    rw [h]
  · unfold lookupD
    rw [h1, h2]
    rfl

theorem unionInto_lookupD (U : List (Nat × List Nat)) (v n k : Nat) :
    lookupD (unionInto U v n) k =
      if k = v then setUnion (lookupD U v) (lookupD U n)
      else lookupD U k := by
  unfold unionInto
  by_cases hk : k = v
  · subst hk
    rw [if_pos rfl, lookupD_dinsert_self, autoviv_lookupD, autoviv_lookupD,
      autoviv_lookupD, autoviv_lookupD]
  · rw [if_neg hk, lookupD_dinsert_ne _ _ hk, autoviv_lookupD,
      autoviv_lookupD]

theorem reachesPlus_reaches {g : List (α × List α)} {a b : α}
    (h : ReachesPlus g a b) : Reaches g a b := by
  obtain ⟨w, he, hr⟩ := h
  exact Reaches.head he hr

/-- Facts about folding one node's push into all of its parents:
monotone, the pushed node's own entry untouched, each parent receives
the pushed set, and every new element came from the pushed set. -/
theorem parentsFold_lookupD (m : Nat) :
    ∀ (parents : List Nat) (U : List (Nat × List Nat)), m ∉ parents →
      (∀ k x, x ∈ lookupD U k →
        x ∈ lookupD (parents.foldl (fun U v => unionInto U v m) U) k) ∧
      (lookupD (parents.foldl (fun U v => unionInto U v m) U) m =
        lookupD U m) ∧
      (∀ v ∈ parents, ∀ x, x ∈ lookupD U m →
        x ∈ lookupD (parents.foldl (fun U v => unionInto U v m) U) v) ∧
      (∀ k x, x ∈ lookupD (parents.foldl (fun U v => unionInto U v m) U) k →
        x ∈ lookupD U k ∨ (k ∈ parents ∧ x ∈ lookupD U m)) := by
  intro parents
  induction parents with
  | nil =>
      intro U _
      exact ⟨fun k x hx => hx, rfl,
        fun v hv => absurd hv (List.not_mem_nil v),
        fun k x hx => Or.inl hx⟩
  | cons p rest ih =>
      intro U hm
      have hpm : m ≠ p := fun hc => hm (hc ▸ List.mem_cons_self p rest)
      have hmr : m ∉ rest := fun hc => hm (List.mem_cons_of_mem _ hc)
      obtain ⟨ihmono, ihm, ihpar, ihbd⟩ := ih (unionInto U p m) hmr
      have hstep : ∀ k x, x ∈ lookupD U k → x ∈ lookupD (unionInto U p m) k := by
        intro k x hx
        rw [unionInto_lookupD]
        by_cases hk : k = p
        · rw [if_pos hk]
          exact mem_setUnion.mpr (Or.inl (hk ▸ hx))
        · rw [if_neg hk]
          exact hx
      have hstepm : lookupD (unionInto U p m) m = lookupD U m := by
        rw [unionInto_lookupD, if_neg hpm]
      refine ⟨?_, ?_, ?_, ?_⟩
      · intro k x hx
        simp only [List.foldl_cons]
        exact ihmono k x (hstep k x hx)
      · simp only [List.foldl_cons]
        rw [ihm, hstepm]
      · intro v hv x hx
        simp only [List.foldl_cons]
        rcases List.mem_cons.mp hv with rfl | hv2
        · apply ihmono
          rw [unionInto_lookupD, if_pos rfl]
          exact mem_setUnion.mpr (Or.inr hx)
        · apply ihpar v hv2
          rw [hstepm]
          exact hx
      · intro k x hx
        simp only [List.foldl_cons] at hx
        rcases ihbd k x hx with hx2 | ⟨hkr, hxm⟩
        · rw [unionInto_lookupD] at hx2
          by_cases hk : k = p
          · rw [if_pos hk] at hx2
            rcases mem_setUnion.mp hx2 with h | h
            · exact Or.inl (hk ▸ h)
            · exact Or.inr ⟨hk ▸ List.mem_cons_self p rest, h⟩
          · rw [if_neg hk] at hx2
            exact Or.inl hx2
        · rw [hstepm] at hxm
          exact Or.inr ⟨List.mem_cons_of_mem p hkr, hxm⟩

/-- Invariant of the backward accumulation loop: every stored element
is reachable by at least one condensed edge, the original edges are
kept, and every parent of a processed node holds that node and all of
its strict descendants. -/
def AccInv (U0 : List (Nat × List Nat)) (done : Nat → Prop)
    (U : List (Nat × List Nat)) : Prop :=
  (∀ i j, j ∈ lookupD U i → ReachesPlus U0 i j) ∧
  (∀ i j, j ∈ lookupD U0 i → j ∈ lookupD U i) ∧
  (∀ n c, c ∈ lookupD U0 n → done c →
    ∀ j, j = c ∨ ReachesPlus U0 c j → j ∈ lookupD U n)

/-- A node all of whose children are processed already has its full
strict-descendant set. -/
theorem accInv_complete {U0 : List (Nat × List Nat)} {done : Nat → Prop}
    {U : List (Nat × List Nat)} (hinv : AccInv U0 done U) (n : Nat)
    (hch : ∀ c, c ∈ lookupD U0 n → done c) :
    ∀ j, ReachesPlus U0 n j → j ∈ lookupD U n := by
  rintro j ⟨w, he, hr⟩
  refine hinv.2.2 n w he (hch w he) j ?_
  rcases hr.cases_eq_or_plus with h | h
  · exact Or.inl h.symm
  · exact Or.inr h

/-- One iteration of the backward loop of _update_categorygraph. -/
def accStep (I : List (Nat × List Nat)) (U : List (Nat × List Nat))
    (n : Nat) : List (Nat × List Nat) :=
  match alookup I n with
  | none => U
  | some parents => parents.foldl (fun U v => unionInto U v n) U

theorem accumulate_eq_foldl (I : List (Nat × List Nat))
    (order : List Nat) (U : List (Nat × List Nat)) :
    accumulate I order U = order.foldl (accStep I) U := rfl

/-- Processing one node whose children are all processed preserves the
loop invariant. -/
theorem accStep_inv {U0 I : List (Nat × List Nat)} {done : Nat → Prop}
    {U : List (Nat × List Nat)} {m : Nat}
    (hI : ∀ i j, i ∈ lookupD I j ↔ j ∈ lookupD U0 i)
    (hdiag : ∀ i, i ∉ lookupD U0 i)
    (hinv : AccInv U0 done U)
    (hch : ∀ c, c ∈ lookupD U0 m → done c) :
    AccInv U0 (fun c => c = m ∨ done c) (accStep I U m) := by
  obtain ⟨hs, hg, hq⟩ := hinv
  unfold accStep
  rcases hal : alookup I m with _ | parents
  · refine ⟨hs, hg, ?_⟩
    rintro n c hc (rfl | hdone)
    · exfalso
      have hn : n ∈ lookupD I c := (hI n c).mpr hc
      unfold lookupD at hn
      rw [hal] at hn
      cases hn
    · exact hq n c hc hdone
  · have hparents : lookupD I m = parents := by
      unfold lookupD
      rw [hal]
      rfl
    have hmp : m ∉ parents := by
      intro hc
      rw [← hparents] at hc
      exact hdiag m ((hI m m).mp hc)
    obtain ⟨pmono, pkeep, ppush, pbound⟩ := parentsFold_lookupD m parents U hmp
    refine ⟨?_, ?_, ?_⟩
    · intro i j hj
      rcases pbound i j hj with hj2 | ⟨hip, hjm⟩
      · exact hs i j hj2
      · have hedge : m ∈ lookupD U0 i := (hI i m).mp (hparents ▸ hip)
        exact ⟨m, hedge, reachesPlus_reaches (hs m j hjm)⟩
    · intro i j hj
      exact pmono i j (hg i j hj)
    · rintro n c hc (rfl | hdone)
      · have hnp : n ∈ parents := hparents ▸ (hI n c).mpr hc
        rintro j (rfl | hrp)
        · exact pmono n j (hg n j hc)
        · have hjm : j ∈ lookupD U c :=
            accInv_complete ⟨hs, hg, hq⟩ c hch j hrp
          exact ppush n hnp j hjm
      · intro j hj
        exact pmono n j (hq n c hc hdone j hj)

/-- Folding the loop body over a suffix whose children always lie
further right establishes the invariant with that suffix processed. -/
theorem accumulate_foldr {U0 I : List (Nat × List Nat)}
    (hI : ∀ i j, i ∈ lookupD I j ↔ j ∈ lookupD U0 i)
    (hdiag : ∀ i, i ∉ lookupD U0 i) :
    ∀ s : List Nat,
      (∀ a m b, s = a ++ m :: b → ∀ c, c ∈ lookupD U0 m → c ∈ b) →
      AccInv U0 (fun c => c ∈ s)
        (s.foldr (fun n U => accStep I U n) U0) := by
  intro s
  induction s with
  | nil =>
      intro _
      refine ⟨?_, fun i j h => h, ?_⟩
      · intro i j hj
        exact ⟨j, hj, Reaches.refl j⟩
      · intro n c _ hc
        exact absurd hc (List.not_mem_nil c)
  | cons x s2 ih =>
      intro hs
      have ih2 := ih (fun a m b hab c hc =>
        hs (x :: a) m b (by rw [hab]; rfl) c hc)
      have hstep := accStep_inv hI hdiag ih2 (fun c hc => hs [] x s2 rfl c hc)
      obtain ⟨h1, h2, h3⟩ := hstep
      exact ⟨h1, h2, fun n c hc hcm => h3 n c hc (List.mem_cons.mp hcm)⟩

theorem indexOf_append_lt {l1 l2 : List α} {x : α} (h : x ∈ l1) :
    (l1 ++ l2).indexOf x < l1.length := by
  induction l1 with
  | nil => exact absurd h (List.not_mem_nil x)
  | cons y t ih =>
      by_cases hxy : x = y
      · subst hxy
        simp [List.indexOf_cons_self]
      · rcases List.mem_cons.mp h with h2 | h2
        · exact absurd h2 hxy
        · have := ih h2
          rw [List.cons_append, List.indexOf_cons_ne _ (fun hc => hxy hc.symm)]
          simpa using Nat.succ_lt_succ this

theorem indexOf_append_ge {l1 l2 : List α} {x : α} (h : x ∉ l1) :
    l1.length ≤ (l1 ++ l2).indexOf x := by
  induction l1 with
  | nil => exact Nat.zero_le _
  | cons y t ih =>
      have hxy : x ≠ y := fun hc => h (hc ▸ List.mem_cons_self y t)
      have hxt : x ∉ t := fun hc => h (List.mem_cons_of_mem y hc)
      rw [List.cons_append, List.indexOf_cons_ne _ (fun hc => hxy hc.symm)]
      simpa using Nat.succ_le_succ (ih hxt)

/-- The accumulated graph of _update_categorygraph holds exactly the
strict reachability relation of the condensed graph, whenever the
topological sort succeeded and the inverse graph matches the forward
graph with no self loops. -/
theorem accumulate_char {U0 I : List (Nat × List Nat)} {L : List Nat}
    (hI : ∀ i j, i ∈ lookupD I j ↔ j ∈ lookupD U0 i)
    (hdiag : ∀ i, i ∉ lookupD U0 i)
    (htopo : topological_sort_dfs U0 = .ok L) :
    ∀ i j, j ∈ lookupD (accumulate I L.reverse U0) i ↔
      ReachesPlus U0 i j := by
  obtain ⟨hnd, hmem, hedge⟩ := topo_ok_props htopo
  have hfold : accumulate I L.reverse U0 =
      L.foldr (fun n U => accStep I U n) U0 := by
    rw [accumulate_eq_foldl, List.foldl_reverse]
  have hsplit : ∀ a m b, L = a ++ m :: b →
      ∀ c, c ∈ lookupD U0 m → c ∈ b := by
    intro a m b hab c hc
    obtain ⟨hm, hcL, hlt⟩ := hedge m c hc
    have hcm : c ≠ m := fun h2 => hdiag m (h2 ▸ hc)
    rw [hab] at hcL
    rcases List.mem_append.mp hcL with hca | hcb
    · exfalso
      have hma : m ∉ a := by
        intro hma
        have := List.nodup_append.mp (hab ▸ hnd)
        exact this.2.2 hma (List.mem_cons_self m b)
      have h1 : L.indexOf c < a.length := by
        rw [hab]
        exact indexOf_append_lt hca
      have h2 : a.length ≤ L.indexOf m := by
        rw [hab]
        exact indexOf_append_ge hma
      omega
    · rcases List.mem_cons.mp hcb with h2 | h2
      · exact absurd h2 hcm
      · exact h2
  have hinv := accumulate_foldr hI hdiag L hsplit
  rw [hfold]
  intro i j
  constructor
  · exact hinv.1 i j
  · intro hrp
    apply accInv_complete hinv i ?_ j hrp
    intro c hc
    exact (hedge i c hc).2.1


/-! ## Nodes of the SCC output and pipeline inversions -/

theorem popUntil_subset (S : List α) (v : α) :
    (∀ x ∈ (popUntil S v).1, x ∈ S) ∧ (∀ x ∈ (popUntil S v).2, x ∈ S) := by
  induction S with
  | nil => exact ⟨fun x hx => hx, fun x hx => hx⟩
  | cons w rest ih =>
      unfold popUntil
      by_cases hw : w = v
      · rw [if_pos hw]
        exact ⟨fun x hx => by
            rcases List.mem_singleton.mp hx with rfl
            exact List.mem_cons_self x rest,
          fun x hx => List.mem_cons_of_mem _ hx⟩
      · rw [if_neg hw]
        constructor
        · intro x hx
          rcases List.mem_cons.mp hx with rfl | hx2
          · exact List.mem_cons_self x rest
          · exact List.mem_cons_of_mem _ (ih.1 x hx2)
        · intro x hx
          exact List.mem_cons_of_mem _ (ih.2 x hx)

/-! ## Tarjan correctness: partition, mutual reachability, emission order -/

/-- A node already carries a Tarjan index. -/
def Indexed (s : SccState α) (v : α) : Prop := (alookup s.idx v).isSome = true

/-- A node already sits in an emitted component. -/
def InComp (s : SccState α) (v : α) : Prop := ∃ c ∈ s.comps, v ∈ c

/-- Global state invariant of decompose_scc, preserved across every
strong_connect call. -/
structure SInv (g : List (α × List α)) (s : SccState α) : Prop where
  onS_eq : s.onS = s.S
  nodups : (s.comps.flatMap id ++ s.S).Nodup
  idx_iff : ∀ v, Indexed s v ↔ (v ∈ s.S ∨ InComp s v)
  dom : ∀ v, Indexed s v → v ∈ graphNodes g
  idx_lt : ∀ v, Indexed s v → idxN s v < s.i
  low_le : ∀ v ∈ s.S, lowN s v ≤ idxN s v
  stack_ord : List.Pairwise (fun a b => idxN s b < idxN s a ∧ Reaches g b a) s.S
  low_wit : ∀ w ∈ s.S, ∃ u ∈ s.S, idxN s u = lowN s w ∧ Reaches g w u
  comp_ne : ∀ c ∈ s.comps, c ≠ []
  comp_reach : ∀ c ∈ s.comps, ∀ a ∈ c, ∀ b ∈ c, Reaches g a b
  comp_closed : ∀ (p : Nat) (c : List α), s.comps[p]? = some c →
    ∀ x ∈ c, ∀ y, Edge g x y →
    ∃ (q : Nat) (c2 : List α), q ≤ p ∧ s.comps[q]? = some c2 ∧ y ∈ c2

/-- Every stack node outside the active call chain is finished: its
lowlink is strictly below its index. -/
def FinStack (s : SccState α) (act : List α) : Prop :=
  ∀ w ∈ s.S, w ∈ act ∨ lowN s w < idxN s w

/-- Every indexed node outside the active call chain had all of its
children examined: each child is indexed, and a child still on the
stack bounds the parent lowlink. -/
def FinEdges (g : List (α × List α)) (s : SccState α) (act : List α) : Prop :=
  ∀ x, Indexed s x → x ∉ act → ∀ y, Edge g x y →
    Indexed s y ∧ (y ∈ s.S → lowN s x ≤ idxN s y)

/-- When nothing is active, a finished stack must be empty: lowlink
witnesses would descend forever. -/
theorem stack_empty_of_finished {g : List (α × List α)} {s : SccState α}
    (hinv : SInv g s) (hfin : FinStack s ([] : List α)) : s.S = [] := by
  have main : ∀ k, ∀ w ∈ s.S, idxN s w ≤ k → False := by
    intro k
    induction k with
    | zero =>
        intro w hw h0
        rcases hfin w hw with ha | hlt
        · exact absurd ha (List.not_mem_nil w)
        · omega
    | succ k ih =>
        intro w hw hk
        rcases hfin w hw with ha | hlt
        · exact absurd ha (List.not_mem_nil w)
        · obtain ⟨u, hu, hui, _⟩ := hinv.low_wit w hw
          exact ih u hu (by omega)
  cases hS : s.S with
  | nil => rfl
  | cons w rest =>
      exact (main (idxN s w) w (hS ▸ List.mem_cons_self w rest)
        (Nat.le_refl _)).elim

/-- Every stack node reaches the node about to be pushed, descending
lowlink witnesses until an active ancestor is hit. -/
theorem stack_reaches {g : List (α × List α)} {s : SccState α}
    {act : List α} {v : α}
    (hinv : SInv g s) (hfin : FinStack s act)
    (hact : ∀ a ∈ act, Reaches g a v) :
    ∀ w ∈ s.S, Reaches g w v := by
  have main : ∀ k, ∀ w ∈ s.S, idxN s w ≤ k → Reaches g w v := by
    intro k
    induction k with
    | zero =>
        intro w hw h0
        rcases hfin w hw with ha | hlt
        · exact hact w ha
        · omega
    | succ k ih =>
        intro w hw hk
        rcases hfin w hw with ha | hlt
        · exact hact w ha
        · obtain ⟨u, hu, hui, hru⟩ := hinv.low_wit w hw
          exact hru.trans (ih u hu (by omega))
  exact fun w hw => main (idxN s w) w hw (Nat.le_refl _)

theorem popUntil_eq_of_not_mem {R : List α} (v : α) :
    ∀ AB : List α, v ∉ AB →
      popUntil (AB ++ v :: R) v = (AB ++ [v], R) := by
  intro AB
  induction AB with
  | nil =>
      intro _
      simp only [List.nil_append]
      unfold popUntil
      rw [if_pos rfl]
  | cons a t ih =>
      intro hv
      have hav : a ≠ v := fun hc => hv (hc ▸ List.mem_cons_self a t)
      have hvt : v ∉ t := fun hc => hv (List.mem_cons_of_mem a hc)
      show popUntil (a :: (t ++ v :: R)) v = _
      unfold popUntil
      rw [if_neg hav, ih hvt]
      rfl

theorem filter_not_mem_append {P R : List α} (h : (P ++ R).Nodup) :
    (P ++ R).filter (fun x => x ∉ P) = R := by
  have hd := (List.nodup_append.mp h).2.2
  rw [List.filter_append]
  have h1 : P.filter (fun x => x ∉ P) = [] := by
    rw [List.filter_eq_nil_iff]
    intro a ha
    simp [ha]
  have h2 : R.filter (fun x => x ∉ P) = R := by
    rw [List.filter_eq_self]
    intro a ha
    have : a ∉ P := fun hc => hd hc ha
    simp [this]
  rw [h1, h2]
  rfl

theorem isSome_dinsert_iff {m : List (α × β)} {a w : α} {b : β} :
    (alookup (dinsert m a b) w).isSome = true ↔
      w = a ∨ (alookup m w).isSome = true := by
  by_cases h : w = a
  · subst h
    rw [alookup_dinsert_self]
    simp
  · rw [alookup_dinsert_ne _ _ h]
    simp [h]

theorem nodup_append_cons {l1 l2 : List α} {v : α}
    (h : (l1 ++ l2).Nodup) (hv : v ∉ l1 ++ l2) : (l1 ++ v :: l2).Nodup := by
  obtain ⟨h1, h2, hd⟩ := List.nodup_append.mp h
  rw [List.nodup_append]
  refine ⟨h1, ?_, ?_⟩
  · exact List.nodup_cons.mpr
      ⟨fun hc => hv (List.mem_append.mpr (Or.inr hc)), h2⟩
  · intro a ha hmem
    rcases List.mem_cons.mp hmem with rfl | hmem2
    · exact hv (List.mem_append.mpr (Or.inl ha))
    · exact hd ha hmem2

/-- Frame facts of one child call, seen from the parent loop. -/
structure KFrame (s s2 : SccState α) (v : α) : Prop where
  idx_keep : ∀ w, Indexed s w → Indexed s2 w ∧ idxN s2 w = idxN s w
  low_v : lowN s2 v ≤ lowN s v
  low_keep : ∀ w, Indexed s w → w ≠ v → lowN s2 w = lowN s w
  stack_ext : ∃ NEW, s2.S = NEW ++ s.S ∧ ∀ w ∈ NEW, ¬ Indexed s w
  i_le : s.i ≤ s2.i
  comps_ext : ∃ MORE, s2.comps = s.comps ++ MORE

theorem KFrame.rfl (s : SccState α) (v : α) : KFrame s s v :=
  ⟨fun _ hw => ⟨hw, Eq.refl _⟩, Nat.le_refl _,
    fun _ _ _ => Eq.refl _,
    ⟨[], Eq.refl _, fun w hw => absurd hw (List.not_mem_nil w)⟩,
    Nat.le_refl _, ⟨[], (List.append_nil _).symm⟩⟩

theorem KFrame.comp {s s2 s3 : SccState α} {v : α}
    (h1 : KFrame s s2 v) (h2 : KFrame s2 s3 v) : KFrame s s3 v := by
  refine ⟨?_, ?_, ?_, ?_, Nat.le_trans h1.i_le h2.i_le, ?_⟩
  · intro w hw
    obtain ⟨hw2, he2⟩ := h1.idx_keep w hw
    obtain ⟨hw3, he3⟩ := h2.idx_keep w hw2
    exact ⟨hw3, he3.trans he2⟩
  · exact Nat.le_trans h2.low_v h1.low_v
  · intro w hw hne
    exact (h2.low_keep w (h1.idx_keep w hw).1 hne).trans (h1.low_keep w hw hne)
  · obtain ⟨N1, hN1, hf1⟩ := h1.stack_ext
    obtain ⟨N2, hN2, hf2⟩ := h2.stack_ext
    refine ⟨N2 ++ N1, by rw [hN2, hN1, List.append_assoc], ?_⟩
    intro w hw
    rcases List.mem_append.mp hw with hw2 | hw2
    · intro hc
      exact hf2 w hw2 (h1.idx_keep w hc).1
    · exact hf1 w hw2
  · obtain ⟨M1, hM1⟩ := h1.comps_ext
    obtain ⟨M2, hM2⟩ := h2.comps_ext
    exact ⟨M1 ++ M2, by rw [hM2, hM1, List.append_assoc]⟩

/-- Precondition of strong_connect: sound global state, finished
facts relative to the active chain, the chain reaches v, v fresh. -/
structure SCPre (g : List (α × List α)) (s : SccState α) (act : List α)
    (v : α) : Prop where
  inv : SInv g s
  fstk : FinStack s act
  fedg : FinEdges g s act
  act_S : ∀ a ∈ act, a ∈ s.S
  act_reach : ∀ a ∈ act, Reaches g a v
  v_new : ¬ Indexed s v
  v_dom : v ∈ graphNodes g

/-- Postcondition of strong_connect. -/
structure SCPost (g : List (α × List α)) (s : SccState α) (act : List α)
    (v : α) (s2 : SccState α) : Prop where
  inv : SInv g s2
  fstk : FinStack s2 act
  fedg : FinEdges g s2 act
  frame : ∀ w, Indexed s w →
    Indexed s2 w ∧ idxN s2 w = idxN s w ∧ lowN s2 w = lowN s w
  stack_ext : ∃ NEW, s2.S = NEW ++ s.S ∧
    ∀ w ∈ NEW, ¬ Indexed s w ∧ s.i ≤ idxN s2 w ∧ lowN s2 v ≤ lowN s2 w
  comps_ext : ∃ MORE, s2.comps = s.comps ++ MORE
  v_idx : Indexed s2 v
  v_val : idxN s2 v = s.i
  i_gt : s.i < s2.i
  v_stack_or_root : v ∈ s2.S ∨ lowN s2 v = idxN s2 v

/-- Invariant of the child loop of strong_connect at v, relative to
the state sE found at the entry of the call. -/
structure KMid (g : List (α × List α)) (sE : SccState α) (act : List α)
    (v : α) (s : SccState α) : Prop where
  inv : SInv g s
  fstk : FinStack s (v :: act)
  fedg : FinEdges g s (v :: act)
  act_S : ∀ a ∈ act, a ∈ s.S
  act_SE : ∀ a ∈ act, a ∈ sE.S
  act_reach : ∀ a ∈ act, Reaches g a v
  v_idx : Indexed s v
  v_val : idxN s v = sE.i
  i_gt : sE.i < s.i
  stack_split : ∃ AB, s.S = AB ++ v :: sE.S ∧
    ∀ w ∈ AB, ¬ Indexed sE w ∧ lowN s v ≤ lowN s w ∧ sE.i < idxN s w
  comps_ext : ∃ MORE, s.comps = sE.comps ++ MORE
  frame : ∀ w, Indexed sE w →
    Indexed s w ∧ idxN s w = idxN sE w ∧ lowN s w = lowN sE w
  vE : ¬ Indexed sE v


theorem KMid.v_on_stack {g : List (α × List α)} {sE : SccState α}
    {act : List α} {v : α} {s : SccState α}
    (h : KMid g sE act v s) : v ∈ s.S := by
  obtain ⟨AB, hAB, _⟩ := h.stack_split
  rw [hAB]
  exact List.mem_append.mpr (Or.inr (List.mem_cons_self _ _))

theorem KMid.v_low_le {g : List (α × List α)} {sE : SccState α}
    {act : List α} {v : α} {s : SccState α}
    (h : KMid g sE act v s) : lowN s v ≤ idxN s v :=
  h.inv.low_le v h.v_on_stack

/-- Entering strong_connect: indexing and pushing v restores the loop
invariant with an empty newly-pushed region. -/
theorem push_entry {g : List (α × List α)} {s : SccState α} {act : List α}
    {v : α} {s1 : SccState α}
    (hpre : SCPre g s act v)
    (h : s1 = { s with
                idx := dinsert s.idx v s.i,
                low := dinsert s.low v s.i,
                i := s.i + 1,
                S := v :: s.S,
                onS := v :: s.onS }) :
    KMid g s act v s1 := by
  have hS : s1.S = v :: s.S := by rw [h]
  have hcomps : s1.comps = s.comps := by rw [h]
  have honS : s1.onS = v :: s.onS := by rw [h]
  have hi : s1.i = s.i + 1 := by rw [h]
  have hIdx : ∀ w, Indexed s1 w ↔ (w = v ∨ Indexed s w) := by
    intro w
    rw [h]
    exact isSome_dinsert_iff
  have hidxv : idxN s1 v = s.i := by
    rw [h]
    unfold idxN
    rw [alookup_dinsert_self]
    rfl
  have hlowv : lowN s1 v = s.i := by
    rw [h]
    unfold lowN
    rw [alookup_dinsert_self]
    rfl
  have hidxw : ∀ w, w ≠ v → idxN s1 w = idxN s w := by
    intro w hw
    rw [h]
    unfold idxN
    rw [alookup_dinsert_ne _ _ hw]
  have hloww : ∀ w, w ≠ v → lowN s1 w = lowN s w := by
    intro w hw
    rw [h]
    unfold lowN
    rw [alookup_dinsert_ne _ _ hw]
  have hvS : v ∉ s.S := fun hc =>
    hpre.v_new ((hpre.inv.idx_iff v).mpr (Or.inl hc))
  have hvC : v ∉ s.comps.flatMap id := by
    intro hc
    obtain ⟨c, hcm, hvc⟩ := List.mem_flatMap.mp hc
    exact hpre.v_new ((hpre.inv.idx_iff v).mpr (Or.inr ⟨c, hcm, hvc⟩))
  have hInC : ∀ w, InComp s1 w ↔ InComp s w := by
    intro w
    unfold InComp
    rw [hcomps]
  have hSneq : ∀ w ∈ s.S, w ≠ v := fun w hw hc => hvS (hc ▸ hw)
  have hidxS : ∀ w ∈ s.S, Indexed s w := fun w hw =>
    (hpre.inv.idx_iff w).mpr (Or.inl hw)
  refine ⟨?_, ?_, ?_, ?_, hpre.act_S, hpre.act_reach, ?_, hidxv, ?_, ?_, ?_, ?_, hpre.v_new⟩
  · -- SInv
    refine ⟨?_, ?_, ?_, ?_, ?_, ?_, ?_, ?_, ?_, ?_, ?_⟩
    · rw [honS, hS, hpre.inv.onS_eq]
    · rw [hcomps, hS]
      refine nodup_append_cons hpre.inv.nodups ?_
      intro hc
      rcases List.mem_append.mp hc with hc2 | hc2
      · exact hvC hc2
      · exact hvS hc2
    · intro w
      rw [hIdx, hS, hInC, List.mem_cons]
      constructor
      · rintro (rfl | hw)
        · exact Or.inl (Or.inl rfl)
        · rcases (hpre.inv.idx_iff w).mp hw with h2 | h2
          · exact Or.inl (Or.inr h2)
          · exact Or.inr h2
      · rintro ((rfl | hw) | hw)
        · exact Or.inl rfl
        · exact Or.inr ((hpre.inv.idx_iff w).mpr (Or.inl hw))
        · exact Or.inr ((hpre.inv.idx_iff w).mpr (Or.inr hw))
    · intro w hw
      rcases (hIdx w).mp hw with rfl | hw2
      · exact hpre.v_dom
      · exact hpre.inv.dom w hw2
    · intro w hw
      rw [hi]
      rcases (hIdx w).mp hw with rfl | hw2
      · rw [hidxv]
        omega
      · have hne : w ≠ v := fun hc => hpre.v_new (hc ▸ hw2)
        rw [hidxw w hne]
        have := hpre.inv.idx_lt w hw2
        omega
    · intro w hw
      rw [hS] at hw
      rcases List.mem_cons.mp hw with rfl | hw2
      · rw [hidxv, hlowv]
      · have hne := hSneq w hw2
        rw [hidxw w hne, hloww w hne]
        exact hpre.inv.low_le w hw2
    · rw [hS]
      refine List.pairwise_cons.mpr ⟨?_, ?_⟩
      · intro b hb
        have hne := hSneq b hb
        constructor
        · rw [hidxw b hne, hidxv]
          exact hpre.inv.idx_lt b (hidxS b hb)
        · exact stack_reaches hpre.inv hpre.fstk hpre.act_reach b hb
      · refine List.Pairwise.imp_of_mem ?_ hpre.inv.stack_ord
        intro a b ha hb hab
        rw [hidxw a (hSneq a ha), hidxw b (hSneq b hb)]
        exact hab
    · intro w hw
      rw [hS] at hw
      rcases List.mem_cons.mp hw with rfl | hw2
      · refine ⟨w, by rw [hS]; exact List.mem_cons_self w s.S, ?_, Reaches.refl w⟩
        rw [hidxv, hlowv]
      · obtain ⟨u, hu, hue, hur⟩ := hpre.inv.low_wit w hw2
        refine ⟨u, by rw [hS]; exact List.mem_cons_of_mem v hu, ?_, hur⟩
        rw [hidxw u (hSneq u hu), hloww w (hSneq w hw2)]
        exact hue
    · rw [hcomps]
      exact hpre.inv.comp_ne
    · rw [hcomps]
      exact hpre.inv.comp_reach
    · rw [hcomps]
      exact hpre.inv.comp_closed
  · -- FinStack
    intro w hw
    rw [hS] at hw
    rcases List.mem_cons.mp hw with rfl | hw2
    · exact Or.inl (List.mem_cons_self w act)
    · rcases hpre.fstk w hw2 with ha | hlt
      · exact Or.inl (List.mem_cons_of_mem v ha)
      · have hne := hSneq w hw2
        rw [hidxw w hne, hloww w hne]
        exact Or.inr hlt
  · -- FinEdges
    intro x hx hxa y hy
    have hxv : x ≠ v := fun hc => hxa (hc ▸ List.mem_cons_self v act)
    have hxs : Indexed s x := by
      rcases (hIdx x).mp hx with rfl | h2
      · exact absurd rfl hxv
      · exact h2
    have hxa2 : x ∉ act := fun hc => hxa (List.mem_cons_of_mem v hc)
    obtain ⟨hy1, hy2⟩ := hpre.fedg x hxs hxa2 y hy
    refine ⟨(hIdx y).mpr (Or.inr hy1), ?_⟩
    intro hyS
    rw [hS] at hyS
    rcases List.mem_cons.mp hyS with rfl | hyS2
    · exact absurd hy1 hpre.v_new
    · rw [hloww x hxv, hidxw y (hSneq y hyS2)]
      exact hy2 hyS2
  · intro a ha
    rw [hS]
    exact List.mem_cons_of_mem v (hpre.act_S a ha)
  · exact (hIdx v).mpr (Or.inl rfl)
  · rw [hi]
    omega
  · refine ⟨[], by rw [hS]; rfl, ?_⟩
    intro w hw
    exact absurd hw (List.not_mem_nil w)
  · exact ⟨[], by rw [hcomps, List.append_nil]⟩
  · intro w hw
    have hne : w ≠ v := fun hc => hpre.v_new (hc ▸ hw)
    exact ⟨(hIdx w).mpr (Or.inr hw), hidxw w hne, hloww w hne⟩


theorem lowN_upd_self (s : SccState α) (v : α) (n : Nat) :
    lowN { s with low := dinsert s.low v n } v = n := by
  unfold lowN
  show (alookup (dinsert s.low v n) v).getD 0 = n
  rw [alookup_dinsert_self]
  rfl

theorem lowN_upd_ne (s : SccState α) {v x : α} (n : Nat) (h : x ≠ v) :
    lowN { s with low := dinsert s.low v n } x = lowN s x := by
  unfold lowN
  show (alookup (dinsert s.low v n) x).getD 0 = _
  rw [alookup_dinsert_ne _ _ h]

/-- Lowering the lowlink of a stack node to a witnessed stack index
preserves the global invariant. -/
theorem sinv_low_update {g : List (α × List α)} {s : SccState α} {v : α}
    {n : Nat} (hinv : SInv g s) (hv : v ∈ s.S) (hle : n ≤ lowN s v)
    (hwit : ∃ u ∈ s.S, idxN s u = n ∧ Reaches g v u) :
    SInv g { s with low := dinsert s.low v n } := by
  refine ⟨hinv.onS_eq, hinv.nodups, hinv.idx_iff, hinv.dom, hinv.idx_lt,
    ?_, hinv.stack_ord, ?_, hinv.comp_ne, hinv.comp_reach, hinv.comp_closed⟩
  · intro x hx
    by_cases hxv : x = v
    · subst hxv
      rw [lowN_upd_self]
      exact Nat.le_trans hle (hinv.low_le x hx)
    · rw [lowN_upd_ne s n hxv]
      exact hinv.low_le x hx
  · intro x hx
    by_cases hxv : x = v
    · subst hxv
      obtain ⟨u, hu, hue, hur⟩ := hwit
      refine ⟨u, hu, ?_, hur⟩
      rw [lowN_upd_self]
      exact hue
    · obtain ⟨u, hu, hue, hur⟩ := hinv.low_wit x hx
      refine ⟨u, hu, ?_, hur⟩
      rw [lowN_upd_ne s n hxv]
      exact hue

theorem KMid.v_not_in_AB {g : List (α × List α)} {sE : SccState α}
    {act : List α} {v : α} {s : SccState α}
    (hmid : KMid g sE act v s) {AB : List α}
    (hAB : s.S = AB ++ v :: sE.S) : v ∉ AB := by
  intro hc
  have hnd : s.S.Nodup := hmid.inv.nodups.of_append_right
  rw [hAB] at hnd
  exact (List.nodup_append.mp hnd).2.2 hc (List.mem_cons_self v sE.S)

/-- The already-indexed-and-on-stack branch of the child loop. -/
theorem kmid_elif {g : List (α × List α)} {sE : SccState α} {act : List α}
    {v w : α} {s : SccState α} {iw : Nat}
    (hmid : KMid g sE act v s)
    (hidx : alookup s.idx w = some iw)
    (hon : w ∈ s.onS)
    (hedge : Edge g v w) :
    KMid g sE act v { s with low := dinsert s.low v (min (lowN s v) iw) } ∧
    KFrame s { s with low := dinsert s.low v (min (lowN s v) iw) } v ∧
    (min (lowN s v) iw ≤ idxN s w) := by
  have hvS := hmid.v_on_stack
  have hwS : w ∈ s.S := hmid.inv.onS_eq ▸ hon
  have hiw : idxN s w = iw := by
    unfold idxN
    rw [hidx]
    rfl
  have hwit : ∃ u ∈ s.S, idxN s u = min (lowN s v) iw ∧ Reaches g v u := by
    rcases Nat.le_total (lowN s v) iw with h | h
    · obtain ⟨u, hu, hue, hur⟩ := hmid.inv.low_wit v hvS
      exact ⟨u, hu, by rw [Nat.min_eq_left h]; exact hue, hur⟩
    · exact ⟨w, hwS, by rw [Nat.min_eq_right h]; exact hiw,
        Reaches.single hedge⟩
  have hinv2 := sinv_low_update hmid.inv hvS (Nat.min_le_left _ _) hwit
  refine ⟨⟨hinv2, ?_, ?_, hmid.act_S, hmid.act_SE, hmid.act_reach, hmid.v_idx,
      ?_, hmid.i_gt, ?_, hmid.comps_ext, ?_, hmid.vE⟩, ?_, ?_⟩
  · intro x hx
    by_cases hxv : x = v
    · subst hxv
      exact Or.inl (List.mem_cons_self x act)
    · rcases hmid.fstk x hx with ha | hlt
      · exact Or.inl ha
      · rw [lowN_upd_ne s _ hxv]
        exact Or.inr hlt
  · intro x hx hxa y hy
    have hxv : x ≠ v := fun hc => hxa (hc ▸ List.mem_cons_self v act)
    obtain ⟨h1, h2⟩ := hmid.fedg x hx hxa y hy
    refine ⟨h1, ?_⟩
    intro hyS
    rw [lowN_upd_ne s _ hxv]
    exact h2 hyS
  · show idxN s v = sE.i
    exact hmid.v_val
  · obtain ⟨AB, hAB, hf⟩ := hmid.stack_split
    refine ⟨AB, hAB, ?_⟩
    intro x hx
    obtain ⟨h1, h2, h3⟩ := hf x hx
    have hxv : x ≠ v := fun hc => hmid.v_not_in_AB hAB (hc ▸ hx)
    refine ⟨h1, ?_, h3⟩
    rw [lowN_upd_self, lowN_upd_ne s _ hxv]
    exact Nat.le_trans (Nat.min_le_left _ _) h2
  · intro x hx
    obtain ⟨h1, h2, h3⟩ := hmid.frame x hx
    have hxv : x ≠ v := fun hc => hmid.vE (hc ▸ hx)
    exact ⟨h1, h2, by rw [lowN_upd_ne s _ hxv]; exact h3⟩
  · refine ⟨fun x hx => ⟨hx, rfl⟩, ?_, ?_, ?_, Nat.le_refl _, ?_⟩
    · rw [lowN_upd_self]
      exact Nat.min_le_left _ _
    · intro x _ hxv
      exact lowN_upd_ne s _ hxv
    · exact ⟨[], rfl, fun x hx => absurd hx (List.not_mem_nil x)⟩
    · exact ⟨[], (List.append_nil _).symm⟩
  · rw [hiw]
    exact Nat.min_le_right _ _

/-- Absorbing a finished recursive child call and the following
lowlink update into the child-loop invariant. -/
theorem kmid_after_child {g : List (α × List α)} {sE : SccState α}
    {act : List α} {v w : α} {s sW : SccState α}
    (hmid : KMid g sE act v s)
    (hedge : Edge g v w)
    (hpost : SCPost g s (v :: act) w sW) :
    KMid g sE act v
      { sW with low := dinsert sW.low v (min (lowN sW v) (lowN sW w)) } ∧
    KFrame s
      { sW with low := dinsert sW.low v (min (lowN sW v) (lowN sW w)) } v ∧
    Indexed sW w ∧
    (w ∈ sW.S → min (lowN sW v) (lowN sW w) ≤ idxN sW w) := by
  have hvS : v ∈ s.S := hmid.v_on_stack
  obtain ⟨NEW, hNEW, hNf⟩ := hpost.stack_ext
  have hvSW : v ∈ sW.S := by
    rw [hNEW]
    exact List.mem_append.mpr (Or.inr hvS)
  obtain ⟨hIv, hIxv, hLv⟩ := hpost.frame v hmid.v_idx
  have hlowv : lowN sW v ≤ sE.i := by
    rw [hLv, ← hmid.v_val]
    exact hmid.v_low_le
  have hwit : ∃ u ∈ sW.S, idxN sW u = min (lowN sW v) (lowN sW w) ∧
      Reaches g v u := by
    rcases Nat.le_total (lowN sW v) (lowN sW w) with h | h
    · obtain ⟨u, hu, hue, hur⟩ := hmid.inv.low_wit v hvS
      have huW : u ∈ sW.S := by
        rw [hNEW]
        exact List.mem_append.mpr (Or.inr hu)
      have huI : Indexed s u := (hmid.inv.idx_iff u).mpr (Or.inl hu)
      refine ⟨u, huW, ?_, hur⟩
      rw [Nat.min_eq_left h, (hpost.frame u huI).2.1, hue, hLv]
    · by_cases hwS : w ∈ sW.S
      · obtain ⟨u, hu, hue, hur⟩ := hpost.inv.low_wit w hwS
        refine ⟨u, hu, ?_, (Reaches.single hedge).trans hur⟩
        rw [Nat.min_eq_right h]
        exact hue
      · exfalso
        rcases hpost.v_stack_or_root with hws | hroot
        · exact hwS hws
        · rw [hroot, hpost.v_val] at h
          have := hmid.i_gt
          omega
  have hinv3 := sinv_low_update hpost.inv hvSW (Nat.min_le_left _ _) hwit
  obtain ⟨AB, hAB, hABf⟩ := hmid.stack_split
  have hvAB := hmid.v_not_in_AB hAB
  refine ⟨⟨hinv3, ?_, ?_, ?_, hmid.act_SE, hmid.act_reach, hIv, ?_, ?_, ?_, ?_, ?_,
      hmid.vE⟩, ?_, hpost.v_idx, ?_⟩
  · intro x hx
    by_cases hxv : x = v
    · subst hxv
      exact Or.inl (List.mem_cons_self x act)
    · rcases hpost.fstk x hx with ha | hlt
      · exact Or.inl ha
      · rw [lowN_upd_ne sW _ hxv]
        exact Or.inr hlt
  · intro x hx hxa y hy
    have hxv : x ≠ v := fun hc => hxa (hc ▸ List.mem_cons_self v act)
    obtain ⟨h1, h2⟩ := hpost.fedg x hx hxa y hy
    refine ⟨h1, ?_⟩
    intro hyS
    rw [lowN_upd_ne sW _ hxv]
    exact h2 hyS
  · intro a ha
    show a ∈ sW.S
    rw [hNEW]
    exact List.mem_append.mpr (Or.inr (hmid.act_S a ha))
  · show idxN sW v = sE.i
    rw [hIxv]
    exact hmid.v_val
  · show sE.i < sW.i
    exact Nat.lt_trans hmid.i_gt hpost.i_gt
  · refine ⟨NEW ++ AB, ?_, ?_⟩
    · show sW.S = (NEW ++ AB) ++ v :: sE.S
      rw [hNEW, hAB, List.append_assoc]
    · intro x hx
      have hxv : x ≠ v := by
        intro hc
        subst hc
        rcases List.mem_append.mp hx with h2 | h2
        · exact (hNf x h2).1 hmid.v_idx
        · exact hvAB h2
      rw [lowN_upd_self, lowN_upd_ne sW _ hxv]
      rcases List.mem_append.mp hx with h2 | h2
      · obtain ⟨hxn, hxi, hxl⟩ := hNf x h2
        refine ⟨fun hc => hxn (hmid.frame x hc).1, ?_, ?_⟩
        · exact Nat.le_trans (Nat.min_le_right _ _) hxl
        · show sE.i < idxN sW x
          have := hmid.i_gt
          omega
      · obtain ⟨hxn, hxl, hxi⟩ := hABf x h2
        have hxS : x ∈ s.S := by
          rw [hAB]
          exact List.mem_append.mpr (Or.inl h2)
        have hxI : Indexed s x := (hmid.inv.idx_iff x).mpr (Or.inl hxS)
        obtain ⟨_, hfx, hfl⟩ := hpost.frame x hxI
        refine ⟨hxn, ?_, ?_⟩
        · rw [hfl, hLv]
          exact Nat.le_trans (Nat.min_le_left _ _) hxl
        · show sE.i < idxN sW x
          rw [hfx]
          exact hxi
  · obtain ⟨M1, hM1⟩ := hmid.comps_ext
    obtain ⟨M2, hM2⟩ := hpost.comps_ext
    refine ⟨M1 ++ M2, ?_⟩
    show sW.comps = sE.comps ++ (M1 ++ M2)
    rw [hM2, hM1, List.append_assoc]
  · intro x hx
    have hxv : x ≠ v := fun hc => hmid.vE (hc ▸ hx)
    obtain ⟨h1, h2, h3⟩ := hmid.frame x hx
    obtain ⟨h4, h5, h6⟩ := hpost.frame x h1
    exact ⟨h4, h5.trans h2, by rw [lowN_upd_ne sW _ hxv]; exact h6.trans h3⟩
  · refine ⟨?_, ?_, ?_, ?_, Nat.le_of_lt hpost.i_gt, hpost.comps_ext⟩
    · intro x hx
      exact ⟨(hpost.frame x hx).1, (hpost.frame x hx).2.1⟩
    · rw [lowN_upd_self, hLv]
      exact Nat.min_le_left _ _
    · intro x hx hxv
      rw [lowN_upd_ne sW _ hxv]
      exact (hpost.frame x hx).2.2
    · exact ⟨NEW, hNEW, fun x hx => (hNf x hx).1⟩
  · intro hwS
    exact Nat.le_trans (Nat.min_le_right _ _) (hpost.inv.low_le w hwS)

/-- The child loop of strong_connect preserves the loop invariant and
records, for every processed child, that it is indexed and bounds the
lowlink of v if still stacked. -/
theorem sccKids_sound {g : List (α × List α)} {f : Nat}
    (IH : ∀ s v act s2, strongConnect g f s v = some s2 →
      SCPre g s act v → SCPost g s act v s2) :
    ∀ (ws : List α) (sE : SccState α) (act : List α) (v : α)
      (s s2 : SccState α),
      sccKids (strongConnect g f) v s ws = some s2 →
      KMid g sE act v s →
      (∀ w ∈ ws, Edge g v w) →
      KMid g sE act v s2 ∧ KFrame s s2 v ∧
        (∀ y ∈ ws, Indexed s2 y ∧ (y ∈ s2.S → lowN s2 v ≤ idxN s2 y)) := by
  intro ws
  induction ws with
  | nil =>
      intro sE act v s s2 hk hmid _
      simp only [sccKids] at hk
      cases hk
      exact ⟨hmid, KFrame.rfl s v, fun y hy => absurd hy (List.not_mem_nil y)⟩
  | cons w ws ih =>
      intro sE act v s s2 hk hmid hws
      have hedge : Edge g v w := hws w (List.mem_cons_self w ws)
      have hws2 : ∀ y ∈ ws, Edge g v y :=
        fun y hy => hws y (List.mem_cons_of_mem w hy)
      simp only [sccKids] at hk
      rcases halw : alookup s.idx w with _ | iw
      · simp only [halw] at hk
        rcases hsc : strongConnect g f s w with _ | sW
        · rw [hsc] at hk
          cases hk
        · rw [hsc] at hk
          have hwnew : ¬ Indexed s w := by
            unfold Indexed
            rw [halw]
            simp
          have hpre : SCPre g s (v :: act) w := by
            refine ⟨hmid.inv, hmid.fstk, hmid.fedg, ?_, ?_, hwnew,
              child_mem_graphNodes hedge⟩
            · intro a ha
              rcases List.mem_cons.mp ha with rfl | ha2
              · exact hmid.v_on_stack
              · exact hmid.act_S a ha2
            · intro a ha
              rcases List.mem_cons.mp ha with rfl | ha2
              · exact Reaches.single hedge
              · exact (hmid.act_reach a ha2).trans (Reaches.single hedge)
          have hpost := IH s w (v :: act) sW hsc hpre
          obtain ⟨hm3, hf3, hIw, hHd⟩ := kmid_after_child hmid hedge hpost
          obtain ⟨hm2, hf2, hrest⟩ := ih sE act v _ s2 hk hm3 hws2
          refine ⟨hm2, hf3.comp hf2, ?_⟩
          intro y hy
          rcases List.mem_cons.mp hy with rfl | hy2
          · refine ⟨(hf2.idx_keep y hIw).1, ?_⟩
            intro hyS2
            obtain ⟨N2, hN2, hNf2⟩ := hf2.stack_ext
            have hyS3 : y ∈ sW.S := by
              rw [hN2] at hyS2
              rcases List.mem_append.mp hyS2 with h2 | h2
              · exact absurd hIw (hNf2 y h2)
              · exact h2
            have hb := hHd hyS3
            have h1 := hf2.low_v
            rw [lowN_upd_self] at h1
            have h2 := (hf2.idx_keep y hIw).2
            have h3 : idxN ({ sW with
                low := dinsert sW.low v
                  (min (lowN sW v) (lowN sW y)) } : SccState α) y =
                idxN sW y := rfl
            rw [h2, h3]
            exact Nat.le_trans h1 hb
          · exact hrest y hy2
      · simp only [halw] at hk
        have hIy : Indexed s w := by
          unfold Indexed
          rw [halw]
          rfl
        by_cases hon : w ∈ s.onS
        · rw [if_pos hon] at hk
          obtain ⟨hm3, hf3, hHd⟩ := kmid_elif hmid halw hon hedge
          obtain ⟨hm2, hf2, hrest⟩ := ih sE act v _ s2 hk hm3 hws2
          refine ⟨hm2, hf3.comp hf2, ?_⟩
          intro y hy
          rcases List.mem_cons.mp hy with rfl | hy2
          · refine ⟨(hf2.idx_keep y hIy).1, ?_⟩
            intro _
            have h1 := hf2.low_v
            rw [lowN_upd_self] at h1
            have h2 := (hf2.idx_keep y hIy).2
            have h3 : idxN ({ s with
                low := dinsert s.low v (min (lowN s v) iw) } : SccState α) y =
                idxN s y := rfl
            rw [h2, h3]
            exact Nat.le_trans h1 hHd
          · exact hrest y hy2
        · rw [if_neg hon] at hk
          obtain ⟨hm2, hf2, hrest⟩ := ih sE act v s s2 hk hmid hws2
          refine ⟨hm2, hf2, ?_⟩
          intro y hy
          rcases List.mem_cons.mp hy with rfl | hy2
          · refine ⟨(hf2.idx_keep y hIy).1, ?_⟩
            intro hyS2
            exfalso
            obtain ⟨N2, hN2, hNf2⟩ := hf2.stack_ext
            have hyS : y ∈ s.S := by
              rw [hN2] at hyS2
              rcases List.mem_append.mp hyS2 with h2 | h2
              · exact absurd hIy (hNf2 y h2)
              · exact h2
            rw [← hmid.inv.onS_eq] at hyS
            exact hon hyS
          · exact hrest y hy2

/-- Finishing strong_connect when v is not a component root: the state
is returned unchanged, v stays on the stack finished. -/
theorem kmid_nonroot {g : List (α × List α)} {sE : SccState α}
    {act : List α} {v : α} {t : SccState α}
    (hmid : KMid g sE act v t)
    (hkids : ∀ y, Edge g v y → Indexed t y ∧ (y ∈ t.S → lowN t v ≤ idxN t y))
    (hne : lowN t v ≠ idxN t v) :
    SCPost g sE act v t := by
  have hlt : lowN t v < idxN t v :=
    Nat.lt_of_le_of_ne hmid.v_low_le hne
  obtain ⟨AB, hAB, hABf⟩ := hmid.stack_split
  refine ⟨hmid.inv, ?_, ?_, hmid.frame, ?_, hmid.comps_ext, hmid.v_idx,
    hmid.v_val, hmid.i_gt, Or.inl hmid.v_on_stack⟩
  · intro w hw
    by_cases hwv : w = v
    · subst hwv
      exact Or.inr hlt
    · rcases hmid.fstk w hw with hva | h2
      · rcases List.mem_cons.mp hva with rfl | ha
        · exact absurd rfl hwv
        · exact Or.inl ha
      · exact Or.inr h2
  · intro x hx hxa y hy
    by_cases hxv : x = v
    · subst hxv
      exact hkids y hy
    · exact hmid.fedg x hx (fun hc => (List.mem_cons.mp hc).elim hxv hxa) y hy
  · refine ⟨AB ++ [v], ?_, ?_⟩
    · rw [hAB, List.append_assoc]
      rfl
    · intro x hx
      rcases List.mem_append.mp hx with hA | hV
      · obtain ⟨h1, h2, h3⟩ := hABf x hA
        exact ⟨h1, Nat.le_of_lt h3, h2⟩
      · rcases List.mem_singleton.mp hV with rfl
        exact ⟨hmid.vE, Nat.le_of_eq hmid.v_val.symm, Nat.le_refl _⟩

/-- Finishing strong_connect when v is a component root: the stack is
popped down through v, and the popped prefix is emitted as a new
component that is mutually reachable and closed under edges up to
earlier components. -/
theorem kmid_root_pop {g : List (α × List α)} {sE : SccState α}
    {act : List α} {v : α} {t : SccState α}
    (hmid : KMid g sE act v t)
    (hkids : ∀ y, Edge g v y → Indexed t y ∧ (y ∈ t.S → lowN t v ≤ idxN t y))
    (hroot : lowN t v = idxN t v) :
    SCPost g sE act v (popComp t v) := by
  obtain ⟨AB, hAB, hABf⟩ := hmid.stack_split
  have hvAB := hmid.v_not_in_AB hAB
  have hndS : t.S.Nodup := hmid.inv.nodups.of_append_right
  have hndS2 : (AB ++ v :: sE.S).Nodup := hAB ▸ hndS
  have hvSE : v ∉ sE.S :=
    (List.nodup_cons.mp (List.Nodup.of_append_right hndS2)).1
  have hdisj : ∀ x ∈ AB, x ∉ v :: sE.S :=
    fun x hx => (List.nodup_append.mp hndS2).2.2 hx
  have hlowv : lowN t v = sE.i := by rw [hroot, hmid.v_val]
  have hactAB : ∀ a ∈ act, a ∉ AB := by
    intro a ha hc
    exact hdisj a hc (List.mem_cons_of_mem v (hmid.act_SE a ha))
  have hmemS : ∀ x, x ∈ t.S ↔ (x ∈ AB ∨ x = v ∨ x ∈ sE.S) := by
    intro x
    rw [hAB, List.mem_append, List.mem_cons]
  have hABS : ∀ x ∈ AB, x ∈ t.S := fun x hx => (hmemS x).mpr (Or.inl hx)
  have hSES : ∀ x ∈ sE.S, x ∈ t.S :=
    fun x hx => (hmemS x).mpr (Or.inr (Or.inr hx))
  have hpw := hmid.inv.stack_ord
  rw [hAB] at hpw
  obtain ⟨pwAB, pwCons, pwCross⟩ := List.pairwise_append.mp hpw
  obtain ⟨pwV, pwR⟩ := List.pairwise_cons.mp pwCons
  have hidxR : ∀ x ∈ sE.S, idxN t x < sE.i := by
    intro x hx
    have h2 := (pwV x hx).1
    rw [hmid.v_val] at h2
    exact h2
  have hidxAB : ∀ x ∈ AB, sE.i < idxN t x := fun x hx => (hABf x hx).2.2
  have hS2 : (popComp t v).S = sE.S := by
    unfold popComp
    rw [hAB, popUntil_eq_of_not_mem v AB hvAB]
  have hassoc : AB ++ v :: sE.S = (AB ++ [v]) ++ sE.S := by
    rw [List.append_assoc]
    rfl
  have honS2 : (popComp t v).onS = sE.S := by
    unfold popComp
    rw [hAB, popUntil_eq_of_not_mem v AB hvAB]
    show t.onS.filter (fun x => x ∉ AB ++ [v]) = sE.S
    rw [hmid.inv.onS_eq, hAB, hassoc]
    exact filter_not_mem_append (hassoc ▸ hndS2)
  have hcomps2 : (popComp t v).comps = t.comps ++ [AB ++ [v]] := by
    unfold popComp
    rw [hAB, popUntil_eq_of_not_mem v AB hvAB]
  have hdown : ∀ k x, x ∈ t.S → sE.i ≤ idxN t x → idxN t x ≤ k →
      Reaches g x v := by
    intro k
    induction k with
    | zero =>
        intro x hx hge hle
        by_cases hxv : x = v
        · subst hxv
          exact Reaches.refl x
        · exfalso
          rcases (hmemS x).mp hx with hA | h2 | hR
          · rcases hmid.fstk x hx with hva | hlt
            · rcases List.mem_cons.mp hva with rfl | ha
              · exact hxv rfl
              · exact hactAB x ha hA
            · have h1 : sE.i ≤ lowN t x := hlowv ▸ (hABf x hA).2.1
              omega
          · exact hxv h2
          · have := hidxR x hR
            omega
    | succ k ih =>
        intro x hx hge hle
        by_cases hxv : x = v
        · subst hxv
          exact Reaches.refl x
        · rcases (hmemS x).mp hx with hA | h2 | hR
          · rcases hmid.fstk x hx with hva | hlt
            · rcases List.mem_cons.mp hva with rfl | ha
              · exact absurd rfl hxv
              · exact absurd hA (hactAB x ha)
            · obtain ⟨u, hu, hue, hur⟩ := hmid.inv.low_wit x hx
              have h1 : sE.i ≤ lowN t x := hlowv ▸ (hABf x hA).2.1
              exact hur.trans (ih u hu (by omega) (by omega))
          · exact absurd h2 hxv
          · have := hidxR x hR
            omega
  have hPdown : ∀ x ∈ AB ++ [v], Reaches g x v := by
    intro x hx
    rcases List.mem_append.mp hx with hA | hV
    · exact hdown (idxN t x) x (hABS x hA)
        (Nat.le_of_lt (hidxAB x hA)) (Nat.le_refl _)
    · rcases List.mem_singleton.mp hV with rfl
      exact Reaches.refl x
  have hPup : ∀ x ∈ AB ++ [v], Reaches g v x := by
    intro x hx
    rcases List.mem_append.mp hx with hA | hV
    · exact (pwCross x hA v (List.mem_cons_self v sE.S)).2
    · rcases List.mem_singleton.mp hV with rfl
      exact Reaches.refl x
  have hFE : ∀ x ∈ AB ++ [v], ∀ y, Edge g x y →
      Indexed t y ∧ (y ∈ t.S → lowN t x ≤ idxN t y) := by
    intro x hx y hy
    rcases List.mem_append.mp hx with hA | hV
    · have hxI : Indexed t x := (hmid.inv.idx_iff x).mpr (Or.inl (hABS x hA))
      have hxn : x ∉ v :: act := by
        intro hc
        rcases List.mem_cons.mp hc with rfl | ha
        · exact hvAB hA
        · exact hactAB x ha hA
      exact hmid.fedg x hxI hxn y hy
    · rcases List.mem_singleton.mp hV with rfl
      exact hkids y hy
  have hlowP : ∀ x ∈ AB ++ [v], lowN t v ≤ lowN t x := by
    intro x hx
    rcases List.mem_append.mp hx with hA | hV
    · exact (hABf x hA).2.1
    · rcases List.mem_singleton.mp hV with rfl
      exact Nat.le_refl _
  have hInc : ∀ x, InComp (popComp t v) x ↔
      (InComp t x ∨ x ∈ AB ++ [v]) := by
    intro x
    unfold InComp
    rw [hcomps2]
    constructor
    · rintro ⟨c, hc, hxc⟩
      rcases List.mem_append.mp hc with h2 | h2
      · exact Or.inl ⟨c, h2, hxc⟩
      · rcases List.mem_singleton.mp h2 with rfl
        exact Or.inr hxc
    · rintro (⟨c, hc, hxc⟩ | hx)
      · exact ⟨c, List.mem_append.mpr (Or.inl hc), hxc⟩
      · exact ⟨AB ++ [v], List.mem_append.mpr
          (Or.inr (List.mem_singleton.mpr (Eq.refl _))), hx⟩
  have hPpos : (t.comps ++ [AB ++ [v]])[t.comps.length]? =
      some (AB ++ [v]) := by
    rw [List.getElem?_append_right (Nat.le_refl _)]
    simp
  refine ⟨⟨?_, ?_, ?_, ?_, ?_, ?_, ?_, ?_, ?_, ?_, ?_⟩, ?_, ?_,
    hmid.frame, ?_, ?_, hmid.v_idx, hmid.v_val, hmid.i_gt, Or.inr hroot⟩
  · rw [honS2, hS2]
  · show ((popComp t v).comps.flatMap id ++ (popComp t v).S).Nodup
    rw [hS2, hcomps2]
    have hfm : (t.comps ++ [AB ++ [v]]).flatMap id =
        t.comps.flatMap id ++ (AB ++ [v]) := by
      simp
    rw [hfm, List.append_assoc, ← hassoc, ← hAB]
    exact hmid.inv.nodups
  · intro x
    show Indexed t x ↔ x ∈ (popComp t v).S ∨ InComp (popComp t v) x
    rw [hS2, hInc]
    rw [hmid.inv.idx_iff x, hmemS x, List.mem_append, List.mem_singleton]
    tauto
  · exact hmid.inv.dom
  · exact hmid.inv.idx_lt
  · intro x hx
    rw [hS2] at hx
    exact hmid.inv.low_le x (hSES x hx)
  · show List.Pairwise _ (popComp t v).S
    rw [hS2]
    exact pwR
  · intro w hw
    rw [hS2] at hw
    obtain ⟨u, hu, hue, hur⟩ := hmid.inv.low_wit w (hSES w hw)
    have hiw : idxN t w < sE.i := hidxR w hw
    have hlw : lowN t w ≤ idxN t w := hmid.inv.low_le w (hSES w hw)
    have hu2 : u ∈ sE.S := by
      rcases (hmemS u).mp hu with hA | rfl | hR
      · exfalso
        have := hidxAB u hA
        omega
      · exfalso
        have := hmid.v_val
        omega
      · exact hR
    exact ⟨u, by rw [hS2]; exact hu2, hue, hur⟩
  · intro c hc
    rw [hcomps2] at hc
    rcases List.mem_append.mp hc with h2 | h2
    · exact hmid.inv.comp_ne c h2
    · rcases List.mem_singleton.mp h2 with rfl
      simp
  · intro c hc a ha b hb
    rw [hcomps2] at hc
    rcases List.mem_append.mp hc with h2 | h2
    · exact hmid.inv.comp_reach c h2 a ha b hb
    · rcases List.mem_singleton.mp h2 with rfl
      exact (hPdown a ha).trans (hPup b hb)
  · intro p c hpc x hxc y hy
    rw [hcomps2] at hpc
    show ∃ q c2, q ≤ p ∧ (popComp t v).comps[q]? = some c2 ∧ y ∈ c2
    rw [hcomps2]
    by_cases hp : p < t.comps.length
    · rw [List.getElem?_append_left hp] at hpc
      obtain ⟨q, c2, hq, hq2, hyc2⟩ := hmid.inv.comp_closed p c hpc x hxc y hy
      exact ⟨q, c2, hq,
        by rw [List.getElem?_append_left (Nat.lt_of_le_of_lt hq hp)]; exact hq2,
        hyc2⟩
    · have hplen : p < t.comps.length + 1 := by
        have h2 := (List.getElem?_eq_some.mp hpc).1
        simpa using h2
      have hpeq : p = t.comps.length := by omega
      subst hpeq
      have hceq : some c = some (AB ++ [v]) := by rw [← hpc, hPpos]
      injection hceq with hceq
      subst hceq
      obtain ⟨hyI, hyb⟩ := hFE x hxc y hy
      by_cases hyS : y ∈ t.S
      · have h1 := hyb hyS
        have h2 := hlowP x hxc
        have h3 : sE.i ≤ idxN t y := by omega
        rcases (hmemS y).mp hyS with hA | rfl | hR
        · exact ⟨t.comps.length, AB ++ [v], Nat.le_refl _, hPpos,
            List.mem_append.mpr (Or.inl hA)⟩
        · exact ⟨t.comps.length, AB ++ [y], Nat.le_refl _, hPpos,
            List.mem_append.mpr (Or.inr (List.mem_singleton.mpr rfl))⟩
        · exfalso
          have := hidxR y hR
          omega
      · have hyC : InComp t y := by
          rcases (hmid.inv.idx_iff y).mp hyI with hs | hc2
          · exact absurd hs hyS
          · exact hc2
        obtain ⟨c2, hc2m, hyc2⟩ := hyC
        obtain ⟨q, hqlt, hqe⟩ := List.getElem_of_mem hc2m
        exact ⟨q, c2, Nat.le_of_lt hqlt,
          by rw [List.getElem?_append_left hqlt,
            List.getElem?_eq_getElem hqlt, hqe],
          hyc2⟩
  · intro w hw
    rw [hS2] at hw
    have hwv : w ≠ v := fun hc => hvSE (hc ▸ hw)
    rcases hmid.fstk w (hSES w hw) with hva | hlt
    · rcases List.mem_cons.mp hva with rfl | ha
      · exact absurd rfl hwv
      · exact Or.inl ha
    · exact Or.inr hlt
  · intro x hx hxa y hy
    by_cases hxv : x = v
    · subst hxv
      obtain ⟨h1, h2⟩ := hkids y hy
      refine ⟨h1, ?_⟩
      intro hyS
      rw [hS2] at hyS
      exact h2 (hSES y hyS)
    · obtain ⟨h1, h2⟩ := hmid.fedg x hx
        (fun hc => (List.mem_cons.mp hc).elim hxv hxa) y hy
      refine ⟨h1, ?_⟩
      intro hyS
      rw [hS2] at hyS
      exact h2 (hSES y hyS)
  · refine ⟨[], ?_, ?_⟩
    · rw [hS2]
      rfl
    · intro w hw
      exact absurd hw (List.not_mem_nil w)
  · obtain ⟨MORE, hM⟩ := hmid.comps_ext
    refine ⟨MORE ++ [AB ++ [v]], ?_⟩
    rw [hcomps2, hM, List.append_assoc]

/-- Full soundness of strong_connect by induction on the depth
budget. -/
theorem strongConnect_sound {g : List (α × List α)} :
    ∀ (f : Nat) (s : SccState α) (v : α) (act : List α) (s2 : SccState α),
      strongConnect g f s v = some s2 → SCPre g s act v →
      SCPost g s act v s2 := by
  intro f
  induction f with
  | zero =>
      intro s v act s2 h _
      simp only [strongConnect] at h
      cases h
  | succ f ih =>
      intro s v act s2 h hpre
      simp only [strongConnect] at h
      have hmid1 : KMid g s act v
          ({ s with
             idx := dinsert s.idx v s.i
             low := dinsert s.low v s.i
             i := s.i + 1
             S := v :: s.S
             onS := v :: s.onS } : SccState α) :=
        push_entry hpre (Eq.refl _)
      rcases hk : sccKids (strongConnect g f) v
          ({ s with
             idx := dinsert s.idx v s.i
             low := dinsert s.low v s.i
             i := s.i + 1
             S := v :: s.S
             onS := v :: s.onS } : SccState α) (lookupD g v) with _ | t
      · rw [hk] at h
        cases h
      · simp only [hk] at h
        obtain ⟨hmidT, _, hkidsL⟩ :=
          sccKids_sound ih (lookupD g v) s act v _ t hk hmid1
            (fun w hw => hw)
        have hkids : ∀ y, Edge g v y →
            Indexed t y ∧ (y ∈ t.S → lowN t v ≤ idxN t y) :=
          fun y hy => hkidsL y hy
        by_cases hroot : lowN t v = idxN t v
        · rw [if_pos hroot] at h
          cases h
          exact kmid_root_pop hmidT hkids hroot
        · rw [if_neg hroot] at h
          cases h
          exact kmid_nonroot hmidT hkids hroot

/-- The top-level loop of decompose_scc: the stack returns to empty
after every call and every processed node ends up indexed. -/
theorem sccLoop_sound {g : List (α × List α)} {fuel : Nat}
    (hsc : ∀ s v act s2, strongConnect g fuel s v = some s2 →
      SCPre g s act v → SCPost g s act v s2) :
    ∀ (vs : List α) (s s2 : SccState α),
      sccLoop g fuel s vs = some s2 →
      (∀ x ∈ vs, x ∈ graphNodes g) →
      SInv g s → FinStack s [] → FinEdges g s [] → s.S = [] →
      SInv g s2 ∧ FinEdges g s2 [] ∧ s2.S = [] ∧
        (∀ w, Indexed s w → Indexed s2 w) ∧
        (∀ v ∈ vs, Indexed s2 v) := by
  intro vs
  induction vs with
  | nil =>
      intro s s2 h _ hinv hfs hfe hS
      simp only [sccLoop] at h
      cases h
      exact ⟨hinv, hfe, hS, fun w hw => hw,
        fun v hv => absurd hv (List.not_mem_nil v)⟩
  | cons v vs ih =>
      intro s s2 h hdom hinv hfs hfe hS
      simp only [sccLoop] at h
      rcases hiv : alookup s.idx v with _ | iv
      · simp only [hiv] at h
        rcases hsc1 : strongConnect g fuel s v with _ | sW
        · rw [hsc1] at h
          cases h
        · rw [hsc1] at h
          have hvnew : ¬ Indexed s v := by
            unfold Indexed
            rw [hiv]
            simp
          have hpre : SCPre g s [] v :=
            ⟨hinv, hfs, hfe, fun a ha => absurd ha (List.not_mem_nil a),
              fun a ha => absurd ha (List.not_mem_nil a), hvnew,
              hdom v (List.mem_cons_self v vs)⟩
          have hpost := hsc s v [] sW hsc1 hpre
          have hS2 : sW.S = [] := stack_empty_of_finished hpost.inv hpost.fstk
          obtain ⟨hi2, hf2, hs2, hm2, hc2⟩ := ih sW s2 h
            (fun x hx => hdom x (List.mem_cons_of_mem v hx))
            hpost.inv hpost.fstk hpost.fedg hS2
          refine ⟨hi2, hf2, hs2, ?_, ?_⟩
          · intro w hw
            exact hm2 w (hpost.frame w hw).1
          · intro x hx
            rcases List.mem_cons.mp hx with rfl | hx2
            · exact hm2 x hpost.v_idx
            · exact hc2 x hx2
      · simp only [hiv] at h
        obtain ⟨hi2, hf2, hs2, hm2, hc2⟩ := ih s s2 h
          (fun x hx => hdom x (List.mem_cons_of_mem v hx)) hinv hfs hfe hS
        refine ⟨hi2, hf2, hs2, hm2, ?_⟩
        intro x hx
        rcases List.mem_cons.mp hx with rfl | hx2
        · apply hm2
          unfold Indexed
          rw [hiv]
          rfl
        · exact hc2 x hx2

/-- Soundness of decompose_scc: the component list is a partition of
the node set into non-empty mutually reachable classes, emitted so
that every edge points into the same or an earlier component. -/
theorem decompose_scc_sound {g : List (α × List α)} {CL : List (List α)}
    (h : decompose_scc g = some CL) :
    (CL.flatMap id).Nodup ∧
    (∀ x, x ∈ CL.flatMap id ↔ x ∈ graphNodes g) ∧
    (∀ c ∈ CL, c ≠ []) ∧
    (∀ c ∈ CL, ∀ a ∈ c, ∀ b ∈ c, Reaches g a b) ∧
    (∀ (p : Nat) (c : List α), CL[p]? = some c → ∀ x ∈ c, ∀ y, Edge g x y →
      ∃ (q : Nat) (c2 : List α), q ≤ p ∧ CL[q]? = some c2 ∧ y ∈ c2) := by
  unfold decompose_scc decompose_scc_fuel at h
  rcases hv : sccLoop g (defaultFuel g) ⟨0, [], [], [], [], []⟩
      (graphNodes g) with _ | s
  · rw [hv] at h
    cases h
  · rw [hv] at h
    cases h
    have hinv0 : SInv g (⟨0, [], [], [], [], []⟩ : SccState α) := by
      refine ⟨rfl, ?_, ?_, ?_, ?_, ?_, ?_, ?_, ?_, ?_, ?_⟩
      · simp
      · intro v
        constructor
        · intro hc
          unfold Indexed alookup at hc
          cases hc
        · rintro (hc | ⟨c, hc, _⟩)
          · exact absurd hc (List.not_mem_nil v)
          · exact absurd hc (List.not_mem_nil c)
      · intro v hc
        unfold Indexed alookup at hc
        cases hc
      · intro v hc
        unfold Indexed alookup at hc
        cases hc
      · intro v hv2
        exact absurd hv2 (List.not_mem_nil v)
      · exact List.Pairwise.nil
      · intro w hw
        exact absurd hw (List.not_mem_nil w)
      · intro c hc
        exact absurd hc (List.not_mem_nil c)
      · intro c hc
        exact absurd hc (List.not_mem_nil c)
      · intro p c hc
        simp at hc
    have hfs0 : FinStack (⟨0, [], [], [], [], []⟩ : SccState α) [] :=
      fun w hw => absurd hw (List.not_mem_nil w)
    have hfe0 : FinEdges g (⟨0, [], [], [], [], []⟩ : SccState α) [] := by
      intro x hx
      unfold Indexed alookup at hx
      cases hx
    obtain ⟨hinv, hfe, hS, hmono, hcov⟩ :=
      sccLoop_sound (fun s v act s2 hh hp =>
          strongConnect_sound (defaultFuel g) s v act s2 hh hp)
        (graphNodes g) _ s hv (fun x hx => hx) hinv0 hfs0 hfe0 rfl
    have hmem : ∀ x, x ∈ s.comps.flatMap id ↔ x ∈ graphNodes g := by
      intro x
      constructor
      · intro hx
        obtain ⟨c, hc, hxc⟩ := List.mem_flatMap.mp hx
        exact hinv.dom x ((hinv.idx_iff x).mpr (Or.inr ⟨c, hc, hxc⟩))
      · intro hx
        rcases (hinv.idx_iff x).mp (hcov x hx) with hs2 | ⟨c, hc, hxc⟩
        · rw [hS] at hs2
          exact absurd hs2 (List.not_mem_nil x)
        · exact List.mem_flatMap.mpr ⟨c, hc, hxc⟩
    have hnd : (s.comps.flatMap id).Nodup := by
      have h2 := hinv.nodups
      rw [hS, List.append_nil] at h2
      exact h2
    exact ⟨hnd, hmem, hinv.comp_ne, hinv.comp_reach, hinv.comp_closed⟩

theorem buildC2I_inner_lookup (i : Nat) (x : α) :
    ∀ (comp : List α) (m : List (α × Nat)),
      alookup (comp.foldl (fun m c => dinsert m c i) m) x =
        if x ∈ comp then some i else alookup m x := by
  intro comp
  induction comp with
  | nil =>
      intro m
      simp
  | cons c rest ih =>
      intro m
      rw [List.foldl_cons, ih (dinsert m c i)]
      by_cases hxr : x ∈ rest
      · rw [if_pos hxr, if_pos (List.mem_cons_of_mem c hxr)]
      · rw [if_neg hxr]
        by_cases hxc : x = c
        · subst hxc
          rw [if_pos (List.mem_cons_self x rest), alookup_dinsert_self]
        · rw [alookup_dinsert_ne _ _ hxc]
          rw [if_neg (fun hc => ((List.mem_cons.mp hc).elim hxc hxr))]

theorem buildC2I_none_of_not_mem (x : α) :
    ∀ (l : List (List α)) (k : Nat) (m : List (α × Nat)),
      (∀ c ∈ l, x ∉ c) →
      alookup ((l.enumFrom k).foldl
        (fun m p => p.2.foldl (fun m c => dinsert m c p.1) m) m) x =
        alookup m x := by
  intro l
  induction l with
  | nil =>
      intro k m _
      rfl
  | cons c0 rest ih =>
      intro k m hnx
      show alookup ((rest.enumFrom (k + 1)).foldl _
        (c0.foldl (fun m c => dinsert m c k) m)) x = _
      rw [ih (k + 1) _ (fun c hc => hnx c (List.mem_cons_of_mem c0 hc)),
        buildC2I_inner_lookup,
        if_neg (hnx c0 (List.mem_cons_self c0 rest))]

theorem buildC2I_pos_fold (x : α) :
    ∀ (l : List (List α)) (p : Nat) (c : List α) (k : Nat)
      (m : List (α × Nat)),
      l[p]? = some c → x ∈ c →
      (∀ (q : Nat) (c2 : List α), l[q]? = some c2 → x ∈ c2 → q = p) →
      alookup ((l.enumFrom k).foldl
        (fun m p => p.2.foldl (fun m c => dinsert m c p.1) m) m) x =
        some (k + p) := by
  intro l
  induction l with
  | nil =>
      intro p c k m hp
      simp at hp
  | cons c0 rest ih =>
      intro p c k m hp hx huniq
      show alookup ((rest.enumFrom (k + 1)).foldl _
        (c0.foldl (fun m c => dinsert m c k) m)) x = some (k + p)
      match p, hp with
      | 0, hp =>
          have hc0 : c0 = c := by
            have h2 := hp
            rw [List.getElem?_cons_zero] at h2
            injection h2
          subst hc0
          have hrest : ∀ c2 ∈ rest, x ∉ c2 := by
            intro c2 hc2 hxc2
            obtain ⟨q, hqlt, hqe⟩ := List.getElem_of_mem hc2
            have hq : (c0 :: rest)[q + 1]? = some c2 := by
              rw [List.getElem?_cons_succ, List.getElem?_eq_getElem hqlt, hqe]
            exact Nat.succ_ne_zero q (huniq (q + 1) c2 hq hxc2)
          rw [buildC2I_none_of_not_mem x rest (k + 1) _ hrest,
            buildC2I_inner_lookup, if_pos hx]
          rfl
      | q + 1, hp =>
          have hxc0 : x ∉ c0 := by
            intro hxc0
            have h0 : (c0 :: rest)[0]? = some c0 := List.getElem?_cons_zero
            exact Nat.succ_ne_zero q ((huniq 0 c0 h0 hxc0).symm)
          have hq : rest[q]? = some c := by
            rw [← List.getElem?_cons_succ (a := c0)]
            exact hp
          have huniq2 : ∀ (q2 : Nat) (c2 : List α),
              rest[q2]? = some c2 → x ∈ c2 → q2 = q := by
            intro q2 c2 hq2 hxc2
            have : (c0 :: rest)[q2 + 1]? = some c2 := by
              rw [List.getElem?_cons_succ]
              exact hq2
            have := huniq (q2 + 1) c2 this hxc2
            omega
          rw [ih q c (k + 1) _ hq hx huniq2]
          congr 1
          omega

theorem flatMap_nodup_unique {x : α} :
    ∀ (l : List (List α)) (p q : Nat) (c c2 : List α),
      (l.flatMap id).Nodup →
      l[p]? = some c → l[q]? = some c2 → x ∈ c → x ∈ c2 → p = q := by
  intro l
  induction l with
  | nil =>
      intro p q c c2 _ hp
      simp at hp
  | cons c0 rest ih =>
      intro p q c c2 hnd hp hq hxc hxc2
      have hnd2 : (c0 ++ rest.flatMap id).Nodup := by
        simpa using hnd
      obtain ⟨_, hndr, hdisj⟩ := List.nodup_append.mp hnd2
      have hmemflat : ∀ (j : Nat) (d : List α), rest[j]? = some d →
          x ∈ d → x ∈ rest.flatMap id := by
        intro j d hj hxd
        exact List.mem_flatMap.mpr ⟨d, List.getElem?_mem hj, hxd⟩
      match p, q, hp, hq with
      | 0, 0, _, _ => rfl
      | 0, q + 1, hp, hq =>
          exfalso
          have hc0 : c0 = c := by
            have h2 := hp
            rw [List.getElem?_cons_zero] at h2
            injection h2
          have hq2 : rest[q]? = some c2 := by
            rw [← List.getElem?_cons_succ (a := c0)]
            exact hq
          exact hdisj (hc0 ▸ hxc) (hmemflat q c2 hq2 hxc2)
      | p + 1, 0, hp, hq =>
          exfalso
          have hc0 : c0 = c2 := by
            have h2 := hq
            rw [List.getElem?_cons_zero] at h2
            injection h2
          have hp2 : rest[p]? = some c := by
            rw [← List.getElem?_cons_succ (a := c0)]
            exact hp
          exact hdisj (hc0 ▸ hxc2) (hmemflat p c hp2 hxc)
      | p + 1, q + 1, hp, hq =>
          have hp2 : rest[p]? = some c := by
            rw [← List.getElem?_cons_succ (a := c0)]
            exact hp
          have hq2 : rest[q]? = some c2 := by
            rw [← List.getElem?_cons_succ (a := c0)]
            exact hq
          have := ih p q c c2 hndr hp2 hq2 hxc hxc2
          omega

/-- With pairwise disjoint components, category2indices maps each
member to the position of its component. -/
theorem buildC2I_pos {CL : List (List α)} {p : Nat} {c : List α} {x : α}
    (hnd : (CL.flatMap id).Nodup)
    (hp : CL[p]? = some c) (hx : x ∈ c) :
    alookup (buildC2I CL) x = some p := by
  unfold buildC2I
  show alookup ((CL.enumFrom 0).foldl _ []) x = some p
  rw [buildC2I_pos_fold x CL p c 0 [] hp hx
    (fun q c2 hq hxc2 => flatMap_nodup_unique CL q p c2 c hnd hq hp hxc2 hx)]
  congr 1
  omega


/-- Stack and emitted components only hold nodes of the graph. -/
def SccNodesOk (g : List (α × List α)) (s : SccState α) : Prop :=
  (∀ x ∈ s.S, x ∈ graphNodes g) ∧
  (∀ c ∈ s.comps, ∀ x ∈ c, x ∈ graphNodes g)

theorem sccKids_nodesOk {g : List (α × List α)}
    {sc1 : SccState α → α → Option (SccState α)}
    (H : ∀ s w s', w ∈ graphNodes g → sc1 s w = some s' →
      SccNodesOk g s → SccNodesOk g s') :
    ∀ (l : List α) (v : α) (s s' : SccState α),
      (∀ x ∈ l, x ∈ graphNodes g) → sccKids sc1 v s l = some s' →
      SccNodesOk g s → SccNodesOk g s' := by
  intro l
  induction l with
  | nil =>
      intro v s s' _ h hok
      simp only [sccKids] at h
      cases h
      exact hok
  | cons w ws ih =>
      intro v s s' hl h hok
      simp only [sccKids] at h
      rcases hidx : alookup s.idx w with _ | iw
      · simp only [hidx] at h
        rcases h1 : sc1 s w with _ | s2
        · rw [h1] at h
          cases h
        · rw [h1] at h
          have hok2 := H s w s2 (hl w (List.mem_cons_self w ws)) h1 hok
          exact ih v _ s' (fun x hx => hl x (List.mem_cons_of_mem _ hx))
            h hok2
      · simp only [hidx] at h
        by_cases hon : w ∈ s.onS
        · rw [if_pos hon] at h
          exact ih v _ s' (fun x hx => hl x (List.mem_cons_of_mem _ hx))
            h hok
        · rw [if_neg hon] at h
          exact ih v s s' (fun x hx => hl x (List.mem_cons_of_mem _ hx))
            h hok

theorem strongConnect_nodesOk {g : List (α × List α)} :
    ∀ (f : Nat) (s : SccState α) (v : α) (s' : SccState α),
      v ∈ graphNodes g → strongConnect g f s v = some s' →
      SccNodesOk g s → SccNodesOk g s' := by
  intro f
  induction f with
  | zero => intro s v s' _ h; cases h
  | succ f ih =>
      intro s v s' hvg h hok
      simp only [strongConnect] at h
      rcases hok1 : sccKids (strongConnect g f) v
          { s with
            idx := dinsert s.idx v s.i
            low := dinsert s.low v s.i
            i := s.i + 1
            S := v :: s.S
            onS := v :: s.onS } (lookupD g v) with _ | s2
      · rw [hok1] at h
        cases h
      · simp only [hok1] at h
        have hokS1 : SccNodesOk g
            ({ s with
               idx := dinsert s.idx v s.i
               low := dinsert s.low v s.i
               i := s.i + 1
               S := v :: s.S
               onS := v :: s.onS } : SccState α) := by
          constructor
          · intro x hx
            rcases List.mem_cons.mp hx with rfl | hx2
            · exact hvg
            · exact hok.1 x hx2
          · exact hok.2
        have hok2 := sccKids_nodesOk
          (fun s w s' hwg hs hsk => ih s w s' hwg hs hsk)
          (lookupD g v) v _ s2 (fun x hx => child_mem_graphNodes hx)
          hok1 hokS1
        by_cases hcnd : lowN s2 v = idxN s2 v
        · rw [if_pos hcnd] at h
          injection h with h2
          subst h2
          unfold popComp
          constructor
          · intro x hx
            exact hok2.1 x ((popUntil_subset s2.S v).2 x hx)
          · intro c hc x hx
            rcases List.mem_append.mp hc with hc2 | hc2
            · exact hok2.2 c hc2 x hx
            · rcases List.mem_singleton.mp hc2 with rfl
              exact hok2.1 x ((popUntil_subset s2.S v).1 x hx)
        · rw [if_neg hcnd] at h
          injection h with h2
          subst h2
          exact hok2

theorem sccLoop_nodesOk {g : List (α × List α)} {fuel : Nat} :
    ∀ (l : List α) (s s' : SccState α),
      (∀ x ∈ l, x ∈ graphNodes g) → sccLoop g fuel s l = some s' →
      SccNodesOk g s → SccNodesOk g s' := by
  intro l
  induction l with
  | nil =>
      intro s s' _ h hok
      simp only [sccLoop] at h
      cases h
      exact hok
  | cons v vs ih =>
      intro s s' hl h hok
      simp only [sccLoop] at h
      rcases hidx : alookup s.idx v with _ | iv
      · simp only [hidx] at h
        rcases hsc : strongConnect g fuel s v with _ | s2
        · rw [hsc] at h
          cases h
        · rw [hsc] at h
          exact ih s2 s' (fun x hx => hl x (List.mem_cons_of_mem _ hx)) h
            (strongConnect_nodesOk fuel s v s2
              (hl v (List.mem_cons_self v vs)) hsc hok)
      · simp only [hidx] at h
        exact ih s s' (fun x hx => hl x (List.mem_cons_of_mem _ hx)) h hok

/-- Every member of every emitted component is a node of the graph. -/
theorem decompose_scc_nodes {g : List (α × List α)} {C : List (List α)}
    (h : decompose_scc g = some C) :
    ∀ comp ∈ C, ∀ x ∈ comp, x ∈ graphNodes g := by
  unfold decompose_scc decompose_scc_fuel at h
  rcases hv : sccLoop g (defaultFuel g) ⟨0, [], [], [], [], []⟩
      (graphNodes g) with _ | s
  · rw [hv] at h
    cases h
  · rw [hv] at h
    injection h with h2
    subst h2
    have hok := sccLoop_nodesOk (graphNodes g) _ s (fun x hx => hx) hv
      ⟨fun x hx => absurd hx (List.not_mem_nil x),
       fun c hc => absurd hc (List.not_mem_nil c)⟩
    exact hok.2

theorem mem_dinsert_fst {m : List (α × β)} {a x : α} {b y : β}
    (h : (x, y) ∈ dinsert m a b) : (x, y) ∈ m ∨ x = a := by
  induction m with
  | nil =>
      simp only [dinsert, List.mem_singleton] at h
      exact Or.inr (congrArg Prod.fst h)
  | cons p rest ih =>
      obtain ⟨k, v⟩ := p
      unfold dinsert at h
      by_cases hk : k = a
      · rw [if_pos hk] at h
        rcases List.mem_cons.mp h with heq | hm
        · subst hk
          exact Or.inr (congrArg Prod.fst heq)
        · exact Or.inl (List.mem_cons_of_mem _ hm)
      · rw [if_neg hk] at h
        rcases List.mem_cons.mp h with heq | hm
        · exact Or.inl (heq ▸ List.mem_cons_self _ _)
        · rcases ih hm with hm2 | hm2
          · exact Or.inl (List.mem_cons_of_mem _ hm2)
          · exact Or.inr hm2

theorem buildC2I_entry {C : List (List α)} {c : α} {j : Nat}
    (h : (c, j) ∈ buildC2I C) : ∃ comp ∈ C, c ∈ comp := by
  have inner : ∀ (comp : List α) (i : Nat) (m : List (α × Nat)),
      (c, j) ∈ comp.foldl (fun m c2 => dinsert m c2 i) m →
      c ∈ comp ∨ (c, j) ∈ m := by
    intro comp i
    induction comp with
    | nil => exact fun m h => Or.inr h
    | cons c2 rest ih =>
        intro m h
        simp only [List.foldl_cons] at h
        rcases ih (dinsert m c2 i) h with hm | hm
        · exact Or.inl (List.mem_cons_of_mem _ hm)
        · rcases mem_dinsert_fst hm with hm2 | hm2
          · exact Or.inr hm2
          · exact Or.inl (hm2 ▸ List.mem_cons_self _ _)
  have outer : ∀ (ps : List (Nat × List α)) (m : List (α × Nat)),
      (c, j) ∈ ps.foldl
        (fun m p => p.2.foldl (fun m c2 => dinsert m c2 p.1) m) m →
      (∃ p ∈ ps, c ∈ p.2) ∨ (c, j) ∈ m := by
    intro ps
    induction ps with
    | nil => exact fun m h => Or.inr h
    | cons p rest ih =>
        intro m h
        simp only [List.foldl_cons] at h
        rcases ih _ h with hm | hm
        · obtain ⟨q, hq, hcq⟩ := hm
          exact Or.inl ⟨q, List.mem_cons_of_mem _ hq, hcq⟩
        · rcases inner p.2 p.1 m hm with hm2 | hm2
          · exact Or.inl ⟨p, List.mem_cons_self _ _, hm2⟩
          · exact Or.inr hm2
  unfold buildC2I at h
  rcases outer C.enum [] h with ⟨p, hp, hcp⟩ | hm
  · refine ⟨p.2, ?_, hcp⟩
    have : ∀ (l : List (List α)) (n : Nat) (q : Nat × List α),
        q ∈ l.enumFrom n → q.2 ∈ l := by
      intro l
      induction l with
      | nil => intro n q hq; cases hq
      | cons a rest ih =>
          intro n q hq
          rcases List.mem_cons.mp hq with rfl | hq2
          · exact List.mem_cons_self a rest
          · exact List.mem_cons_of_mem _ (ih (n + 1) q hq2)
    exact this C 0 p hp
  · cases hm

theorem buildC2I_alookup_none {C : List (List α)} {c : α}
    (h : ∀ comp ∈ C, c ∉ comp) : alookup (buildC2I C) c = none := by
  rw [alookup_eq_none]
  intro b hb
  obtain ⟨comp, hcomp, hc⟩ := buildC2I_entry hb
  exact h comp hcomp hc

/-- Conversely, an index in category2indices names the component of
its key. -/
theorem buildC2I_pos_inv {CL : List (List α)} {p : Nat} {x : α}
    (hnd : (CL.flatMap id).Nodup)
    (h : alookup (buildC2I CL) x = some p) :
    ∃ c, CL[p]? = some c ∧ x ∈ c := by
  obtain ⟨comp, hcm, hxc⟩ := buildC2I_entry (alookup_mem h)
  obtain ⟨q, hqlt, hqe⟩ := List.getElem_of_mem hcm
  have hq : CL[q]? = some comp := by
    rw [List.getElem?_eq_getElem hqlt, hqe]
  have := buildC2I_pos hnd hq hxc
  rw [h] at this
  injection this with h2
  exact ⟨comp, h2 ▸ hq, hxc⟩

theorem buildC2I_nodupKeys (CL : List (List α)) :
    NodupKeys (buildC2I CL) := by
  unfold buildC2I
  have inner : ∀ (comp : List α) (i : Nat) (m : List (α × Nat)),
      NodupKeys m →
      NodupKeys (comp.foldl (fun m c => dinsert m c i) m) := by
    intro comp i
    induction comp with
    | nil => exact fun m hm => hm
    | cons c rest ih =>
        intro m hm
        exact ih (dinsert m c i) (dinsert_nodupKeys c i hm)
  have outer : ∀ (l : List (Nat × List α)) (m : List (α × Nat)),
      NodupKeys m →
      NodupKeys (l.foldl
        (fun m p => p.2.foldl (fun m c => dinsert m c p.1) m) m) := by
    intro l
    induction l with
    | nil => exact fun m hm => hm
    | cons p rest ih =>
        intro m hm
        exact ih _ (inner p.2 p.1 m hm)
  exact outer CL.enum [] (by exact List.Pairwise.nil)

/-- An edge maps to a same-or-earlier component index. -/
theorem scc_edge_le {g : List (α × List α)} {CL : List (List α)}
    (hd : decompose_scc g = some CL) {x y : α} (hxy : Edge g x y) :
    ∃ (p q : Nat), alookup (buildC2I CL) x = some p ∧
      alookup (buildC2I CL) y = some q ∧ q ≤ p := by
  obtain ⟨hnd, hmem, _, _, hclosed⟩ := decompose_scc_sound hd
  have hxn : x ∈ graphNodes g := by
    apply key_mem_graphNodes
    intro hc
    unfold Edge lookupD at hxy
    rw [hc] at hxy
    exact absurd hxy (List.not_mem_nil y)
  obtain ⟨c, hc, hxc⟩ := List.mem_flatMap.mp ((hmem x).mpr hxn)
  obtain ⟨p, hplt, hpe⟩ := List.getElem_of_mem hc
  have hp : CL[p]? = some c := by
    rw [List.getElem?_eq_getElem hplt, hpe]
  obtain ⟨q, c2, hqp, hq, hyc2⟩ := hclosed p c hp x hxc y hxy
  exact ⟨p, q, buildC2I_pos hnd hp hxc, buildC2I_pos hnd hq hyc2, hqp⟩

/-- Reachability maps to a same-or-earlier component index. -/
theorem scc_reaches_le {g : List (α × List α)} {CL : List (List α)}
    (hd : decompose_scc g = some CL) {x y : α} (hr : Reaches g x y) :
    ∀ p, alookup (buildC2I CL) x = some p →
      ∃ q, alookup (buildC2I CL) y = some q ∧ q ≤ p := by
  induction hr with
  | refl v =>
      exact fun p hp => ⟨p, hp, Nat.le_refl p⟩
  | head he hr2 ih =>
      intro p hp
      obtain ⟨p2, q2, hp2, hq2, hle⟩ := scc_edge_le hd he
      rw [hp] at hp2
      injection hp2 with hp2
      obtain ⟨q, hq, hle2⟩ := ih q2 hq2
      exact ⟨q, hq, by omega⟩

/-- Two categories of one component reach each other. -/
theorem scc_same_mutual {g : List (α × List α)} {CL : List (List α)}
    (hd : decompose_scc g = some CL) {x y : α} {p : Nat}
    (hx : alookup (buildC2I CL) x = some p)
    (hy : alookup (buildC2I CL) y = some p) :
    Reaches g x y ∧ Reaches g y x := by
  obtain ⟨hnd, _, _, hreach, _⟩ := decompose_scc_sound hd
  obtain ⟨c, hc, hxc⟩ := buildC2I_pos_inv hnd hx
  obtain ⟨c2, hc2, hyc⟩ := buildC2I_pos_inv hnd hy
  rw [hc] at hc2
  injection hc2 with hc2
  subst hc2
  have hcm : c ∈ CL := List.getElem?_mem hc
  exact ⟨hreach c hcm x hxc y hyc, hreach c hcm y hyc x hxc⟩

/-- Mutually reachable categories share one component index. -/
theorem scc_mutual_eq {g : List (α × List α)} {CL : List (List α)}
    (hd : decompose_scc g = some CL) {x y : α} {p q : Nat}
    (hr1 : Reaches g x y) (hr2 : Reaches g y x)
    (hx : alookup (buildC2I CL) x = some p)
    (hy : alookup (buildC2I CL) y = some q) : p = q := by
  obtain ⟨q2, hq2, h1⟩ := scc_reaches_le hd hr1 p hx
  rw [hy] at hq2
  injection hq2 with hq2
  obtain ⟨p2, hp2, h2⟩ := scc_reaches_le hd hr2 q hy
  rw [hx] at hp2
  injection hp2 with hp2
  omega

/-- Every node of the graph carries a component index. -/
theorem scc_node_idx {g : List (α × List α)} {CL : List (List α)}
    (hd : decompose_scc g = some CL) {x : α} (hx : x ∈ graphNodes g) :
    ∃ p, alookup (buildC2I CL) x = some p := by
  obtain ⟨hnd, hmem, _, _, _⟩ := decompose_scc_sound hd
  obtain ⟨c, hc, hxc⟩ := List.mem_flatMap.mp ((hmem x).mpr hx)
  have hxc2 : x ∈ c := hxc
  obtain ⟨p, hplt, hpe⟩ := List.getElem_of_mem hc
  exact ⟨p, buildC2I_pos hnd
    (by rw [List.getElem?_eq_getElem hplt, hpe]) hxc2⟩

/-- A category with a component index is a node. -/
theorem scc_idx_node {g : List (α × List α)} {CL : List (List α)}
    (hd : decompose_scc g = some CL) {x : α} {p : Nat}
    (hx : alookup (buildC2I CL) x = some p) : x ∈ graphNodes g := by
  obtain ⟨hnd, hmem, _, _, _⟩ := decompose_scc_sound hd
  obtain ⟨c, hc, hxc⟩ := buildC2I_pos_inv hnd hx
  have hxc2 : x ∈ id c := hxc
  exact (hmem x).mp (List.mem_flatMap.mpr ⟨c, List.getElem?_mem hc, hxc2⟩)

/-- The condensed graph built over component indices only has edges
from later components to strictly earlier ones. -/
theorem condensed_edgeDecr {cg : List (α × List α)} {CL : List (List α)}
    (hd : decompose_scc cg = some CL) (hk : NodupKeys cg) :
    EdgeDecr
      (buildCondensed cg (fun c => (alookup (buildC2I CL) c).getD 0)).1
      (fun n => n) := by
  intro i j hedge
  unfold Edge at hedge
  rw [buildCondensed_U_mem] at hedge
  obtain ⟨⟨a, vs, b, hk2, hb, hia, hjb⟩, hne⟩ := hedge
  have hab : Edge cg a b := by
    unfold Edge lookupD
    rw [mem_alookup_of_nodup hk hk2]
    exact hb
  obtain ⟨p, q, hp, hq, hle⟩ := scc_edge_le hd hab
  have hia2 : (alookup (buildC2I CL) a).getD 0 = i := hia
  have hjb2 : (alookup (buildC2I CL) b).getD 0 = j := hjb
  rw [hp] at hia2
  rw [hq] at hjb2
  simp only [Option.getD_some] at hia2 hjb2
  subst hia2
  subst hjb2
  show q < p
  omega

/-- Raw reachability between categories descends to the condensed
index graph. -/
theorem reaches_raw_to_cond {cg : List (α × List α)} (κ : α → Nat)
    {x y : α} (hr : Reaches cg x y) :
    Reaches (buildCondensed cg κ).1 (κ x) (κ y) := by
  induction hr with
  | refl v => exact Reaches.refl (κ v)
  | @head u w v he hr2 ih =>
      by_cases hew : κ u = κ w
      · rw [hew]
        exact ih
      · refine Reaches.head ?_ ih
        unfold Edge
        rw [buildCondensed_U_mem]
        unfold Edge lookupD at he
        rcases ha : alookup cg u with _ | vs
        · rw [ha] at he
          exact absurd he (List.not_mem_nil w)
        · rw [ha] at he
          exact ⟨⟨u, vs, w, alookup_mem ha, he, rfl, rfl⟩, hew⟩

/-- Condensed reachability lifts back to raw reachability, using that
components are mutually reachable. -/
theorem reaches_cond_to_raw {cg : List (α × List α)} {CL : List (List α)}
    (hd : decompose_scc cg = some CL) (hk : NodupKeys cg) {i j : Nat}
    (hr : Reaches
      (buildCondensed cg (fun c => (alookup (buildC2I CL) c).getD 0)).1 i j) :
    ∀ x, x ∈ graphNodes cg →
      alookup (buildC2I CL) x = some i →
      ∃ y, y ∈ graphNodes cg ∧ alookup (buildC2I CL) y = some j ∧
        Reaches cg x y := by
  induction hr with
  | refl v =>
      intro x hx hxi
      exact ⟨x, hx, hxi, Reaches.refl x⟩
  | @head u w v he hr2 ih =>
      intro x hx hxi
      unfold Edge at he
      rw [buildCondensed_U_mem] at he
      obtain ⟨⟨a, vs, b, hk2, hb, hia, hjb⟩, hne⟩ := he
      have hab : Edge cg a b := by
        unfold Edge lookupD
        rw [mem_alookup_of_nodup hk hk2]
        exact hb
      have han : a ∈ graphNodes cg :=
        key_mem_graphNodes (by rw [mem_alookup_of_nodup hk hk2]; intro hc; cases hc)
      have hbn : b ∈ graphNodes cg := child_mem_graphNodes hab
      obtain ⟨pa, hpa⟩ := scc_node_idx hd han
      obtain ⟨pb, hpb⟩ := scc_node_idx hd hbn
      have hia2 : (alookup (buildC2I CL) a).getD 0 = u := hia
      have hjb2 : (alookup (buildC2I CL) b).getD 0 = w := hjb
      rw [hpa] at hia2
      rw [hpb] at hjb2
      simp only [Option.getD_some] at hia2 hjb2
      subst hia2
      subst hjb2
      have hxa : Reaches cg x a := (scc_same_mutual hd hxi hpa).1
      obtain ⟨y, hy1, hy2, hy3⟩ := ih b hbn hpb
      exact ⟨y, hy1, hy2, (hxa.trans (Reaches.single hab)).trans hy3⟩

/-- Successful run of _update_categorygraph: the extracted pieces. -/
theorem _update_ok_inv {cp : List (α × List String)}
    {cg : List (α × List α)} {c2i : List (α × Nat)}
    {U : List (Nat × List Nat)} {P : List (Nat × List String)}
    (h : _update_categorygraph cp cg c2i = .ok (U, P)) :
    ∃ L, topological_sort_dfs
        (buildCondensed cg (fun c => (alookup c2i c).getD 0)).1 = .ok L ∧
      U = accumulate (buildCondensed cg (fun c => (alookup c2i c).getD 0)).2
            L.reverse
            (buildCondensed cg (fun c => (alookup c2i c).getD 0)).1 ∧
      P = buildPages cp c2i := by
  unfold _update_categorygraph at h
  rcases ht : topological_sort_dfs
      (buildCondensed cg (fun c => (alookup c2i c).getD 0)).1 with e | L
  · rw [ht] at h
    cases h
  · rw [ht] at h
    injection h with h2
    exact ⟨L, rfl, (congrArg Prod.fst h2).symm, (congrArg Prod.snd h2).symm⟩

/-- The SCC pipeline always succeeds: the condensed graph is acyclic
by construction, so the topological sort cannot raise. -/
theorem update_categorygraph_ok (cp : List (α × List String))
    (cg : List (α × List α)) (hk : NodupKeys cg) :
    ∃ U P c2i, update_categorygraph cp cg = .ok (U, P, c2i) := by
  obtain ⟨CL, hd⟩ := decompose_scc_isSome cg
  have hdec := condensed_edgeDecr hd hk
  obtain ⟨L, hL⟩ := topo_ok_of_edgeDecr hdec
  unfold update_categorygraph
  simp only [hd]
  unfold _update_categorygraph
  simp only [hL]
  exact ⟨_, _, _, rfl⟩

/-- The accumulated closure graph stores exactly strict reachability
of the condensed graph. -/
theorem _update_U_char {cp : List (α × List String)}
    {cg : List (α × List α)} {c2i : List (α × Nat)}
    {U : List (Nat × List Nat)} {P : List (Nat × List String)}
    (h : _update_categorygraph cp cg c2i = .ok (U, P)) :
    ∀ i j, j ∈ lookupD U i ↔
      ReachesPlus
        (buildCondensed cg (fun c => (alookup c2i c).getD 0)).1 i j := by
  obtain ⟨L, hL, hU, _⟩ := _update_ok_inv h
  subst hU
  have hI : ∀ i j,
      i ∈ lookupD (buildCondensed cg (fun c => (alookup c2i c).getD 0)).2 j ↔
      j ∈ lookupD (buildCondensed cg (fun c => (alookup c2i c).getD 0)).1 i := by
    intro i j
    rw [buildCondensed_I_mem, buildCondensed_U_mem]
  have hdiag : ∀ i,
      i ∉ lookupD (buildCondensed cg (fun c => (alookup c2i c).getD 0)).1 i := by
    intro i hc
    rw [buildCondensed_U_mem] at hc
    exact hc.2 rfl
  exact accumulate_char hI hdiag hL

theorem mem_foldl_setUnion {x : β} :
    ∀ (ls : List (List β)) (acc : List β),
      x ∈ ls.foldl setUnion acc ↔ x ∈ acc ∨ ∃ l ∈ ls, x ∈ l := by
  intro ls
  induction ls with
  | nil =>
      intro acc
      simp
  | cons l rest ih =>
      intro acc
      rw [List.foldl_cons, ih (setUnion acc l)]
      rw [mem_setUnion]
      constructor
      · rintro ((h | h) | ⟨l2, hl2, hx⟩)
        · exact Or.inl h
        · exact Or.inr ⟨l, List.mem_cons_self l rest, h⟩
        · exact Or.inr ⟨l2, List.mem_cons_of_mem l hl2, hx⟩
      · rintro (h | ⟨l2, hl2, hx⟩)
        · exact Or.inl (Or.inl h)
        · rcases List.mem_cons.mp hl2 with rfl | hl3
          · exact Or.inl (Or.inr hx)
          · exact Or.inr ⟨l2, hl3, hx⟩

/-- One step of the sub category loop of show_category_alllinks. -/
def alStep (acc : List Nat × List (Nat × List String) × List (List String))
    (sub_c : Nat) :
    List Nat × List (Nat × List String) × List (List String) :=
  (acc.1 ++ [sub_c], autoviv acc.2.1 sub_c,
   acc.2.2 ++ [lookupD acc.2.1 sub_c])

theorem alllinks_step_fold :
    ∀ (subs acc1 : List Nat) (cpA : List (Nat × List String))
      (acc3 : List (List String)),
      (subs.foldl alStep (acc1, cpA, acc3)).1 = acc1 ++ subs ∧
      (∀ k, lookupD (subs.foldl alStep (acc1, cpA, acc3)).2.1 k =
        lookupD cpA k) ∧
      (subs.foldl alStep (acc1, cpA, acc3)).2.2 =
        acc3 ++ subs.map (fun s => lookupD cpA s) := by
  intro subs
  induction subs with
  | nil =>
      intro acc1 cpA acc3
      exact ⟨(List.append_nil _).symm, fun k => rfl,
        (List.append_nil _).symm⟩
  | cons s rest ih =>
      intro acc1 cpA acc3
      rw [List.foldl_cons]
      have hstep : alStep (acc1, cpA, acc3) s =
          (acc1 ++ [s], autoviv cpA s, acc3 ++ [lookupD cpA s]) := rfl
      rw [hstep]
      obtain ⟨ih1, ih2, ih3⟩ := ih (acc1 ++ [s]) (autoviv cpA s)
        (acc3 ++ [lookupD cpA s])
      refine ⟨?_, ?_, ?_⟩
      · rw [ih1, List.append_assoc]
        rfl
      · intro k
        rw [ih2 k, autoviv_lookupD]
      · rw [ih3, List.append_assoc]
        have : ∀ k, lookupD (autoviv cpA s) k = lookupD cpA k :=
          fun k => autoviv_lookupD cpA s k
        rw [List.map_congr_left (fun a _ => this a)]
        rfl

/-- For a known category, show_category_alllinks prints the recorded
page entry of its index together with the entries of all recorded sub
indices. -/
theorem show_alllinks_printed {cp : List (Nat × List String)}
    {cg : List (Nat × List Nat)} {c2i : List (α × Nat)} {c : α}
    {index : Nat} (h : alookup c2i c = some index) :
    ∃ cats pages,
      (show_category_alllinks cp cg c2i c).printed = some (cats, pages) ∧
      ∀ x, x ∈ pages ↔
        (x ∈ lookupD cp index ∨ ∃ s ∈ lookupD cg index, x ∈ lookupD cp s) := by
  unfold show_category_alllinks
  simp only [h]
  refine ⟨_, _, rfl, ?_⟩
  intro x
  show x ∈ ((lookupD (autoviv cp index) index ::
      ((lookupD (autoviv cg index) index).foldl alStep
        ([], autoviv cp index, [])).2.2).foldl setUnion []) ↔ _
  obtain ⟨h1, h2, h3⟩ := alllinks_step_fold
    (lookupD (autoviv cg index) index) [] (autoviv cp index) []
  rw [h3, mem_foldl_setUnion]
  simp only [List.not_mem_nil, false_or, List.nil_append]
  constructor
  · rintro ⟨l, hl, hx⟩
    rcases List.mem_cons.mp hl with rfl | hl2
    · left
      rw [autoviv_lookupD] at hx
      exact hx
    · obtain ⟨s, hs, rfl⟩ := List.mem_map.mp hl2
      right
      rw [autoviv_lookupD] at hs hx
      exact ⟨s, hs, hx⟩
  · rintro (hx | ⟨s, hs, hx⟩)
    · exact ⟨lookupD (autoviv cp index) index, List.mem_cons_self _ _,
        by rw [autoviv_lookupD]; exact hx⟩
    · refine ⟨lookupD (autoviv cp index) s, ?_,
        by rw [autoviv_lookupD]; exact hx⟩
      refine List.mem_cons_of_mem _ (List.mem_map.mpr ⟨s, ?_, rfl⟩)
      rw [autoviv_lookupD]
      exact hs

theorem reaches_target_node {g : List (α × List α)} {a b : α}
    (h : Reaches g a b) : a = b ∨ b ∈ graphNodes g := by
  induction h with
  | refl v => exact Or.inl rfl
  | @head u w v he hr ih =>
      rcases ih with rfl | hn
      · exact Or.inr (child_mem_graphNodes he)
      · exact Or.inr hn

/-! ## The visited-set DFS query: termination and characterization -/

def unvisCount (g : List (α × List α)) (s : DfsState α) : Nat :=
  ((graphNodes g).filter (fun x => decide (x ∉ s.visited))).length

theorem dfsList_marks {visit1 : DfsState α → α → Option (DfsState α)}
    (Hm : ∀ s v s2, visit1 s v = some s2 → ∀ x ∈ s.visited, x ∈ s2.visited) :
    ∀ (l : List α) (s s2 : DfsState α), dfsList visit1 s l = some s2 →
      ∀ x ∈ s.visited, x ∈ s2.visited := by
  intro l
  induction l with
  | nil =>
      intro s s2 h
      simp only [dfsList] at h
      cases h
      exact fun x hx => hx
  | cons v vs ih =>
      intro s s2 h
      simp only [dfsList] at h
      rcases h1 : visit1 s v with _ | s3
      · rw [h1] at h
        cases h
      · rw [h1] at h
        exact fun x hx => ih s3 s2 h x (Hm s v s3 h1 x hx)

theorem dfsVisit_marks (cp : List (α × List String))
    (cg : List (α × List α)) :
    ∀ (f : Nat) (s : DfsState α) (v : α) (s2 : DfsState α),
      dfsVisit cp cg f s v = some s2 → ∀ x ∈ s.visited, x ∈ s2.visited := by
  intro f
  induction f with
  | zero =>
      intro s v s2 h
      simp only [dfsVisit] at h
      by_cases hv : v ∈ s.visited
      · rw [if_pos hv] at h
        cases h
        exact fun x hx => hx
      · rw [if_neg hv] at h
        cases h
  | succ f ih =>
      intro s v s2 h
      simp only [dfsVisit] at h
      by_cases hv : v ∈ s.visited
      · rw [if_pos hv] at h
        cases h
        exact fun x hx => hx
      · rw [if_neg hv] at h
        rcases hcp : alookup cp v with _ | ps <;> simp only [hcp] at h <;>
          rcases hcg : alookup cg v with _ | subs <;> simp only [hcg] at h
        · cases h
          exact fun x hx => List.mem_cons_of_mem v hx
        · exact fun x hx => dfsList_marks ih subs _ s2 h x
            (List.mem_cons_of_mem v hx)
        · cases h
          exact fun x hx => List.mem_cons_of_mem v hx
        · exact fun x hx => dfsList_marks ih subs _ s2 h x
            (List.mem_cons_of_mem v hx)

theorem unvisCount_mono {g : List (α × List α)} {s s2 : DfsState α}
    (h : ∀ x ∈ s.visited, x ∈ s2.visited) :
    unvisCount g s2 ≤ unvisCount g s := by
  apply length_filter_mono
  intro x _ hx
  simp only [decide_eq_true_eq] at hx ⊢
  exact fun hc => hx (h x hc)

theorem unvisCount_push {g : List (α × List α)} {s s2 : DfsState α} {v : α}
    (hg : v ∈ graphNodes g) (hv : v ∉ s.visited) (hmark : v ∈ s2.visited)
    (h : ∀ x ∈ s.visited, x ∈ s2.visited) :
    unvisCount g s2 < unvisCount g s := by
  apply length_filter_lt (List.nodup_dedup _) hg
  · simp [hmark]
  · simp [hv]
  · intro x _ hx
    simp only [decide_eq_true_eq] at hx ⊢
    exact fun hc => hx (h x hc)

theorem dfsList_no_none {cp : List (α × List String)}
    {cg : List (α × List α)} {F : Nat}
    (H : ∀ s v, v ∈ graphNodes cg → unvisCount cg s < F →
      dfsVisit cp cg F s v ≠ none) :
    ∀ (l : List α) (s : DfsState α), (∀ x ∈ l, x ∈ graphNodes cg) →
      unvisCount cg s < F → dfsList (dfsVisit cp cg F) s l ≠ none := by
  intro l
  induction l with
  | nil =>
      intro s _ _ h
      simp only [dfsList] at h
      cases h
  | cons v vs ih =>
      intro s hl hcnt h
      simp only [dfsList] at h
      rcases h1 : dfsVisit cp cg F s v with _ | s2
      · exact H s v (hl v (List.mem_cons_self v vs)) hcnt h1
      · rw [h1] at h
        have hm := dfsVisit_marks cp cg F s v s2 h1
        exact ih s2 (fun x hx => hl x (List.mem_cons_of_mem v hx))
          (Nat.lt_of_le_of_lt (unvisCount_mono hm) hcnt) h

theorem dfsVisit_no_none {cp : List (α × List String)}
    {cg : List (α × List α)} :
    ∀ (f : Nat) (s : DfsState α) (v : α), v ∈ graphNodes cg →
      unvisCount cg s < f → dfsVisit cp cg f s v ≠ none := by
  intro f
  induction f with
  | zero =>
      intro s v _ hc h
      exact absurd hc (Nat.not_lt_zero _)
  | succ f ih =>
      intro s v hg hc h
      simp only [dfsVisit] at h
      by_cases hv : v ∈ s.visited
      · rw [if_pos hv] at h
        cases h
      · rw [if_neg hv] at h
        rcases hcp : alookup cp v with _ | ps <;> simp only [hcp] at h <;>
          rcases hcg : alookup cg v with _ | subs <;> simp only [hcg] at h
        · cases h
        · refine dfsList_no_none (fun s3 v3 hg3 hc3 => ih s3 v3 hg3 hc3)
            subs _ ?_ ?_ h
          · intro y hy
            apply child_mem_graphNodes (x := v)
            unfold lookupD
            rw [hcg]
            exact hy
          · have hlt : unvisCount cg
                ({ visited := v :: s.visited,
                   cats := setUnion s.cats subs,
                   pages := s.pages } : DfsState α) < unvisCount cg s :=
              unvisCount_push hg hv (List.mem_cons_self v s.visited)
                (fun x hx => List.mem_cons_of_mem v hx)
            omega
        · cases h
        · refine dfsList_no_none (fun s3 v3 hg3 hc3 => ih s3 v3 hg3 hc3)
            subs _ ?_ ?_ h
          · intro y hy
            apply child_mem_graphNodes (x := v)
            unfold lookupD
            rw [hcg]
            exact hy
          · have hlt : unvisCount cg
                ({ visited := v :: s.visited,
                   cats := setUnion s.cats subs,
                   pages := setUnion s.pages ps } : DfsState α) <
                unvisCount cg s :=
              unvisCount_push hg hv (List.mem_cons_self v s.visited)
                (fun x hx => List.mem_cons_of_mem v hx)
            omega

/-- What one DFS visit guarantees: monotone visited set, the root
visited, new nodes reachable from the root, new nodes closed under
edges, and pages extended by exactly the direct pages of new nodes. -/
structure DfsPost (cp : List (α × List String)) (cg : List (α × List α))
    (s : DfsState α) (v : α) (s2 : DfsState α) : Prop where
  mono : ∀ w ∈ s.visited, w ∈ s2.visited
  v_vis : v ∈ s2.visited
  sound : ∀ w ∈ s2.visited, w ∈ s.visited ∨ Reaches cg v w
  closed : ∀ w ∈ s2.visited, w ∉ s.visited → ∀ y, Edge cg w y →
    y ∈ s2.visited
  pages : ∀ x, x ∈ s2.pages ↔ (x ∈ s.pages ∨
    ∃ d qs, d ∈ s2.visited ∧ d ∉ s.visited ∧
      alookup cp d = some qs ∧ x ∈ qs)

/-- Composing the page characterization across two successive states. -/
theorem dfs_pages_comp {cp : List (α × List String)}
    {s s1 s2 : DfsState α}
    (hmono : ∀ w ∈ s.visited, w ∈ s1.visited)
    (hmono2 : ∀ w ∈ s1.visited, w ∈ s2.visited)
    (h1 : ∀ x, x ∈ s1.pages ↔ (x ∈ s.pages ∨
      ∃ d qs, d ∈ s1.visited ∧ d ∉ s.visited ∧
        alookup cp d = some qs ∧ x ∈ qs))
    (h2 : ∀ x, x ∈ s2.pages ↔ (x ∈ s1.pages ∨
      ∃ d qs, d ∈ s2.visited ∧ d ∉ s1.visited ∧
        alookup cp d = some qs ∧ x ∈ qs)) :
    ∀ x, x ∈ s2.pages ↔ (x ∈ s.pages ∨
      ∃ d qs, d ∈ s2.visited ∧ d ∉ s.visited ∧
        alookup cp d = some qs ∧ x ∈ qs) := by
  intro x
  rw [h2 x, h1 x]
  constructor
  · rintro ((hx | ⟨d, qs, h3, h4, h5, h6⟩) | ⟨d, qs, h3, h4, h5, h6⟩)
    · exact Or.inl hx
    · exact Or.inr ⟨d, qs, hmono2 d h3, h4, h5, h6⟩
    · exact Or.inr ⟨d, qs, h3, fun hc => h4 (hmono d hc), h5, h6⟩
  · rintro (hx | ⟨d, qs, h3, h4, h5, h6⟩)
    · exact Or.inl (Or.inl hx)
    · by_cases hd1 : d ∈ s1.visited
      · exact Or.inl (Or.inr ⟨d, qs, hd1, h4, h5, h6⟩)
      · exact Or.inr ⟨d, qs, h3, hd1, h5, h6⟩

/-- The child loop of the DFS visit, relative to any one-node visitor
satisfying the visit postcondition. -/
theorem dfsList_post {cp : List (α × List String)}
    {cg : List (α × List α)}
    {visit1 : DfsState α → α → Option (DfsState α)}
    (H : ∀ s v s2, visit1 s v = some s2 → DfsPost cp cg s v s2) :
    ∀ (l : List α) (s s2 : DfsState α), dfsList visit1 s l = some s2 →
      (∀ w ∈ s.visited, w ∈ s2.visited) ∧
      (∀ y ∈ l, y ∈ s2.visited) ∧
      (∀ w ∈ s2.visited, w ∈ s.visited ∨ ∃ y ∈ l, Reaches cg y w) ∧
      (∀ w ∈ s2.visited, w ∉ s.visited → ∀ y, Edge cg w y →
        y ∈ s2.visited) ∧
      (∀ x, x ∈ s2.pages ↔ (x ∈ s.pages ∨
        ∃ d qs, d ∈ s2.visited ∧ d ∉ s.visited ∧
          alookup cp d = some qs ∧ x ∈ qs)) := by
  intro l
  induction l with
  | nil =>
      intro s s2 h
      simp only [dfsList] at h
      cases h
      refine ⟨fun w hw => hw, fun y hy => absurd hy (List.not_mem_nil y),
        fun w hw => Or.inl hw, fun w hw hw2 y _ => absurd hw hw2, ?_⟩
      intro x
      constructor
      · exact fun hx => Or.inl hx
      · rintro (hx | ⟨d, qs, h3, h4, _, _⟩)
        · exact hx
        · exact absurd h3 h4
  | cons v vs ih =>
      intro s s2 h
      simp only [dfsList] at h
      rcases h1 : visit1 s v with _ | sm
      · rw [h1] at h
        cases h
      · rw [h1] at h
        have hp := H s v sm h1
        obtain ⟨Lmono, Lall, Lsound, Lclosed, Lpages⟩ := ih sm s2 h
        refine ⟨?_, ?_, ?_, ?_, ?_⟩
        · exact fun w hw => Lmono w (hp.mono w hw)
        · intro y hy
          rcases List.mem_cons.mp hy with rfl | hy2
          · exact Lmono y hp.v_vis
          · exact Lall y hy2
        · intro w hw
          rcases Lsound w hw with hsm | ⟨y, hy, hr⟩
          · rcases hp.sound w hsm with hs | hr
            · exact Or.inl hs
            · exact Or.inr ⟨v, List.mem_cons_self v vs, hr⟩
          · exact Or.inr ⟨y, List.mem_cons_of_mem v hy, hr⟩
        · intro w hw hw2 y hy
          by_cases hwm : w ∈ sm.visited
          · exact Lmono y (hp.closed w hwm hw2 y hy)
          · exact Lclosed w hw hwm y hy
        · exact dfs_pages_comp hp.mono Lmono hp.pages Lpages

/-- Full postcondition of one DFS visit, by induction on the depth
budget. -/
theorem dfsVisit_post (cp : List (α × List String))
    (cg : List (α × List α)) :
    ∀ (f : Nat) (s : DfsState α) (v : α) (s2 : DfsState α),
      dfsVisit cp cg f s v = some s2 → DfsPost cp cg s v s2 := by
  intro f
  induction f with
  | zero =>
      intro s v s2 h
      simp only [dfsVisit] at h
      by_cases hv : v ∈ s.visited
      · rw [if_pos hv] at h
        cases h
        refine ⟨fun w hw => hw, hv, fun w hw => Or.inl hw,
          fun w hw hw2 y _ => absurd hw hw2, ?_⟩
        intro x
        constructor
        · exact fun hx => Or.inl hx
        · rintro (hx | ⟨d, qs, h3, h4, _, _⟩)
          · exact hx
          · exact absurd h3 h4
      · rw [if_neg hv] at h
        cases h
  | succ f ih =>
      intro s v s2 h
      simp only [dfsVisit] at h
      by_cases hv : v ∈ s.visited
      · rw [if_pos hv] at h
        cases h
        refine ⟨fun w hw => hw, hv, fun w hw => Or.inl hw,
          fun w hw hw2 y _ => absurd hw hw2, ?_⟩
        intro x
        constructor
        · exact fun hx => Or.inl hx
        · rintro (hx | ⟨d, qs, h3, h4, _, _⟩)
          · exact hx
          · exact absurd h3 h4
      · rw [if_neg hv] at h
        have hmid : ∀ (pg : List String)
            (hpg : ∀ x, x ∈ pg ↔ (x ∈ s.pages ∨
              ∃ qs, alookup cp v = some qs ∧ x ∈ qs))
            (ct : List α) (hcg : alookup cg v = none)
            (h2 : ({ visited := v :: s.visited, cats := ct, pages := pg }
              : DfsState α) = s2),
            DfsPost cp cg s v s2 := by
          intro pg hpg ct hcg h2
          subst h2
          refine ⟨fun w hw => List.mem_cons_of_mem v hw,
            List.mem_cons_self v s.visited, ?_, ?_, ?_⟩
          · intro w hw
            rcases List.mem_cons.mp hw with rfl | hw2
            · exact Or.inr (Reaches.refl w)
            · exact Or.inl hw2
          · intro w hw hw2 y hy
            rcases List.mem_cons.mp hw with rfl | hw3
            · exfalso
              unfold Edge lookupD at hy
              rw [hcg] at hy
              exact absurd hy (List.not_mem_nil y)
            · exact absurd hw3 hw2
          · intro x
            rw [hpg x]
            constructor
            · rintro (hx | ⟨qs, h5, h6⟩)
              · exact Or.inl hx
              · exact Or.inr ⟨v, qs, List.mem_cons_self v s.visited, hv,
                  h5, h6⟩
            · rintro (hx | ⟨d, qs, h3, h4, h5, h6⟩)
              · exact Or.inl hx
              · rcases List.mem_cons.mp h3 with rfl | h7
                · exact Or.inr ⟨qs, h5, h6⟩
                · exact absurd h7 h4
        have hmid2 : ∀ (pg : List String)
            (hpg : ∀ x, x ∈ pg ↔ (x ∈ s.pages ∨
              ∃ qs, alookup cp v = some qs ∧ x ∈ qs))
            (ct : List α) (subs : List α) (hcg : alookup cg v = some subs)
            (h2 : dfsList (dfsVisit cp cg f)
              ({ visited := v :: s.visited, cats := ct, pages := pg }
                : DfsState α) subs = some s2),
            DfsPost cp cg s v s2 := by
          intro pg hpg ct subs hcg h2
          obtain ⟨Lmono, Lall, Lsound, Lclosed, Lpages⟩ :=
            dfsList_post (fun s3 v3 s4 h4 => ih s3 v3 s4 h4) subs _ s2 h2
          have hsubs : ∀ y, Edge cg v y ↔ y ∈ subs := by
            intro y
            unfold Edge lookupD
            rw [hcg]
            exact Iff.rfl
          have hmono : ∀ w ∈ s.visited, w ∈ s2.visited :=
            fun w hw => Lmono w (List.mem_cons_of_mem v hw)
          have hvv : v ∈ s2.visited := Lmono v (List.mem_cons_self v _)
          refine ⟨hmono, hvv, ?_, ?_, ?_⟩
          · intro w hw
            rcases Lsound w hw with hw2 | ⟨y, hy, hr⟩
            · rcases List.mem_cons.mp hw2 with rfl | hw3
              · exact Or.inr (Reaches.refl w)
              · exact Or.inl hw3
            · exact Or.inr (Reaches.head ((hsubs y).mpr hy) hr)
          · intro w hw hw2 y hy
            by_cases hwm : w ∈ v :: s.visited
            · rcases List.mem_cons.mp hwm with rfl | hw3
              · exact Lall y ((hsubs y).mp hy)
              · exact absurd hw3 hw2
            · exact Lclosed w hw hwm y hy
          · have hstep : ∀ x, x ∈
                ({ visited := v :: s.visited, cats := ct, pages := pg }
                  : DfsState α).pages ↔
                (x ∈ s.pages ∨ ∃ d qs,
                  d ∈ ({ visited := v :: s.visited, cats := ct, pages := pg }
                    : DfsState α).visited ∧
                  d ∉ s.visited ∧ alookup cp d = some qs ∧ x ∈ qs) := by
              intro x
              rw [hpg x]
              constructor
              · rintro (hx | ⟨qs, h5, h6⟩)
                · exact Or.inl hx
                · exact Or.inr ⟨v, qs, List.mem_cons_self v s.visited, hv,
                    h5, h6⟩
              · rintro (hx | ⟨d, qs, h3, h4, h5, h6⟩)
                · exact Or.inl hx
                · rcases List.mem_cons.mp h3 with rfl | h7
                  · exact Or.inr ⟨qs, h5, h6⟩
                  · exact absurd h7 h4
            exact dfs_pages_comp (fun w hw => List.mem_cons_of_mem v hw)
              Lmono hstep Lpages
        rcases hcp : alookup cp v with _ | ps <;> simp only [hcp] at h <;>
          rcases hcg : alookup cg v with _ | subs <;> simp only [hcg] at h
        · refine hmid s.pages ?_ (s.cats) hcg (Option.some_inj.mp h)
          intro x
          constructor
          · exact fun hx => Or.inl hx
          · rintro (hx | ⟨qs, h5, _⟩)
            · exact hx
            · rw [hcp] at h5
              cases h5
        · refine hmid2 s.pages ?_ _ subs hcg h
          intro x
          constructor
          · exact fun hx => Or.inl hx
          · rintro (hx | ⟨qs, h5, _⟩)
            · exact hx
            · rw [hcp] at h5
              cases h5
        · refine hmid (setUnion s.pages ps) ?_ (s.cats) hcg
            (Option.some_inj.mp h)
          intro x
          rw [mem_setUnion]
          constructor
          · rintro (hx | hx)
            · exact Or.inl hx
            · exact Or.inr ⟨ps, hcp, hx⟩
          · rintro (hx | ⟨qs, h5, h6⟩)
            · exact Or.inl hx
            · rw [hcp] at h5
              injection h5 with h5
              exact Or.inr (h5 ▸ h6)
        · refine hmid2 (setUnion s.pages ps) ?_ _ subs hcg h
          intro x
          rw [mem_setUnion]
          constructor
          · rintro (hx | hx)
            · exact Or.inl hx
            · exact Or.inr ⟨ps, hcp, hx⟩
          · rintro (hx | ⟨qs, h5, h6⟩)
            · exact Or.inl hx
            · rw [hcp] at h5
              injection h5 with h5
              exact Or.inr (h5 ▸ h6)

/-- The DFS query prints, for a node of the subcategory relation,
exactly the direct pages of the raw-reachable categories. -/
theorem with_dfs_char {cp : List (α × List String)}
    {cg : List (α × List α)} {c : α} (hc : c ∈ graphNodes cg) :
    ∃ cats pages,
      show_category_alllinks_with_dfs cp cg c = some (cats, pages) ∧
      ∀ x, x ∈ pages ↔
        ∃ d qs, Reaches cg c d ∧ alookup cp d = some qs ∧ x ∈ qs := by
  unfold show_category_alllinks_with_dfs
  rcases hdv : dfsVisit cp cg (defaultFuel cg + 1)
      (⟨[], [], []⟩ : DfsState α) c with _ | s
  · exfalso
    refine dfsVisit_no_none (defaultFuel cg + 1)
      (⟨[], [], []⟩ : DfsState α) c hc ?_ hdv
    have hle : unvisCount cg (⟨[], [], []⟩ : DfsState α) ≤
        (graphNodes cg).length := by
      unfold unvisCount
      exact List.length_filter_le _ _
    unfold defaultFuel
    omega
  · refine ⟨s.cats, s.pages, rfl, ?_⟩
    have hpost := dfsVisit_post cp cg (defaultFuel cg + 1)
      (⟨[], [], []⟩ : DfsState α) c s hdv
    have hvis : ∀ w, w ∈ s.visited ↔ Reaches cg c w := by
      intro w
      constructor
      · intro hw
        rcases hpost.sound w hw with h2 | h2
        · exact absurd h2 (List.not_mem_nil w)
        · exact h2
      · intro hr
        have main : ∀ a b, Reaches cg a b → a ∈ s.visited →
            b ∈ s.visited := by
          intro a b hab
          induction hab with
          | refl v => exact fun hv => hv
          | @head u w2 v he hr2 ih =>
              intro hu
              exact ih (hpost.closed u hu (List.not_mem_nil u) w2 he)
        exact main c w hr hpost.v_vis
    intro x
    rw [hpost.pages x]
    constructor
    · rintro (hx | ⟨d, qs, h3, _, h5, h6⟩)
      · exact absurd hx (List.not_mem_nil x)
      · exact ⟨d, qs, (hvis d).mp h3, h5, h6⟩
    · rintro ⟨d, qs, h3, h5, h6⟩
      exact Or.inr ⟨d, qs, (hvis d).mpr h3, List.not_mem_nil d, h5, h6⟩

theorem enumSwap_pos (x : α) :
    ∀ (l : List α) (k i : Nat),
      alookup ((l.enumFrom k).map (fun p => (p.2, p.1))) x = some i →
      ∃ j, i = k + j ∧ l[j]? = some x := by
  intro l
  induction l with
  | nil =>
      intro k i h
      exact Option.noConfusion h
  | cons a t ih =>
      intro k i h
      have h2 : alookup ((a, k) ::
          (t.enumFrom (k + 1)).map (fun p => (p.2, p.1))) x = some i := h
      unfold alookup at h2
      by_cases hax : a = x
      · rw [if_pos hax] at h2
        injection h2 with h3
        refine ⟨0, by omega, ?_⟩
        rw [List.getElem?_cons_zero, hax]
      · rw [if_neg hax] at h2
        obtain ⟨j, hj1, hj2⟩ := ih (k + 1) i h2
        refine ⟨j + 1, by omega, ?_⟩
        rw [List.getElem?_cons_succ]
        exact hj2

theorem enumSwap_some (x : α) :
    ∀ (l : List α) (k : Nat), x ∈ l →
      ∃ i, alookup ((l.enumFrom k).map (fun p => (p.2, p.1))) x = some i := by
  intro l
  induction l with
  | nil =>
      intro k hx
      exact absurd hx (List.not_mem_nil x)
  | cons a t ih =>
      intro k hx
      show ∃ i, alookup ((a, k) ::
        (t.enumFrom (k + 1)).map (fun p => (p.2, p.1))) x = some i
      by_cases hax : a = x
      · refine ⟨k, ?_⟩
        unfold alookup
        rw [if_pos hax]
      · rcases List.mem_cons.mp hx with rfl | hx2
        · exact absurd rfl hax
        · obtain ⟨i, hi⟩ := ih (k + 1) hx2
          refine ⟨i, ?_⟩
          unfold alookup
          rw [if_neg hax]
          exact hi

/-- With distinct raw index assignments, a cycle through two distinct
categories survives condensation, and the no-SCC pipeline raises the
cycle error. -/
theorem without_scc_cycle_error {cp : List (α × List String)}
    {cg : List (α × List α)} {u v : α}
    (huv : u ≠ v) (h1 : Reaches cg u v) (h2 : Reaches cg v u) :
    update_categorygraph_without_scc cp cg = .error .cycle := by
  have hkey : ∀ {a b : α}, Edge cg a b → a ∈ graphNodes cg := by
    intro a b he
    apply key_mem_graphNodes
    intro hc
    unfold Edge lookupD at he
    rw [hc] at he
    exact absurd he (List.not_mem_nil b)
  have hun : u ∈ graphNodes cg := by
    rcases h1.cases_eq_or_plus with heq | ⟨w, he, _⟩
    · exact absurd heq huv
    · exact hkey he
  have hvn : v ∈ graphNodes cg := by
    rcases h2.cases_eq_or_plus with heq | ⟨w, he, _⟩
    · exact absurd heq.symm huv
    · exact hkey he
  obtain ⟨iu, hiu0⟩ := enumSwap_some u (graphNodes cg) 0 hun
  obtain ⟨iv, hiv0⟩ := enumSwap_some v (graphNodes cg) 0 hvn
  have hiu : alookup ((graphNodes cg).enum.map (fun p => (p.2, p.1))) u =
      some iu := hiu0
  have hiv : alookup ((graphNodes cg).enum.map (fun p => (p.2, p.1))) v =
      some iv := hiv0
  have hne : iu ≠ iv := by
    intro hc
    obtain ⟨ju, hju1, hju2⟩ := enumSwap_pos u (graphNodes cg) 0 iu hiu0
    obtain ⟨jv, hjv1, hjv2⟩ := enumSwap_pos v (graphNodes cg) 0 iv hiv0
    have hj : ju = jv := by omega
    rw [hj, hjv2] at hju2
    injection hju2 with h3
    exact huv h3.symm
  have hcu := reaches_raw_to_cond
    (fun c => (alookup ((graphNodes cg).enum.map (fun p => (p.2, p.1))) c).getD 0)
    h1
  have hcv := reaches_raw_to_cond
    (fun c => (alookup ((graphNodes cg).enum.map (fun p => (p.2, p.1))) c).getD 0)
    h2
  have hcu2 : Reaches
      (buildCondensed cg (fun c =>
        (alookup ((graphNodes cg).enum.map (fun p => (p.2, p.1))) c).getD 0)).1
      ((alookup ((graphNodes cg).enum.map (fun p => (p.2, p.1))) u).getD 0)
      ((alookup ((graphNodes cg).enum.map (fun p => (p.2, p.1))) v).getD 0) :=
    hcu
  have hcv2 : Reaches
      (buildCondensed cg (fun c =>
        (alookup ((graphNodes cg).enum.map (fun p => (p.2, p.1))) c).getD 0)).1
      ((alookup ((graphNodes cg).enum.map (fun p => (p.2, p.1))) v).getD 0)
      ((alookup ((graphNodes cg).enum.map (fun p => (p.2, p.1))) u).getD 0) :=
    hcv
  rw [hiu, hiv] at hcu2 hcv2
  simp only [Option.getD_some] at hcu2 hcv2
  have hplus : ReachesPlus
      (buildCondensed cg (fun c =>
        (alookup ((graphNodes cg).enum.map (fun p => (p.2, p.1))) c).getD 0)).1
      iu iu := by
    rcases hcu2.cases_eq_or_plus with heq | ⟨w, he, hr⟩
    · exact absurd heq hne
    · exact ⟨w, he, hr.trans hcv2⟩
  rcases ht : topological_sort_dfs
      (buildCondensed cg (fun c =>
        (alookup ((graphNodes cg).enum.map (fun p => (p.2, p.1))) c).getD 0)).1
      with e | L
  · cases e with
    | fuel => exact absurd ht (topo_no_fuel _)
    | cycle =>
        unfold update_categorygraph_without_scc _update_categorygraph
        simp only [ht]
  · exact absurd hplus (topo_ok_no_cycle ht iu)

theorem withoutScc_c2i_entry {cg : List (α × List α)} {c : α} {j : Nat}
    (h : (c, j) ∈ (graphNodes cg).enum.map (fun p => (p.2, p.1))) :
    c ∈ graphNodes cg := by
  obtain ⟨p, hp, he⟩ := List.mem_map.mp h
  have hc := congrArg Prod.fst he
  simp only at hc
  subst hc
  have : ∀ (l : List α) (n : Nat) (q : Nat × α),
      q ∈ l.enumFrom n → q.2 ∈ l := by
    intro l
    induction l with
    | nil => intro n q hq; cases hq
    | cons a rest ih =>
        intro n q hq
        rcases List.mem_cons.mp hq with rfl | hq2
        · exact List.mem_cons_self a rest
        · exact List.mem_cons_of_mem _ (ih (n + 1) q hq2)
  exact this (graphNodes cg) 0 p hp

theorem withoutScc_c2i_none {cg : List (α × List α)} {c : α}
    (h : c ∉ graphNodes cg) :
    alookup ((graphNodes cg).enum.map (fun p => (p.2, p.1))) c = none := by
  rw [alookup_eq_none]
  intro b hb
  exact h (withoutScc_c2i_entry hb)

/-- Inversion of the SCC-mode wrapper. -/
theorem update_categorygraph_inv {cp : List (α × List String)}
    {cg : List (α × List α)} {U : List (Nat × List Nat)}
    {P : List (Nat × List String)} {c2i : List (α × Nat)}
    (h : update_categorygraph cp cg = .ok (U, P, c2i)) :
    ∃ C, decompose_scc cg = some C ∧ c2i = buildC2I C ∧
      _update_categorygraph cp cg c2i = .ok (U, P) := by
  unfold update_categorygraph at h
  rcases hd : decompose_scc cg with _ | C
  · rw [hd] at h
    cases h
  · simp only [hd] at h
    rcases hu : _update_categorygraph cp cg (buildC2I C) with e | UP
    · rw [hu] at h
      cases h
    · rw [hu] at h
      injection h with h2
      cases h2
      exact ⟨C, rfl, rfl, hu⟩

/-- Inversion of the no-SCC wrapper. -/
theorem update_without_scc_inv {cp : List (α × List String)}
    {cg : List (α × List α)} {U : List (Nat × List Nat)}
    {P : List (Nat × List String)} {c2i : List (α × Nat)}
    (h : update_categorygraph_without_scc cp cg = .ok (U, P, c2i)) :
    c2i = (graphNodes cg).enum.map (fun p => (p.2, p.1)) ∧
      _update_categorygraph cp cg c2i = .ok (U, P) := by
  unfold update_categorygraph_without_scc at h
  rcases hu : _update_categorygraph cp cg
      ((graphNodes cg).enum.map (fun p => (p.2, p.1))) with e | UP
  · rw [hu] at h
    cases h
  · rw [hu] at h
    injection h with h2
    cases h2
    exact ⟨rfl, hu⟩

/-- Inversion of _update_categorygraph: the page map is always the
re-keyed buildPages. -/
theorem _update_pages {cp : List (α × List String)}
    {cg : List (α × List α)} {c2i : List (α × Nat)}
    {U : List (Nat × List Nat)} {P : List (Nat × List String)}
    (h : _update_categorygraph cp cg c2i = .ok (U, P)) :
    P = buildPages cp c2i := by
  unfold _update_categorygraph at h
  rcases ht : topological_sort_dfs
      (buildCondensed cg (fun c => (alookup c2i c).getD 0)).1 with e | L
  · rw [ht] at h
    cases h
  · rw [ht] at h
    injection h with h2
    cases h2
    rfl

/-- The indexed query prints nothing for a name without an index. -/
theorem show_alllinks_unknown {cp : List (Nat × List String)}
    {cg : List (Nat × List Nat)} {c2i : List (α × Nat)} {c : α}
    (h : alookup c2i c = none) :
    show_category_alllinks cp cg c2i c = ⟨none, cp, cg⟩ := by
  unfold show_category_alllinks
  rw [h]

/-- The pages printed by show_category_alllinks over the SCC-mode
structures are exactly the direct pages of the raw-reachable
categories. -/
theorem alllinks_pages_reachable {cp : List (α × List String)}
    {cg : List (α × List α)} {U : List (Nat × List Nat)}
    {P : List (Nat × List String)} {c2i : List (α × Nat)}
    (hk : NodupKeys cg)
    (h : update_categorygraph cp cg = .ok (U, P, c2i))
    {c : α} {index : Nat} (hc : alookup c2i c = some index) :
    ∃ cats pages,
      (show_category_alllinks P U c2i c).printed = some (cats, pages) ∧
      ∀ x, x ∈ pages ↔
        ∃ d qs, Reaches cg c d ∧ alookup cp d = some qs ∧ x ∈ qs := by
  obtain ⟨CL, hd, hc2i, hup⟩ := update_categorygraph_inv h
  subst hc2i
  obtain ⟨L, hL, hU, hP⟩ := _update_ok_inv hup
  have hUc := _update_U_char hup
  obtain ⟨cats, pages, hpr, hmem⟩ := show_alllinks_printed hc
  have hndk := buildC2I_nodupKeys CL
  have hPm : ∀ (j : Nat) (x : String), x ∈ lookupD P j ↔
      ∃ d qs, (d, j) ∈ buildC2I CL ∧ alookup cp d = some qs ∧ x ∈ qs := by
    intro j x
    rw [hP]
    exact buildPages_mem cp (buildC2I CL) x j
  refine ⟨cats, pages, hpr, ?_⟩
  intro x
  rw [hmem x]
  constructor
  · rintro (hx | ⟨s, hsU, hxs⟩)
    · obtain ⟨d, qs, hdm, hcp, hxq⟩ := (hPm index x).mp hx
      have hdl : alookup (buildC2I CL) d = some index :=
        mem_alookup_of_nodup hndk hdm
      exact ⟨d, qs, (scc_same_mutual hd hc hdl).1, hcp, hxq⟩
    · obtain ⟨d, qs, hdm, hcp, hxq⟩ := (hPm s x).mp hxs
      have hdl : alookup (buildC2I CL) d = some s :=
        mem_alookup_of_nodup hndk hdm
      have hrp := (hUc index s).mp hsU
      have hr := reachesPlus_reaches hrp
      obtain ⟨y, hyn, hys, hyr⟩ := reaches_cond_to_raw hd hk hr c
        (scc_idx_node hd hc) hc
      have hyd : Reaches cg y d := (scc_same_mutual hd hys hdl).1
      exact ⟨d, qs, hyr.trans hyd, hcp, hxq⟩
  · rintro ⟨d, qs, hreach, hcp, hxq⟩
    have hdn : d ∈ graphNodes cg := by
      rcases reaches_target_node hreach with rfl | hn
      · exact scc_idx_node hd hc
      · exact hn
    obtain ⟨jd, hjd⟩ := scc_node_idx hd hdn
    by_cases hji : jd = index
    · subst hji
      exact Or.inl ((hPm jd x).mpr ⟨d, qs, alookup_mem hjd, hcp, hxq⟩)
    · right
      refine ⟨jd, ?_, (hPm jd x).mpr ⟨d, qs, alookup_mem hjd, hcp, hxq⟩⟩
      rw [hUc index jd]
      have hcnd := reaches_raw_to_cond
        (fun c2 => (alookup (buildC2I CL) c2).getD 0) hreach
      have hcnd2 : Reaches
          (buildCondensed cg
            (fun c2 => (alookup (buildC2I CL) c2).getD 0)).1
          ((alookup (buildC2I CL) c).getD 0)
          ((alookup (buildC2I CL) d).getD 0) := hcnd
      rw [hc, hjd] at hcnd2
      simp only [Option.getD_some] at hcnd2
      rcases hcnd2.cases_eq_or_plus with heq | hplus
      · exact absurd heq.symm hji
      · exact hplus



/-! ## Claim theorems -/

/-- Claim C3, counterexample.  The claim states that for an acyclic
input graph the child of every edge precedes the parent in the list
returned by topological_sort_dfs.  In the acyclic single-edge graph
0 → 1 the function returns [0, 1]: the parent 0 occupies the earlier
position and the child 1 the later one, so the claim is false as
stated. -/
theorem C3_counterexample :
    (∀ z, ¬ ReachesPlus g01 z z) ∧
    Edge g01 0 1 ∧
    topological_sort_dfs g01 = .ok [0, 1] ∧
    ¬ (([0, 1] : List Nat).indexOf 1 < ([0, 1] : List Nat).indexOf 0) :=
  ⟨g01_acyclic, (by decide : (1 : Nat) ∈ lookupD g01 0), rfl, by decide⟩

/-- Claim C3, amended.  For every acyclic input graph,
topological_sort_dfs succeeds, and for every edge parent → child the
PARENT occupies the earlier position and the child the later one: the
returned order is roots first (its reverse, which the closure builder
walks, is leaves first). -/
theorem C3_amended (g : List (α × List α))
    (hacy : ∀ z, ¬ ReachesPlus g z z) :
    ∃ L, topological_sort_dfs g = .ok L ∧
      ∀ u w, Edge g u w →
        u ∈ L ∧ w ∈ L ∧ L.indexOf u < L.indexOf w := by
  obtain ⟨L, hL⟩ := topo_ok_of_acyclic hacy
  exact ⟨L, hL, fun u w he => (topo_ok_props hL).2.2 u w he⟩

/-- Claim C3, witness for the amended theorem at the concrete acyclic
graph 0 → 1. -/
theorem C3_witness :
    (∀ z, ¬ ReachesPlus g01 z z) ∧
    (∃ L, topological_sort_dfs g01 = .ok L ∧
      ∀ u w, Edge g01 u w →
        u ∈ L ∧ w ∈ L ∧ L.indexOf u < L.indexOf w) :=
  ⟨g01_acyclic, C3_amended g01 g01_acyclic⟩

/-- Claim C9, counterexample.  A occurs as a key of categorypages and
nowhere in categorygraph, yet its page title p also listed under the
indexed category B does appear in an entry of the returned page map,
so read literally "its pages appear in no entry of the returned page
map" is false. -/
theorem C9_counterexample :
    alookup ([("A", ["p"]), ("B", ["p"])] : List (String × List String))
      "A" = some ["p"] ∧
    "A" ∉ graphNodes [("B", ["C"])] ∧
    update_categorygraph [("A", ["p"]), ("B", ["p"])] [("B", ["C"])] =
      .ok ([(1, [0]), (0, [])], [(1, ["p"])], [("C", 0), ("B", 1)]) ∧
    "p" ∈ lookupD ([(1, ["p"])] : List (Nat × List String)) 1 :=
  ⟨rfl, by decide, rfl, by decide⟩

/-- Claim C9, amended.  For a category name that is a key of
categorypages but occurs nowhere in categorygraph: both pipelines
return a category2indices with no entry for it; every page in every
entry of the returned page map is contributed by a category appearing
in the subcategory relation (so never through the isolated name,
though an equal page title may also be listed by an indexed
category); show_category_alllinks on the name prints nothing, while
show_category_directlinks still shows its direct pages. -/
theorem C9_amended {cp : List (α × List String)} {cg : List (α × List α)}
    {c : α} {ps : List String}
    (hcp : alookup cp c = some ps) (hng : c ∉ graphNodes cg) :
    (∀ U P c2i, update_categorygraph cp cg = .ok (U, P, c2i) →
      alookup c2i c = none ∧
      (∀ x j, x ∈ lookupD P j →
        ∃ d qs, d ∈ graphNodes cg ∧ d ≠ c ∧ (d, j) ∈ c2i ∧
          alookup cp d = some qs ∧ x ∈ qs) ∧
      (show_category_alllinks P U c2i c).printed = none) ∧
    (∀ U P c2i, update_categorygraph_without_scc cp cg = .ok (U, P, c2i) →
      alookup c2i c = none ∧
      (∀ x j, x ∈ lookupD P j →
        ∃ d qs, d ∈ graphNodes cg ∧ d ≠ c ∧ (d, j) ∈ c2i ∧
          alookup cp d = some qs ∧ x ∈ qs) ∧
      (show_category_alllinks P U c2i c).printed = none) ∧
    (show_category_directlinks cp cg c).2 = some ps := by
  refine ⟨?_, ?_, ?_⟩
  · intro U P c2i h
    obtain ⟨C, hC, hc2i, hup⟩ := update_categorygraph_inv h
    have hnone : alookup c2i c = none := by
      rw [hc2i]
      apply buildC2I_alookup_none
      intro comp hcomp hc
      exact hng (decompose_scc_nodes hC comp hcomp c hc)
    refine ⟨hnone, ?_, ?_⟩
    · intro x j hx
      rw [_update_pages hup] at hx
      obtain ⟨d, qs, hd, hcpd, hxq⟩ := (buildPages_mem cp c2i x j).mp hx
      have hdg : d ∈ graphNodes cg := by
        rw [hc2i] at hd
        obtain ⟨comp, hcomp, hdc⟩ := buildC2I_entry hd
        exact decompose_scc_nodes hC comp hcomp d hdc
      exact ⟨d, qs, hdg, fun hdc => hng (hdc ▸ hdg), hd, hcpd, hxq⟩
    · rw [show_alllinks_unknown hnone]
  · intro U P c2i h
    obtain ⟨hc2i, hup⟩ := update_without_scc_inv h
    have hnone : alookup c2i c = none := by
      rw [hc2i]
      exact withoutScc_c2i_none hng
    refine ⟨hnone, ?_, ?_⟩
    · intro x j hx
      rw [_update_pages hup] at hx
      obtain ⟨d, qs, hd, hcpd, hxq⟩ := (buildPages_mem cp c2i x j).mp hx
      have hdg : d ∈ graphNodes cg := by
        rw [hc2i] at hd
        exact withoutScc_c2i_entry hd
      exact ⟨d, qs, hdg, fun hdc => hng (hdc ▸ hdg), hd, hcpd, hxq⟩
    · rw [show_alllinks_unknown hnone]
  · unfold show_category_directlinks
    rw [hcp]

/-- Claim C9, witness for the amended theorem at a concrete input
with the isolated category A. -/
theorem C9_witness :
    alookup ([("A", ["p"]), ("B", ["p"])] : List (String × List String))
      "A" = some ["p"] ∧
    "A" ∉ graphNodes [("B", ["C"])] ∧
    (show_category_directlinks [("A", ["p"]), ("B", ["p"])]
      [("B", ["C"])] "A").2 = some ["p"] :=
  ⟨rfl, by decide,
    (C9_amended
      (show alookup [("A", ["p"]), ("B", ["p"])] "A" = some ["p"] from rfl)
      (show "A" ∉ graphNodes [("B", ["C"])] by decide)).2.2⟩

/-- Claim C10, counterexample.  The claim states that decompose_scc
and topological_sort_dfs use an explicit work stack so that traversal
depth does not grow with the longest simple path.  Both source
functions are nested recursive visitors on the language call stack;
the embedding makes the call depth explicit as a fuel parameter
(decremented exactly where the Python recursion nests).  On the chain
0 → 1 → 2 → 3 → 4 (longest simple path of 4 edges) a call depth
budget of 4 is exhausted by both functions, and a budget of 5 is
needed: the traversal depth grows with the path. -/
theorem C10_counterexample :
    topological_sort_dfs_fuel 4 (chainG 4) = .error .fuel ∧
    topological_sort_dfs_fuel 5 (chainG 4) = .ok [0, 1, 2, 3, 4] ∧
    decompose_scc_fuel 4 (chainG 4) = none ∧
    decompose_scc_fuel 5 (chainG 4) = some [[4], [3], [2], [1], [0]] :=
  ⟨rfl, rfl, rfl, rfl⟩

/-- Claim C10, amended.  decompose_scc and topological_sort_dfs use
language call-stack recursion (nested recursive visitors), so the
required call depth grows linearly with the longest simple path: on
the chain with n + 1 edges both fail with a depth budget of n + 1,
while both succeed with the default budget of node count + 1. -/
theorem C10_amended (n : Nat) :
    topological_sort_dfs_fuel (n + 1) (chainG (n + 1)) = .error .fuel ∧
    (∃ L, topological_sort_dfs (chainG (n + 1)) = .ok L) ∧
    decompose_scc_fuel (n + 1) (chainG (n + 1)) = none ∧
    (∃ C, decompose_scc (chainG (n + 1)) = some C) :=
  ⟨chain_topo_insufficient n,
   topo_ok_of_acyclic (chainG_acyclic (n + 1)),
   chain_scc_insufficient n,
   decompose_scc_isSome (chainG (n + 1))⟩

/-- Relation between an input map and its state after a sequence of
defaultdict reads: every original entry intact, any new entry empty. -/
def OnlyEmptyAdds (m m' : List (α × List β)) : Prop :=
  ∀ k, alookup m' k = alookup m k ∨
    (alookup m k = none ∧ alookup m' k = some [])

theorem onlyEmptyAdds_refl (m : List (α × List β)) : OnlyEmptyAdds m m :=
  fun _ => Or.inl rfl

theorem onlyEmptyAdds_autoviv {m m' : List (α × List β)}
    (h : OnlyEmptyAdds m m') (a : α) :
    OnlyEmptyAdds m (autoviv m' a) := by
  intro k
  rcases autoviv_lookup m' a k with h1 | ⟨h1, h2⟩
  · rw [h1]
    exact h k
  · rcases h k with h3 | ⟨h3, h4⟩
    · rw [← h3]
      exact Or.inr ⟨h1 ▸ h3 ▸ h3.symm ▸ (h3 ▸ rfl), h2⟩
    · rw [h4] at h1
      cases h1

theorem onlyEmptyAdds_fold {cp1 : List (Nat × List String)} :
    ∀ (subs : List Nat) (acc : List Nat × List (Nat × List String) ×
        List (List String)),
      OnlyEmptyAdds cp1 acc.2.1 →
      OnlyEmptyAdds cp1
        (subs.foldl
          (fun acc sub_c =>
            (acc.1 ++ [sub_c], autoviv acc.2.1 sub_c,
             acc.2.2 ++ [lookupD acc.2.1 sub_c])) acc).2.1 := by
  intro subs
  induction subs with
  | nil => intro acc h; exact h
  | cons sc rest ih =>
      intro acc h
      exact ih _ (onlyEmptyAdds_autoviv h sc)

/-- Claim C8, counterexample.  The claim states that the three query
operations change no key of the mappings passed in.  Querying A in
the index built from categorypages = B ↦ p and categorygraph =
A ↦ B makes show_category_alllinks read categorypages[1] through the
defaultdict, inserting a fresh empty entry for key 1 that was not
present before: a key is added. -/
theorem C8_counterexample :
    update_categorygraph [("B", ["p"])] [("A", ["B"])] =
      .ok ([(1, [0]), (0, [])], [(0, ["p"])], [("B", 0), ("A", 1)]) ∧
    (show_category_alllinks [(0, ["p"])] [(1, [0]), (0, [])]
        [("B", 0), ("A", 1)] "A").pagesOut = [(0, ["p"]), (1, [])] ∧
    alookup ([(0, ["p"])] : List (Nat × List String)) 1 = none ∧
    alookup ((show_category_alllinks [(0, ["p"])] [(1, [0]), (0, [])]
        [("B", 0), ("A", 1)] "A").pagesOut) 1 = some [] :=
  ⟨rfl, rfl, rfl, rfl⟩

/-- Claim C8, amended.  show_category_directlinks and
show_category_alllinks_with_dfs only perform membership-guarded reads
and are read-only (their embeddings are pure functions of the input
maps); category2indices is never modified.  show_category_alllinks
leaves every existing entry of categorypages and categorygraph
unchanged, and its only modification is inserting fresh empty-set
entries for indices missing from those defaultdicts. -/
theorem C8_amended (cp : List (Nat × List String))
    (cg : List (Nat × List Nat)) (c2i : List (α × Nat)) (c : α) :
    OnlyEmptyAdds cp (show_category_alllinks cp cg c2i c).pagesOut ∧
    OnlyEmptyAdds cg (show_category_alllinks cp cg c2i c).graphOut := by
  unfold show_category_alllinks
  rcases hc : alookup c2i c with _ | index
  · exact ⟨onlyEmptyAdds_refl cp, onlyEmptyAdds_refl cg⟩
  · constructor
    · exact onlyEmptyAdds_fold _ _
        (onlyEmptyAdds_autoviv (onlyEmptyAdds_refl cp) index)
    · exact onlyEmptyAdds_autoviv (onlyEmptyAdds_refl cg) index

/-- Claim C7: a category name unknown to the structures being queried
raises no error and yields empty results in all three queries:
show_category_directlinks prints neither set, the visited-set DFS
query prints two empty sets, and the indexed query prints nothing and
leaves the maps untouched. -/
theorem C7_unknown_queries (cp : List (α × List String))
    (cg : List (α × List α)) (cpn : List (Nat × List String))
    (cgn : List (Nat × List Nat)) (c2i : List (α × Nat)) (c : α)
    (h1 : alookup cg c = none) (h2 : alookup cp c = none)
    (h3 : alookup c2i c = none) :
    show_category_directlinks cp cg c = (none, none) ∧
    show_category_alllinks_with_dfs cp cg c = some ([], []) ∧
    show_category_alllinks cpn cgn c2i c = ⟨none, cpn, cgn⟩ := by
  refine ⟨?_, ?_, ?_⟩
  · unfold show_category_directlinks
    rw [h1, h2]
  · unfold show_category_alllinks_with_dfs
    have hv : dfsVisit cp cg (defaultFuel cg + 1) ⟨[], [], []⟩ c =
        some ⟨[c], [], []⟩ := by
      simp [dfsVisit, h1, h2]
    rw [hv]
  · unfold show_category_alllinks
    rw [h3]

/-- Claim C7, witness: the unknown name Z against small concrete
structures. -/
theorem C7_witness :
    show_category_directlinks [("A", ["p"])] [("A", ["B"])] "Z" =
      (none, none) ∧
    show_category_alllinks_with_dfs [("A", ["p"])] [("A", ["B"])] "Z" =
      some ([], []) ∧
    show_category_alllinks [(0, ["p"])] [(0, [])] [("A", 0)] "Z" =
      ⟨none, [(0, ["p"])], [(0, [])]⟩ :=
  C7_unknown_queries [("A", ["p"])] [("A", ["B"])] [(0, ["p"])] [(0, [])]
    [("A", 0)] "Z" rfl rfl rfl

/-! ## Claims C1, C2, C4, C5, C6 -/

/-- Concrete inputs used by the witnesses below. -/
def cgAn : List (String × List String) :=
  [("Animals", ["Mammals", "Birds"]), ("Mammals", ["Dogs"])]

def cpAn : List (String × List String) :=
  [("Dogs", ["Labrador"]), ("Birds", ["Eagle"])]

def cgXY : List (String × List String) :=
  [("X", ["Y"]), ("Y", ["X", "Z"])]

def cpXY : List (String × List String) :=
  [("X", ["px"]), ("Z", ["pz"])]

/-- Claim C4: the components returned by decompose_scc are non-empty,
pairwise disjoint, cover exactly the categories appearing as a key or
a value of the subcategory relation, their members are mutually
reachable, and each component is maximal: anything mutually reachable
with a member belongs to it. -/
theorem C4_partition {g : List (α × List α)} {CL : List (List α)}
    (hd : decompose_scc g = some CL) :
    (∀ c ∈ CL, c ≠ []) ∧
    (∀ (p q : Nat) (c c2 : List α), CL[p]? = some c → CL[q]? = some c2 →
      p ≠ q → ∀ x ∈ c, x ∉ c2) ∧
    (∀ x, (∃ c ∈ CL, x ∈ c) ↔
      ((∃ vs, (x, vs) ∈ g) ∨ (∃ k vs, (k, vs) ∈ g ∧ x ∈ vs))) ∧
    (∀ c ∈ CL, ∀ a ∈ c, ∀ b ∈ c, Reaches g a b) ∧
    (∀ c ∈ CL, ∀ a ∈ c, ∀ z, Reaches g a z → Reaches g z a → z ∈ c) := by
  obtain ⟨hnd, hmem, hne, hreach, hclosed⟩ := decompose_scc_sound hd
  refine ⟨hne, ?_, ?_, hreach, ?_⟩
  · intro p q c c2 hp hq hpq x hxc hxc2
    exact hpq (flatMap_nodup_unique CL p q c c2 hnd hp hq hxc hxc2)
  · intro x
    constructor
    · rintro ⟨c, hc, hxc⟩
      have hxc2 : x ∈ id c := hxc
      exact mem_graphNodes.mp
        ((hmem x).mp (List.mem_flatMap.mpr ⟨c, hc, hxc2⟩))
    · intro h2
      obtain ⟨c, hc, hxc⟩ :=
        List.mem_flatMap.mp ((hmem x).mpr (mem_graphNodes.mpr h2))
      exact ⟨c, hc, hxc⟩
  · intro c hc a ha z hr1 hr2
    by_cases hza : z = a
    · exact hza ▸ ha
    · have hzn : z ∈ graphNodes g := by
        rcases hr2.cases_eq_or_plus with heq | ⟨w, he, _⟩
        · exact absurd heq hza
        · apply key_mem_graphNodes
          intro hcn
          unfold Edge lookupD at he
          rw [hcn] at he
          exact absurd he (List.not_mem_nil w)
      obtain ⟨p, hplt, hpe⟩ := List.getElem_of_mem hc
      have hp : CL[p]? = some c := by
        rw [List.getElem?_eq_getElem hplt, hpe]
      have hap := buildC2I_pos hnd hp ha
      obtain ⟨pz, hpz⟩ := scc_node_idx hd hzn
      have hppz := scc_mutual_eq hd hr1 hr2 hap hpz
      rw [← hppz] at hpz
      obtain ⟨c3, hc3, hzc3⟩ := buildC2I_pos_inv hnd hpz
      rw [hp] at hc3
      injection hc3 with hc3
      exact hc3 ▸ hzc3

/-- Claim C4, witness: the two-cycle over 0 and 1 collapsing into the
single component [0, 1]. -/
theorem C4_witness :
    decompose_scc [(0, [1]), (1, [0])] = some [[0, 1]] ∧
    ((∀ c ∈ [[0, 1]], c ≠ ([] : List Nat)) ∧
     (∀ (p q : Nat) (c c2 : List Nat), [[0, 1]][p]? = some c →
       [[0, 1]][q]? = some c2 → p ≠ q → ∀ x ∈ c, x ∉ c2) ∧
     (∀ x : Nat, (∃ c ∈ [[0, 1]], x ∈ c) ↔
       ((∃ vs, (x, vs) ∈ [(0, [1]), (1, [0])]) ∨
        (∃ k vs, (k, vs) ∈ [(0, [1]), (1, [0])] ∧ x ∈ vs))) ∧
     (∀ c ∈ [[0, 1]], ∀ a ∈ c, ∀ b ∈ c,
       Reaches [(0, [1]), (1, [0])] a b) ∧
     (∀ c ∈ [[0, 1]], ∀ a ∈ c, ∀ z, Reaches [(0, [1]), (1, [0])] a z →
       Reaches [(0, [1]), (1, [0])] z a → z ∈ c)) :=
  ⟨rfl, C4_partition rfl⟩

/-- Claim C5: in the closure structure built by the pipeline, the
direct pages of an index are contained in its closure, and along
every raw subcategory edge the child's closure is contained in the
parent's. -/
theorem C5_closure_monotone {cp : List (α × List String)}
    {cg : List (α × List α)} {U : List (Nat × List Nat)}
    {P : List (Nat × List String)} {c2i : List (α × Nat)}
    (h : update_categorygraph cp cg = .ok (U, P, c2i)) :
    (∀ n : Nat, ∀ x ∈ lookupD P n, x ∈ closureOf P U n) ∧
    (∀ x y : α, Edge cg x y → ∀ ix iy, alookup c2i x = some ix →
      alookup c2i y = some iy →
      ∀ s ∈ closureOf P U iy, s ∈ closureOf P U ix) := by
  obtain ⟨CL, hd, hc2i, hup⟩ := update_categorygraph_inv h
  have hUc := _update_U_char hup
  constructor
  · intro n x hx
    unfold closureOf
    exact List.mem_append.mpr (Or.inl hx)
  · intro x y hxy ix iy hix hiy s hs
    by_cases hexy : ix = iy
    · exact hexy ▸ hs
    · have hedge : iy ∈ lookupD
          (buildCondensed cg (fun c => (alookup c2i c).getD 0)).1 ix := by
        rw [buildCondensed_U_mem]
        unfold Edge lookupD at hxy
        rcases hax : alookup cg x with _ | vs
        · rw [hax] at hxy
          exact absurd hxy (List.not_mem_nil y)
        · rw [hax] at hxy
          refine ⟨⟨x, vs, y, alookup_mem hax, hxy, ?_, ?_⟩, hexy⟩
          · show (alookup c2i x).getD 0 = ix
            rw [hix]
            rfl
          · show (alookup c2i y).getD 0 = iy
            rw [hiy]
            rfl
      have hrp : ReachesPlus
          (buildCondensed cg (fun c => (alookup c2i c).getD 0)).1 ix iy :=
        ⟨iy, hedge, Reaches.refl iy⟩
      unfold closureOf at hs ⊢
      rcases List.mem_append.mp hs with hs2 | hs2
      · refine List.mem_append.mpr (Or.inr ?_)
        refine List.mem_flatMap.mpr ⟨iy, ?_, hs2⟩
        rw [hUc ix iy]
        exact hrp
      · obtain ⟨t, ht, hst⟩ := List.mem_flatMap.mp hs2
        refine List.mem_append.mpr (Or.inr (List.mem_flatMap.mpr ⟨t, ?_, hst⟩))
        rw [hUc ix t]
        rw [hUc iy t] at ht
        obtain ⟨w, hw, hwr⟩ := hrp
        exact ⟨w, hw, hwr.trans (reachesPlus_reaches ht)⟩

/-- Claim C5, witness: the Animals hierarchy. -/
theorem C5_witness :
    update_categorygraph cpAn cgAn =
      .ok ([(3, [1, 2, 0]), (1, [0]), (0, []), (2, [])],
        [(0, ["Labrador"]), (2, ["Eagle"])],
        [("Dogs", 0), ("Mammals", 1), ("Birds", 2), ("Animals", 3)]) ∧
    ((∀ n : Nat, ∀ x ∈ lookupD [(0, ["Labrador"]), (2, ["Eagle"])] n,
       x ∈ closureOf [(0, ["Labrador"]), (2, ["Eagle"])]
         [(3, [1, 2, 0]), (1, [0]), (0, []), (2, [])] n) ∧
     (∀ x y : String, Edge cgAn x y → ∀ ix iy,
       alookup [("Dogs", 0), ("Mammals", 1), ("Birds", 2), ("Animals", 3)] x
         = some ix →
       alookup [("Dogs", 0), ("Mammals", 1), ("Birds", 2), ("Animals", 3)] y
         = some iy →
       ∀ s ∈ closureOf [(0, ["Labrador"]), (2, ["Eagle"])]
         [(3, [1, 2, 0]), (1, [0]), (0, []), (2, [])] iy,
         s ∈ closureOf [(0, ["Labrador"]), (2, ["Eagle"])]
           [(3, [1, 2, 0]), (1, [0]), (0, []), (2, [])] ix)) :=
  ⟨rfl, C5_closure_monotone
    (show update_categorygraph cpAn cgAn =
      .ok ([(3, [1, 2, 0]), (1, [0]), (0, []), (2, [])],
        [(0, ["Labrador"]), (2, ["Eagle"])],
        [("Dogs", 0), ("Mammals", 1), ("Birds", 2), ("Animals", 3)])
      from rfl)⟩

/-- Claim C1: for every pair of dict inputs and every category known
to the returned index, the SCC-mode pipeline followed by the indexed
query yields exactly the direct pages of the categories reachable by
zero or more subcategory edges — no extra and no missing pages. -/
theorem C1_closure_pages {cp : List (α × List String)}
    {cg : List (α × List α)} {U : List (Nat × List Nat)}
    {P : List (Nat × List String)} {c2i : List (α × Nat)}
    (hk : NodupKeys cg)
    (h : update_categorygraph cp cg = .ok (U, P, c2i))
    {c : α} {index : Nat} (hc : alookup c2i c = some index) :
    ∃ cats pages,
      (show_category_alllinks P U c2i c).printed = some (cats, pages) ∧
      ∀ x, x ∈ pages ↔
        ∃ d qs, Reaches cg c d ∧ alookup cp d = some qs ∧ x ∈ qs :=
  alllinks_pages_reachable hk h hc

/-- Claim C1, witness: the Animals hierarchy queried at Animals. -/
theorem C1_witness :
    NodupKeys cgAn ∧
    update_categorygraph cpAn cgAn =
      .ok ([(3, [1, 2, 0]), (1, [0]), (0, []), (2, [])],
        [(0, ["Labrador"]), (2, ["Eagle"])],
        [("Dogs", 0), ("Mammals", 1), ("Birds", 2), ("Animals", 3)]) ∧
    alookup [("Dogs", 0), ("Mammals", 1), ("Birds", 2), ("Animals", 3)]
      "Animals" = some 3 ∧
    (∃ cats pages,
      (show_category_alllinks [(0, ["Labrador"]), (2, ["Eagle"])]
        [(3, [1, 2, 0]), (1, [0]), (0, []), (2, [])]
        [("Dogs", 0), ("Mammals", 1), ("Birds", 2), ("Animals", 3)]
        "Animals").printed = some (cats, pages) ∧
      ∀ x, x ∈ pages ↔
        ∃ d qs, Reaches cgAn "Animals" d ∧ alookup cpAn d = some qs ∧
          x ∈ qs) :=
  ⟨by unfold NodupKeys; decide, rfl, rfl,
    C1_closure_pages (by unfold NodupKeys; decide)
      (show update_categorygraph cpAn cgAn =
        .ok ([(3, [1, 2, 0]), (1, [0]), (0, []), (2, [])],
        [(0, ["Labrador"]), (2, ["Eagle"])],
        [("Dogs", 0), ("Mammals", 1), ("Birds", 2), ("Animals", 3)])
        from rfl) rfl⟩

/-- Claim C2, counterexample: the self-loop graph A→A is cyclic, yet
the no-SCC pipeline succeeds (the index-graph construction drops self
loops before the ordering step); and in SCC mode the component of the
cycle X↔Y has closure px, pz — not the union px of its members'
direct page sets. -/
theorem C2_counterexample :
    ReachesPlus [("A", ["A"])] "A" "A" ∧
    update_categorygraph_without_scc ([] : List (String × List String))
      [("A", ["A"])] = .ok ([(0, [])], [], [("A", 0)]) ∧
    update_categorygraph cpXY cgXY =
      .ok ([(1, [0]), (0, [])], [(0, ["pz"]), (1, ["px"])],
        [("Z", 0), ("X", 1), ("Y", 1)]) ∧
    alookup [("Z", 0), ("X", 1), ("Y", 1)] "X" =
      alookup [("Z", 0), ("X", 1), ("Y", 1)] "Y" ∧
    (show_category_alllinks [(0, ["pz"]), (1, ["px"])] [(1, [0]), (0, [])]
      [("Z", 0), ("X", 1), ("Y", 1)] "X").printed =
      some (["Z"], ["px", "pz"]) ∧
    "pz" ∈ ["px", "pz"] ∧
    "pz" ∉ lookupD cpXY "X" ∧ "pz" ∉ lookupD cpXY "Y" :=
  ⟨⟨"A", by unfold Edge; decide, Reaches.refl "A"⟩, rfl, rfl, rfl, rfl,
    by decide, by decide, by decide⟩

/-- Claim C2, amended: a cycle through two distinct categories makes
the no-SCC ordering raise the cycle error; SCC mode always succeeds
on dict input; mutually reachable categories receive one component
index; and a component's closure unions the direct pages of all
reachable categories. -/
theorem C2_amended {cp : List (α × List String)} {cg : List (α × List α)} :
    (∀ u v : α, u ≠ v → Reaches cg u v → Reaches cg v u →
      update_categorygraph_without_scc cp cg = .error .cycle) ∧
    (NodupKeys cg → ∃ U P c2i, update_categorygraph cp cg = .ok (U, P, c2i)) ∧
    (∀ U P c2i, update_categorygraph cp cg = .ok (U, P, c2i) →
      ∀ x y : α, Reaches cg x y → Reaches cg y x →
      ∀ p q, alookup c2i x = some p → alookup c2i y = some q → p = q) ∧
    (NodupKeys cg →
      ∀ U P c2i, update_categorygraph cp cg = .ok (U, P, c2i) →
      ∀ (c : α) (index : Nat), alookup c2i c = some index →
      ∃ cats pages,
        (show_category_alllinks P U c2i c).printed = some (cats, pages) ∧
        ∀ x, x ∈ pages ↔
          ∃ d qs, Reaches cg c d ∧ alookup cp d = some qs ∧ x ∈ qs) := by
  refine ⟨?_, ?_, ?_, ?_⟩
  · intro u v huv h1 h2
    exact without_scc_cycle_error huv h1 h2
  · intro hk
    exact update_categorygraph_ok cp cg hk
  · intro U P c2i h x y hr1 hr2 p q hx hy
    obtain ⟨CL, hd, hc2i, _⟩ := update_categorygraph_inv h
    subst hc2i
    exact scc_mutual_eq hd hr1 hr2 hx hy
  · intro hk U P c2i h c index hc
    exact alllinks_pages_reachable hk h hc

/-- Claim C2, witness: the graph X↔Y→Z exercises every conjunct. -/
theorem C2_witness :
    update_categorygraph_without_scc cpXY cgXY = .error .cycle ∧
    (∃ U P c2i, update_categorygraph cpXY cgXY = .ok (U, P, c2i)) ∧
    (∀ U P c2i, update_categorygraph cpXY cgXY = .ok (U, P, c2i) →
      ∀ p q, alookup c2i "X" = some p → alookup c2i "Y" = some q →
        p = q) :=
  ⟨C2_amended.1 "X" "Y" (by decide)
      (Reaches.single (by unfold Edge; decide))
      (Reaches.single (by unfold Edge; decide)),
    C2_amended.2.1 (by unfold NodupKeys; decide),
    fun U P c2i h p q hx hy =>
      C2_amended.2.2.1 U P c2i h "X" "Y"
        (Reaches.single (by unfold Edge; decide))
        (Reaches.single (by unfold Edge; decide))
        p q hx hy⟩

/-- Claim C6: over structures built in SCC mode from dict input, the
visited-set DFS query and the indexed query agree on the page set of
every category appearing in the subcategory relation. -/
theorem C6_query_agreement {cp : List (α × List String)}
    {cg : List (α × List α)} {U : List (Nat × List Nat)}
    {P : List (Nat × List String)} {c2i : List (α × Nat)}
    (hk : NodupKeys cg)
    (h : update_categorygraph cp cg = .ok (U, P, c2i))
    {c : α} (hc : c ∈ graphNodes cg) :
    ∃ catsD pagesD catsI pagesI,
      show_category_alllinks_with_dfs cp cg c = some (catsD, pagesD) ∧
      (show_category_alllinks P U c2i c).printed = some (catsI, pagesI) ∧
      ∀ x, x ∈ pagesD ↔ x ∈ pagesI := by
  obtain ⟨CL, hd, hc2i, hup⟩ := update_categorygraph_inv h
  subst hc2i
  obtain ⟨index, hidx⟩ := scc_node_idx hd hc
  obtain ⟨cd, pd, hprD, hmemD⟩ := @with_dfs_char α _ cp cg c hc
  obtain ⟨ci, pi2, hprI, hmemI⟩ := alllinks_pages_reachable hk h hidx
  exact ⟨cd, pd, ci, pi2, hprD, hprI,
    fun x => (hmemD x).trans (hmemI x).symm⟩

/-- Claim C6, witness: both queries on Animals agree as sets, even
though the two orders differ. -/
theorem C6_witness :
    NodupKeys cgAn ∧
    update_categorygraph cpAn cgAn =
      .ok ([(3, [1, 2, 0]), (1, [0]), (0, []), (2, [])],
        [(0, ["Labrador"]), (2, ["Eagle"])],
        [("Dogs", 0), ("Mammals", 1), ("Birds", 2), ("Animals", 3)]) ∧
    "Animals" ∈ graphNodes cgAn ∧
    (∃ catsD pagesD catsI pagesI,
      show_category_alllinks_with_dfs cpAn cgAn "Animals" =
        some (catsD, pagesD) ∧
      (show_category_alllinks [(0, ["Labrador"]), (2, ["Eagle"])]
        [(3, [1, 2, 0]), (1, [0]), (0, []), (2, [])]
        [("Dogs", 0), ("Mammals", 1), ("Birds", 2), ("Animals", 3)]
        "Animals").printed = some (catsI, pagesI) ∧
      ∀ x, x ∈ pagesD ↔ x ∈ pagesI) :=
  ⟨by unfold NodupKeys; decide, rfl, by decide,
    C6_query_agreement (by unfold NodupKeys; decide)
      (show update_categorygraph cpAn cgAn =
        .ok ([(3, [1, 2, 0]), (1, [0]), (0, []), (2, [])],
        [(0, ["Labrador"]), (2, ["Eagle"])],
        [("Dogs", 0), ("Mammals", 1), ("Birds", 2), ("Animals", 3)])
        from rfl) (by decide)⟩

end Category
